import Mathlib

/-!
Traffic-ASP simulator: single-cycle interpreter and 5-stage pipeline.

Shallow embedding of `src/main.c`.

* C `int` values are `Int`; the results of `+` and `-` on register values are
  reduced to the 32-bit two's-complement range by `wrap32`.
* The global arrays `regfile`, `memory` and `port_out` are total maps `Int → Int`
  together with their C sizes; every C subscript goes through `arr_read` /
  `arr_write`, which return `none` when the index is outside the array.  A cycle
  that would subscript outside an array therefore yields `none` (a fault).
* `printf` of an OUTPUT commit is recorded in `out_trace`.
* The `while` loops are bounded by `max_cycles`, so they are recursion on the
  number of iterations still allowed.
-/

namespace TrafficASP

/-! ## Constants and the instruction model (main.c 12-26) -/

def REGS : Int := 16
def MEM_WORDS : Int := 1024
def MAX_PORTS : Int := 16

inductive InstType where
  | I_NOP | I_ADD | I_SUB | I_LW | I_SW | I_BEQ | I_J | I_OUT | I_SET
  deriving DecidableEq, Repr

open InstType

structure Instr where
  type : InstType
  rd : Int
  rs : Int
  rt : Int
  imm : Int
  label : String
  raw : String
  deriving DecidableEq, Repr

/-- The all-zero instruction produced by `memset(&ins,0,sizeof(ins))` and by `{0}`. -/
def Instr.zero : Instr :=
  { type := I_NOP, rd := 0, rs := 0, rt := 0, imm := 0, label := "", raw := "" }

structure Label where
  name : String
  addr : Int
  deriving DecidableEq, Repr

/-! ## Latches (main.c 41-69) -/

structure IFID where
  valid : Bool
  pc : Int
  ins : Instr
  deriving DecidableEq, Repr

structure IDEX where
  valid : Bool
  pc : Int
  ins : Instr
  rs_val : Int
  rt_val : Int
  rd_val : Int
  deriving DecidableEq, Repr

structure EXMEM where
  valid : Bool
  pc : Int
  ins : Instr
  alu : Int
  store_val : Int
  deriving DecidableEq, Repr

structure MEMWB where
  valid : Bool
  pc : Int
  ins : Instr
  result : Int
  deriving DecidableEq, Repr

def IFID.zero : IFID := { valid := false, pc := 0, ins := Instr.zero }
def IDEX.zero : IDEX :=
  { valid := false, pc := 0, ins := Instr.zero, rs_val := 0, rt_val := 0, rd_val := 0 }
def EXMEM.zero : EXMEM :=
  { valid := false, pc := 0, ins := Instr.zero, alu := 0, store_val := 0 }
def MEMWB.zero : MEMWB := { valid := false, pc := 0, ins := Instr.zero, result := 0 }

/-! ## Machine integers and arrays -/

/-- Reduction of an integer to the range of a 32-bit C `int`. -/
def wrap32 (x : Int) : Int := (x + 2147483648) % 4294967296 - 2147483648

def add32 (a b : Int) : Int := wrap32 (a + b)
def sub32 (a b : Int) : Int := wrap32 (a - b)

/-- The map `a` with cell `i` replaced by `v`. -/
def upd (a : Int → Int) (i v : Int) : Int → Int := fun j => if j = i then v else a j

/-- C subscript read `a[i]` of an array of `size` cells; `none` outside the array. -/
def arr_read (size : Int) (a : Int → Int) (i : Int) : Option Int :=
  if 0 ≤ i ∧ i < size then some (a i) else none

/-- C subscript write `a[i] = v` of an array of `size` cells; `none` outside the array. -/
def arr_write (size : Int) (a : Int → Int) (i v : Int) : Option (Int → Int) :=
  if 0 ≤ i ∧ i < size then some (upd a i v) else none

/-- The word index used by LOAD and STORE for byte address `addr`
(`addr % 4 == 0`, `idx = addr / 4`, `idx >= 0 && idx < MEM_WORDS`), or `none` when the
access is skipped.  C `%` and `/` truncate toward zero. -/
def mem_index (addr : Int) : Option Int :=
  if addr.tmod 4 = 0 then
    let idx := addr.tdiv 4
    if 0 ≤ idx ∧ idx < MEM_WORDS then some idx else none
  else none

/-- The value a LOAD obtains for byte address `addr` (main.c 217-222, 322-327). -/
def load_val (memory : Int → Int) (addr : Int) : Int :=
  match mem_index addr with
  | some idx => memory idx
  | none => 0

/-- The memory after a STORE of `v` to byte address `addr` (main.c 227-231, 331-337). -/
def store_mem (memory : Int → Int) (addr v : Int) : Int → Int :=
  match mem_index addr with
  | some idx => upd memory idx v
  | none => memory

/-! ## Global state (main.c 28-39) -/

/-- The global arrays, with the list of printed OUTPUT commits `(port, value)`,
oldest first. -/
structure Machine where
  regfile : Int → Int
  memory : Int → Int
  port_out : Int → Int
  out_trace : List (Int × Int)

/-- The state after `reset_state` (main.c 106-111); the trace starts empty. -/
def reset_state : Machine :=
  { regfile := fun _ => 0, memory := fun _ => 0, port_out := fun _ => 0, out_trace := [] }

/-! ## Predicates on instructions (main.c 71-104, 129-132) -/

def writes_back (ins : Instr) : Bool :=
  match ins.type with
  | I_ADD => true
  | I_SUB => true
  | I_LW => true
  | I_SET => true
  | _ => false

def dest_reg (ins : Instr) : Int :=
  if !writes_back ins then -1 else ins.rd

def uses_reg_source (ins : Instr) (reg : Int) : Bool :=
  if reg < 0 then false
  else
    match ins.type with
    | I_ADD => ins.rs == reg || ins.rt == reg
    | I_SUB => ins.rs == reg || ins.rt == reg
    | I_BEQ => ins.rs == reg || ins.rt == reg
    | I_LW => ins.rs == reg
    | I_SW => ins.rs == reg || ins.rd == reg
    | I_OUT => ins.rs == reg
    | _ => false

/-- The first entry of the label table named `name` gives the address; `-1` when there
is none. -/
def find_label : List Label → String → Int
  | [], _ => -1
  | l :: ls, name => if l.name = name then l.addr else find_label ls name

/-! ## Single-cycle interpreter (main.c 206-250) -/

structure Single where
  m : Machine
  pc : Int
  cycles : Int
  executed : Int

/-- The instruction `prog[pc]`; `none` outside the program. -/
def prog_at (prog : List Instr) (pc : Int) : Option Instr :=
  if 0 ≤ pc then prog.get? pc.toNat else none

/-- The `switch` of `run_single` (main.c 213-239): the machine and program counter after
executing `ins` at `pc`. -/
def single_exec (labels : List Label) (ins : Instr) (m : Machine) (pc : Int) :
    Option (Machine × Int) :=
  match ins.type with
  | I_ADD => do
      let a ← arr_read REGS m.regfile ins.rs
      let b ← arr_read REGS m.regfile ins.rt
      let rf ← arr_write REGS m.regfile ins.rd (add32 a b)
      pure ({ m with regfile := rf }, pc + 1)
  | I_SUB => do
      let a ← arr_read REGS m.regfile ins.rs
      let b ← arr_read REGS m.regfile ins.rt
      let rf ← arr_write REGS m.regfile ins.rd (sub32 a b)
      pure ({ m with regfile := rf }, pc + 1)
  | I_LW => do
      let base ← arr_read REGS m.regfile ins.rs
      let rf ← arr_write REGS m.regfile ins.rd (load_val m.memory (add32 base ins.imm))
      pure ({ m with regfile := rf }, pc + 1)
  | I_SW => do
      let base ← arr_read REGS m.regfile ins.rd
      match mem_index (add32 base ins.imm) with
      | some idx => do
          let v ← arr_read REGS m.regfile ins.rs
          pure ({ m with memory := upd m.memory idx v }, pc + 1)
      | none => pure (m, pc + 1)
  | I_BEQ => do
      let a ← arr_read REGS m.regfile ins.rs
      let b ← arr_read REGS m.regfile ins.rt
      if a = b then
        let t := find_label labels ins.label
        if t ≥ 0 then pure (m, t) else pure (m, pc + 1)
      else pure (m, pc + 1)
  | I_J =>
      let t := find_label labels ins.label
      if t ≥ 0 then pure (m, t) else pure (m, pc + 1)
  | I_OUT => do
      let v ← arr_read REGS m.regfile ins.rs
      let po ← arr_write MAX_PORTS m.port_out ins.imm v
      pure ({ m with port_out := po, out_trace := m.out_trace ++ [(ins.imm, v)] }, pc + 1)
  | I_SET => do
      let rf ← arr_write REGS m.regfile ins.rd ins.imm
      pure ({ m with regfile := rf }, pc + 1)
  | I_NOP => pure (m, pc + 1)

/-- One iteration of the loop of `run_single` up to the cap test (main.c 211-241). -/
def single_step (prog : List Instr) (labels : List Label) (s : Single) : Option Single := do
  let ins ← prog_at prog s.pc
  let (m, pc) ← single_exec labels ins s.m s.pc
  pure { m := { m with regfile := upd m.regfile 0 0 }, pc := pc,
         cycles := s.cycles + 1, executed := s.executed + 1 }

/-- The loop of `run_single` with `more + 1` iterations still allowed by the cap: an
iteration runs when `pc < prog_len`, and the loop is left after it when the cap is
reached. -/
def single_loop (prog : List Instr) (labels : List Label) : Nat → Single → Option Single
  | 0, s => if s.pc < prog.length then single_step prog labels s else some s
  | more + 1, s =>
      if s.pc < prog.length then
        match single_step prog labels s with
        | some s1 => single_loop prog labels more s1
        | none => none
      else some s

/-- State of `run_single` on entry to its loop. -/
def single_init : Single := { m := reset_state, pc := 0, cycles := 0, executed := 0 }

/-- The state `run_single(max_cycles)` leaves: the first iteration is not guarded by the
cap, so `max (1, max_cycles)` iterations are allowed. -/
def run_single (prog : List Instr) (labels : List Label) (max_cycles : Int) : Option Single :=
  single_loop prog labels (max_cycles.toNat - 1) single_init

/-! ## Pipelined model (main.c 261-463) -/

/-- Locals of `run_pipelined` that live across cycles, with the global arrays. -/
structure Pipe where
  m : Machine
  ifid : IFID
  idex : IDEX
  exmem : EXMEM
  memwb : MEMWB
  pc : Int
  cycle : Int
  retired : Int

/-- State of `run_pipelined` on entry to its loop (main.c 263-270). -/
def pipe_init : Pipe :=
  { m := reset_state, ifid := IFID.zero, idex := IDEX.zero, exmem := EXMEM.zero,
    memwb := MEMWB.zero, pc := 0, cycle := 0, retired := 0 }

/-- The test `empty` of main.c 273. -/
def Pipe.empty (s : Pipe) : Bool :=
  !s.ifid.valid && !s.idex.valid && !s.exmem.valid && !s.memwb.valid

/-- WB stage (main.c 295-313): the machine and the retired counter after it. -/
def wb_stage (m : Machine) (retired : Int) (cur_memwb : MEMWB) : Option (Machine × Int) :=
  if cur_memwb.valid then
    let ins := cur_memwb.ins
    let done : Option Machine :=
      match ins.type with
      | I_ADD => (arr_write REGS m.regfile ins.rd cur_memwb.result).map
          fun rf => { m with regfile := rf }
      | I_SUB => (arr_write REGS m.regfile ins.rd cur_memwb.result).map
          fun rf => { m with regfile := rf }
      | I_SET => (arr_write REGS m.regfile ins.rd cur_memwb.result).map
          fun rf => { m with regfile := rf }
      | I_LW => (arr_write REGS m.regfile ins.rd cur_memwb.result).map
          fun rf => { m with regfile := rf }
      | I_OUT => (arr_write MAX_PORTS m.port_out ins.imm cur_memwb.result).map
          fun po => { m with port_out := po,
                             out_trace := m.out_trace ++ [(ins.imm, cur_memwb.result)] }
      | _ => some m
    done.map fun m1 => ({ m1 with regfile := upd m1.regfile 0 0 }, retired + 1)
  else some (m, retired)

/-- MEM stage (main.c 316-344): the memory after it and the next MEM/WB latch. -/
def mem_stage (memory : Int → Int) (cur_exmem : EXMEM) : (Int → Int) × MEMWB :=
  if cur_exmem.valid then
    match cur_exmem.ins.type with
    | I_LW =>
        (memory, { valid := true, pc := cur_exmem.pc, ins := cur_exmem.ins,
                   result := load_val memory cur_exmem.alu })
    | I_SW =>
        (store_mem memory cur_exmem.alu cur_exmem.store_val,
         { valid := true, pc := cur_exmem.pc, ins := cur_exmem.ins, result := 0 })
    | _ =>
        (memory, { valid := true, pc := cur_exmem.pc, ins := cur_exmem.ins,
                   result := cur_exmem.alu })
  else (memory, MEMWB.zero)

/-- The operand values `vrs`, `vrt`, `vrd` of the EX stage. -/
structure Operands where
  vrs : Int
  vrt : Int
  vrd : Int
  deriving DecidableEq, Repr

/-- Forwarding step from EX/MEM (main.c 355-362). -/
def forward_exmem (cur_idex : IDEX) (cur_exmem : EXMEM) (v : Operands) : Operands :=
  if cur_exmem.valid then
    let ex_dest := dest_reg cur_exmem.ins
    if ex_dest ≥ 0 ∧ cur_exmem.ins.type ≠ I_LW then
      { vrs := if cur_idex.ins.rs = ex_dest then cur_exmem.alu else v.vrs,
        vrt := if cur_idex.ins.rt = ex_dest then cur_exmem.alu else v.vrt,
        vrd := if cur_idex.ins.rd = ex_dest then cur_exmem.alu else v.vrd }
    else v
  else v

/-- Forwarding step from MEM/WB (main.c 363-370). -/
def forward_memwb (cur_idex : IDEX) (cur_memwb : MEMWB) (v : Operands) : Operands :=
  if cur_memwb.valid then
    let wb_dest := dest_reg cur_memwb.ins
    if wb_dest ≥ 0 then
      { vrs := if cur_idex.ins.rs = wb_dest then cur_memwb.result else v.vrs,
        vrt := if cur_idex.ins.rt = wb_dest then cur_memwb.result else v.vrt,
        vrd := if cur_idex.ins.rd = wb_dest then cur_memwb.result else v.vrd }
    else v
  else v

/-- The operands the EX stage computes with (main.c 351-370): the values captured at
decode, then the EX/MEM step, then the MEM/WB step. -/
def forward (cur_idex : IDEX) (cur_exmem : EXMEM) (cur_memwb : MEMWB) : Operands :=
  forward_memwb cur_idex cur_memwb
    (forward_exmem cur_idex cur_exmem
      { vrs := cur_idex.rs_val, vrt := cur_idex.rt_val, vrd := cur_idex.rd_val })

/-- What the EX stage produces. -/
structure ExOut where
  next_exmem : EXMEM
  branch_taken : Bool
  branch_target : Int
  deriving DecidableEq, Repr

/-- EX stage (main.c 347-403). -/
def ex_stage (labels : List Label) (cur_idex : IDEX) (cur_exmem : EXMEM) (cur_memwb : MEMWB) :
    ExOut :=
  if cur_idex.valid then
    let v := forward cur_idex cur_exmem cur_memwb
    let latch (alu store_val : Int) : EXMEM :=
      { valid := true, pc := cur_idex.pc, ins := cur_idex.ins, alu := alu,
        store_val := store_val }
    match cur_idex.ins.type with
    | I_ADD => ⟨latch (add32 v.vrs v.vrt) 0, false, -1⟩
    | I_SUB => ⟨latch (sub32 v.vrs v.vrt) 0, false, -1⟩
    | I_SET => ⟨latch cur_idex.ins.imm 0, false, -1⟩
    | I_LW => ⟨latch (add32 v.vrs cur_idex.ins.imm) 0, false, -1⟩
    | I_SW => ⟨latch (add32 v.vrd cur_idex.ins.imm) v.vrs, false, -1⟩
    | I_OUT => ⟨latch v.vrs 0, false, -1⟩
    | I_BEQ =>
        if v.vrs = v.vrt then
          let tgt := find_label labels cur_idex.ins.label
          if tgt ≥ 0 then ⟨latch 0 0, true, tgt⟩ else ⟨latch 0 0, false, -1⟩
        else ⟨latch 0 0, false, -1⟩
    | I_J =>
        let tgt := find_label labels cur_idex.ins.label
        if tgt ≥ 0 then ⟨latch 0 0, true, tgt⟩ else ⟨latch 0 0, false, -1⟩
    | I_NOP => ⟨latch 0 0, false, -1⟩
  else ⟨EXMEM.zero, false, -1⟩

/-- The test `hazard` of main.c 409-415. -/
def hazard (cur_ifid : IFID) (cur_idex : IDEX) : Bool :=
  cur_idex.valid && (cur_idex.ins.type == I_LW) &&
    uses_reg_source cur_ifid.ins cur_idex.ins.rd

/-- What the ID stage produces. -/
structure IdOut where
  next_idex : IDEX
  load_use_stall : Bool
  deriving DecidableEq, Repr

/-- ID stage (main.c 406-427), reading the register file left by the WB stage. -/
def id_stage (regfile : Int → Int) (branch_taken : Bool) (cur_ifid : IFID) (cur_idex : IDEX) :
    Option IdOut :=
  if branch_taken then some ⟨IDEX.zero, false⟩
  else if cur_ifid.valid then
    if hazard cur_ifid cur_idex then some ⟨IDEX.zero, true⟩
    else do
      let rs_val ← arr_read REGS regfile cur_ifid.ins.rs
      let rt_val ← arr_read REGS regfile cur_ifid.ins.rt
      let rd_val ← arr_read REGS regfile cur_ifid.ins.rd
      pure ⟨{ valid := true, pc := cur_ifid.pc, ins := cur_ifid.ins,
              rs_val := rs_val, rt_val := rt_val, rd_val := rd_val }, false⟩
  else some ⟨IDEX.zero, false⟩

/-- IF stage (main.c 430-447): the next IF/ID latch and the program counter. -/
def if_stage (prog : List Instr) (branch_taken : Bool) (branch_target : Int)
    (load_use_stall : Bool) (cur_ifid : IFID) (pc : Int) : Option (IFID × Int) :=
  if branch_taken then
    some ({ cur_ifid with valid := false }, if branch_target ≥ 0 then branch_target else pc)
  else if load_use_stall then some (cur_ifid, pc)
  else if pc < prog.length then
    (prog_at prog pc).map fun ins => ({ valid := true, pc := pc, ins := ins }, pc + 1)
  else some ({ cur_ifid with valid := false }, pc)

/-- One cycle: the state at the end of the loop body together with the three flags
of the cycle. -/
structure CycleOut where
  next : Pipe
  branch_taken : Bool
  branch_target : Int
  load_use_stall : Bool

/-- Body of the loop of `run_pipelined` (main.c 280-454): WB, MEM, EX, ID, IF on the
snapshot of the four latches, then the latch update and `cycle++`. -/
def cycle_step (prog : List Instr) (labels : List Label) (s : Pipe) : Option CycleOut := do
  let (m1, retired) ← wb_stage s.m s.retired s.memwb
  let (memory, next_memwb) := mem_stage m1.memory s.exmem
  let ex := ex_stage labels s.idex s.exmem s.memwb
  let id ← id_stage m1.regfile ex.branch_taken s.ifid s.idex
  let (next_ifid, pc) ← if_stage prog ex.branch_taken ex.branch_target id.load_use_stall
    s.ifid s.pc
  pure { next := { m := { m1 with memory := memory }, ifid := next_ifid,
                   idex := id.next_idex, exmem := ex.next_exmem, memwb := next_memwb,
                   pc := pc, cycle := s.cycle + 1, retired := retired },
         branch_taken := ex.branch_taken, branch_target := ex.branch_target,
         load_use_stall := id.load_use_stall }

/-- The loop of `run_pipelined` with `left` iterations still allowed by the cap
(main.c 272-455). -/
def pipe_loop (prog : List Instr) (labels : List Label) : Nat → Pipe → Option Pipe
  | 0, s => some s
  | left + 1, s =>
      if s.empty ∧ s.pc ≥ prog.length then some s
      else
        match cycle_step prog labels s with
        | some o => pipe_loop prog labels left o.next
        | none => none

/-- The state `run_pipelined(max_cycles)` leaves. -/
def run_pipelined (prog : List Instr) (labels : List Label) (max_cycles : Int) : Option Pipe :=
  pipe_loop prog labels max_cycles.toNat pipe_init

/-- Whether `run_pipelined` prints "Reached pipeline cap" (main.c 456-458). -/
def cap_reported (max_cycles : Int) (final : Pipe) : Bool :=
  decide (final.cycle ≥ max_cycles)

/-! ## Vocabulary of the specification -/

/-- The opcodes that write a register back: ADD, SUB, LOAD, SET-IMMEDIATE. -/
def is_writeback_op : InstType → Bool
  | I_ADD => true
  | I_SUB => true
  | I_LW => true
  | I_SET => true
  | I_NOP => false
  | I_SW => false
  | I_BEQ => false
  | I_J => false
  | I_OUT => false

/-- The operand the forwarding unit is specified to deliver for a field with register
index `r` and decode-time value `decoded`: the MEM/WB result when MEM/WB is occupied by
a write-back instruction with destination `r`; otherwise the EX/MEM ALU result when
EX/MEM is occupied by a write-back instruction other than LOAD with destination `r`;
otherwise `decoded`. -/
def expected_operand (r decoded : Int) (cur_exmem : EXMEM) (cur_memwb : MEMWB) : Int :=
  if cur_memwb.valid = true ∧ is_writeback_op cur_memwb.ins.type = true ∧
      cur_memwb.ins.rd = r then cur_memwb.result
  else if cur_exmem.valid = true ∧ is_writeback_op cur_exmem.ins.type = true ∧
      cur_exmem.ins.type ≠ I_LW ∧ cur_exmem.ins.rd = r then cur_exmem.alu
  else decoded

/-- The source-operand enumeration of the specification: `rs` and `rt` for ADD, SUB and
BRANCH-EQ; `rs` for LOAD; `rs` and `rd` for STORE; `rs` for OUTPUT; none for
SET-IMMEDIATE, JUMP and NO-OP. -/
def reads_source (ins : Instr) (r : Int) : Prop :=
  match ins.type with
  | I_ADD => ins.rs = r ∨ ins.rt = r
  | I_SUB => ins.rs = r ∨ ins.rt = r
  | I_BEQ => ins.rs = r ∨ ins.rt = r
  | I_LW => ins.rs = r
  | I_SW => ins.rs = r ∨ ins.rd = r
  | I_OUT => ins.rs = r
  | I_SET => False
  | I_J => False
  | I_NOP => False

/-- The label table has an entry named `name`. -/
def label_found (labels : List Label) (name : String) : Prop :=
  ∃ l ∈ labels, l.name = name

/-- Every address of the label table is a non-negative instruction index, as `add_label`
is called by the loader. -/
def labels_ok (labels : List Label) : Prop :=
  ∀ l ∈ labels, 0 ≤ l.addr

/-! ## Preconditions of the engine -/

/-- The three register indices of `ins` are in `0..15`, and so is the port of an
OUTPUT. -/
def Instr.in_range (ins : Instr) : Prop :=
  (0 ≤ ins.rd ∧ ins.rd < REGS) ∧ (0 ≤ ins.rs ∧ ins.rs < REGS) ∧
  (0 ≤ ins.rt ∧ ins.rt < REGS) ∧ (ins.type = I_OUT → 0 ≤ ins.imm ∧ ins.imm < MAX_PORTS)

def prog_in_range (prog : List Instr) : Prop := ∀ ins ∈ prog, ins.in_range

/-- Every occupied latch holds an instruction with in-range indices, and the program
counter is not negative. -/
def Pipe.in_range (s : Pipe) : Prop :=
  (s.ifid.valid = true → s.ifid.ins.in_range) ∧ (s.idex.valid = true → s.idex.ins.in_range) ∧
  (s.exmem.valid = true → s.exmem.ins.in_range) ∧
  (s.memwb.valid = true → s.memwb.ins.in_range) ∧ 0 ≤ s.pc

/-! ## Squashed instructions -/

/-- What a run has committed: the global arrays with the OUTPUT trace, and the
retired counter. -/
def Pipe.committed (s : Pipe) : Machine × Int := (s.m, s.retired)

/-- Two pipeline states that agree everywhere except possibly in the content of an
IF/ID latch that is empty in both. -/
def same_but_empty_ifid (a b : Pipe) : Prop :=
  a.m = b.m ∧ a.idex = b.idex ∧ a.exmem = b.exmem ∧ a.memwb = b.memwb ∧ a.pc = b.pc ∧
  a.cycle = b.cycle ∧ a.retired = b.retired ∧
  (a.ifid = b.ifid ∨ (a.ifid.valid = false ∧ b.ifid.valid = false))

/-! ## Example programs and states -/

/-- An instruction with the given opcode and fields; `raw` is left empty. -/
def mk_instr (t : InstType) (rd rs rt imm : Int) (label : String) : Instr :=
  { type := t, rd := rd, rs := rs, rt := rt, imm := imm, label := label, raw := "" }

/-- `SET R1,1 / SET R1,2 / ADD R2,R1,R1`. -/
def waw_prog : List Instr :=
  [mk_instr I_SET 1 0 0 1 "", mk_instr I_SET 1 0 0 2 "", mk_instr I_ADD 2 1 1 0 ""]

/-- `SET R2,1 / SET R3,2 / SET R5,4 / SET R1,9 / ADD R1,R2,R3 / ADD R4,R1,R5`. -/
def fwd_prog : List Instr :=
  [mk_instr I_SET 2 0 0 1 "", mk_instr I_SET 3 0 0 2 "", mk_instr I_SET 5 0 0 4 "",
   mk_instr I_SET 1 0 0 9 "", mk_instr I_ADD 1 2 3 0 "", mk_instr I_ADD 4 1 5 0 ""]

/-- `SET R0,5 / ADD R1,R0,R0`. -/
def r0_prog : List Instr :=
  [mk_instr I_SET 0 0 0 5 "", mk_instr I_ADD 1 0 0 0 ""]

/-- `SET R2,8 / LW R1,0(R2) / ADD R3,R1,R1`. -/
def ld_prog : List Instr :=
  [mk_instr I_SET 2 0 0 8 "", mk_instr I_LW 1 2 0 0 "", mk_instr I_ADD 3 1 1 0 ""]

/-- The pipeline after three cycles of `ld_prog`: the LOAD is in ID/EX, its consumer in
IF/ID. -/
def ld_state : Pipe :=
  { m := reset_state,
    ifid := { valid := true, pc := 2, ins := mk_instr I_ADD 3 1 1 0 "" },
    idex := { valid := true, pc := 1, ins := mk_instr I_LW 1 2 0 0 "",
              rs_val := 0, rt_val := 0, rd_val := 0 },
    exmem := { valid := true, pc := 0, ins := mk_instr I_SET 2 0 0 8 "", alu := 8,
               store_val := 0 },
    memwb := MEMWB.zero, pc := 3, cycle := 3, retired := 0 }

/-- The cycle that starts in `ld_state`. -/
def ld_out : CycleOut := (cycle_step ld_prog [] ld_state).get (by decide)

/-- `BEQ R0,R0,L / SET R1,1 / SET R2,2 / L: SET R3,3`. -/
def br_prog : List Instr :=
  [mk_instr I_BEQ 0 0 0 0 "L", mk_instr I_SET 1 0 0 1 "", mk_instr I_SET 2 0 0 2 "",
   mk_instr I_SET 3 0 0 3 ""]

def br_labels : List Label := [{ name := "L", addr := 3 }]

/-- The pipeline after two cycles of `br_prog`: the BRANCH-EQ is in ID/EX, the
instruction after it in IF/ID. -/
def br_state : Pipe :=
  { m := reset_state,
    ifid := { valid := true, pc := 1, ins := mk_instr I_SET 1 0 0 1 "" },
    idex := { valid := true, pc := 0, ins := mk_instr I_BEQ 0 0 0 0 "L",
              rs_val := 0, rt_val := 0, rd_val := 0 },
    exmem := EXMEM.zero, memwb := MEMWB.zero, pc := 2, cycle := 2, retired := 0 }

/-- The cycle that starts in `br_state`. -/
def br_out : CycleOut := (cycle_step br_prog br_labels br_state).get (by decide)

/-- Latches of the EX stage of `ADD R3,R1,R2` when `SET R1,7` is in EX/MEM and
`SET R1,5` is in MEM/WB. -/
def fw_idex : IDEX :=
  { valid := true, pc := 2, ins := mk_instr I_ADD 3 1 2 0 "", rs_val := 0, rt_val := 0,
    rd_val := 0 }

def fw_exmem : EXMEM :=
  { valid := true, pc := 1, ins := mk_instr I_SET 1 0 0 7 "", alu := 7, store_val := 0 }

def fw_memwb : MEMWB :=
  { valid := true, pc := 0, ins := mk_instr I_SET 1 0 0 5 "", result := 5 }

/-! ## Memory access rule of the specification -/

/-- The value a LOAD is specified to yield for byte address `a`: `memory[a/4]` when
`a mod 4 = 0` and `0 <= a/4 < 1024`, and `0` otherwise. -/
def spec_load (memory : Int → Int) (a : Int) : Int :=
  if a % 4 = 0 ∧ 0 ≤ a / 4 ∧ a / 4 < 1024 then memory (a / 4) else 0

/-- The memory a STORE of `v` to byte address `a` is specified to leave: word `a/4`
holds `v` when `a mod 4 = 0` and `0 <= a/4 < 1024`; every other word, and all of memory
otherwise, is unchanged. -/
def spec_store (memory : Int → Int) (a v : Int) : Int → Int :=
  fun j => if (a % 4 = 0 ∧ 0 ≤ a / 4 ∧ a / 4 < 1024) ∧ j = a / 4 then v else memory j

/-! ## Per-cycle trace of a pipelined run -/

/-- The cycles the loop of `run_pipelined` performs from `s` with `left` iterations
allowed, oldest first (same recursion as `pipe_loop`). -/
def pipe_outs (prog : List Instr) (labels : List Label) : Nat → Pipe → List CycleOut
  | 0, _ => []
  | left + 1, s =>
      if s.empty ∧ s.pc ≥ prog.length then []
      else
        match cycle_step prog labels s with
        | some o => o :: pipe_outs prog labels left o.next
        | none => []

/-- `SET R1,5 / SET R2,7 / ADD R3,R1,R2 / OUT 0,R3`. -/
def demo_prog : List Instr :=
  [mk_instr I_SET 1 0 0 5 "", mk_instr I_SET 2 0 0 7 "", mk_instr I_ADD 3 1 2 0 "",
   mk_instr I_OUT 0 3 0 0 ""]

/-! ## Register indices only -/

/-- The three register indices of `ins` are in `0..15` (nothing is asked of the port of
an OUTPUT). -/
def Instr.regs_in_range (ins : Instr) : Prop :=
  (0 ≤ ins.rd ∧ ins.rd < REGS) ∧ (0 ≤ ins.rs ∧ ins.rs < REGS) ∧ (0 ≤ ins.rt ∧ ins.rt < REGS)

/-- `OUT 16,R0`. -/
def port_prog : List Instr := [mk_instr I_OUT 0 0 0 16 ""]

/-! ## Runs on arbitrary prior contents of the globals -/

/-- The effect of `memset(a, 0, sizeof(a))` on an array of `size` cells: every cell of
the array is cleared. -/
def clear (size : Int) (a : Int → Int) : Int → Int :=
  fun i => if 0 ≤ i ∧ i < size then 0 else a i

/-- The effect of `reset_state` (main.c 106-111) on globals holding `prior`: the three
`memset` calls, then `regfile[0]=0`; the trace of the run starts empty. -/
def reset_state_on (prior : Machine) : Machine :=
  { regfile := upd (clear REGS prior.regfile) 0 0,
    memory := clear MEM_WORDS prior.memory,
    port_out := clear MAX_PORTS prior.port_out,
    out_trace := [] }

/-- The state `run_pipelined(max_cycles)` leaves when the globals hold `prior` on entry
(main.c 261-463). -/
def run_pipelined_on (prior : Machine) (prog : List Instr) (labels : List Label)
    (max_cycles : Int) : Option Pipe :=
  pipe_loop prog labels max_cycles.toNat { pipe_init with m := reset_state_on prior }

/-- Two contents of the globals with the same value in every cell of the three arrays
and the same OUTPUT trace. -/
def same_arrays (a b : Machine) : Prop :=
  (∀ i, 0 ≤ i ∧ i < REGS → a.regfile i = b.regfile i) ∧
  (∀ i, 0 ≤ i ∧ i < MEM_WORDS → a.memory i = b.memory i) ∧
  (∀ i, 0 ≤ i ∧ i < MAX_PORTS → a.port_out i = b.port_out i) ∧
  a.out_trace = b.out_trace

/-- Two pipeline states with the same latches, program counter and counters, and the
same array contents. -/
def same_pipe (a b : Pipe) : Prop :=
  same_arrays a.m b.m ∧ a.ifid = b.ifid ∧ a.idex = b.idex ∧ a.exmem = b.exmem ∧
  a.memwb = b.memwb ∧ a.pc = b.pc ∧ a.cycle = b.cycle ∧ a.retired = b.retired

/-- `SET R1,7 / J L / NOP / L: SW R1,0(R0)`. -/
def sw_prog : List Instr :=
  [mk_instr I_SET 1 0 0 7 "", mk_instr I_J 0 0 0 0 "L", mk_instr I_NOP 0 0 0 0 "",
   mk_instr I_SW 0 1 0 0 ""]

def sw_labels : List Label := [{ name := "L", addr := 3 }]

/-- `SET R1,5 / NOP / NOP / ADD R2,R1,R1`. -/
def wtr_prog : List Instr :=
  [mk_instr I_SET 1 0 0 5 "", mk_instr I_NOP 0 0 0 0 "", mk_instr I_NOP 0 0 0 0 "",
   mk_instr I_ADD 2 1 1 0 ""]

/-- The pipeline after four cycles of `wtr_prog`: `SET R1,5` is in MEM/WB and
`ADD R2,R1,R1` in IF/ID. -/
def wtr_state : Pipe := (run_pipelined wtr_prog [] 4).get (by decide)

/-- The cycle that starts in `wtr_state`. -/
def wtr_out : CycleOut := (cycle_step wtr_prog [] wtr_state).get (by decide)

/-! ## Straight-line programs -/

/-- The program contains no BRANCH-EQ and no JUMP. -/
def no_branch (prog : List Instr) : Prop :=
  ∀ ins ∈ prog, ins.type ≠ I_BEQ ∧ ins.type ≠ I_J

/-- The number of positions `i` such that `prog[i]` is a LOAD and `prog[i+1]` reads the
LOAD's destination as a source operand (per `uses_reg_source`). -/
def count_load_use : List Instr → Nat
  | a :: b :: rest =>
      (if a.type = I_LW ∧ uses_reg_source b a.rd = true then 1 else 0) +
        count_load_use (b :: rest)
  | _ => 0

/-- `1` for an occupied latch, `0` for an empty one. -/
def occ (valid : Bool) : Int := if valid = true then 1 else 0

/-- Timing invariant of a run of a straight-line program: the latches IF/ID and ID/EX
hold the instructions just before the program counter, an empty IF/ID occurs only
before the first fetch or after the last, ID/EX never holds a branch, and every fetched
instruction is either retired or in a latch. -/
def timing_inv (prog : List Instr) (s : Pipe) : Prop :=
  s.in_range ∧ s.pc ≤ prog.length ∧
  (s.ifid.valid = true → 1 ≤ s.pc ∧ prog_at prog (s.pc - 1) = some s.ifid.ins) ∧
  (s.ifid.valid = false → s.pc = 0 ∨ s.pc = prog.length) ∧
  (s.idex.valid = true → s.idex.ins.type ≠ I_BEQ ∧ s.idex.ins.type ≠ I_J) ∧
  (s.ifid.valid = true → s.idex.valid = true →
    2 ≤ s.pc ∧ prog_at prog (s.pc - 2) = some s.idex.ins) ∧
  s.retired + occ s.ifid.valid + occ s.idex.valid + occ s.exmem.valid + occ s.memwb.valid
    = s.pc

/-- The number of cycles a straight-line run still performs from `s`: the fetches left,
the load-use stalls still to come and the four drain cycles; once IF/ID is empty after
the last fetch, one cycle per stage still to be passed. -/
def cycles_left (prog : List Instr) (s : Pipe) : Nat :=
  if s.ifid.valid = true ∨ s.pc < prog.length then
    (prog.length - s.pc.toNat) + 4 +
      count_load_use (prog.drop (s.pc.toNat - 1 -
        (if s.ifid.valid = true ∧ s.idex.valid = true then 1 else 0)))
  else if s.idex.valid = true then 3
  else if s.exmem.valid = true then 2
  else if s.memwb.valid = true then 1
  else 0

/-! ## Hazard-free programs and the sequential reference -/

/-- No instruction reads (per `uses_reg_source`) the write-back destination (per
`dest_reg`) of either of the two instructions immediately preceding it. -/
def hazard_free : List Instr → Prop
  | a :: b :: c :: rest =>
      uses_reg_source b (dest_reg a) = false ∧ uses_reg_source c (dest_reg a) = false ∧
        hazard_free (b :: c :: rest)
  | [a, b] => uses_reg_source b (dest_reg a) = false
  | _ => True

/-- One iteration of the loop of `run_single` as a total function: the state is kept
when the loop test `pc < prog_len` fails. -/
def seq_step (prog : List Instr) (labels : List Label) (s : Single) : Single :=
  if s.pc < prog.length then (single_step prog labels s).getD s else s

/-- The state of `run_single` after `i` iterations of its loop (fewer when the program
ends before). -/
def seq_run (prog : List Instr) (labels : List Label) : Nat → Single
  | 0 => single_init
  | i + 1 => seq_step prog labels (seq_run prog labels i)

/-- The EX/MEM latch the EX stage produces for `ins` when its three operands are read
from `regfile` and nothing is forwarded. -/
def exl (labels : List Label) (ins : Instr) (pc : Int) (regfile : Int → Int) : EXMEM :=
  (ex_stage labels
    { valid := true, pc := pc, ins := ins, rs_val := regfile ins.rs,
      rt_val := regfile ins.rt, rd_val := regfile ins.rd } EXMEM.zero MEMWB.zero).next_exmem

/-- Lock-step invariant of a hazard-free straight-line run after `c` cycles: the latches
hold instructions `c-1`, `c-2`, `c-3`, `c-4` of the program (when those exist), computed
from the sequential states before them; registers, ports and trace are those of the
sequential run after `c-4` instructions, memory that after `c-3` instructions. -/
def lockstep (prog : List Instr) (labels : List Label) (c : Nat) (s : Pipe) : Prop :=
  s.cycle = c ∧
  s.pc = ((min c prog.length : Nat) : Int) ∧
  s.retired = ((min (c - 4) prog.length : Nat) : Int) ∧
  s.m.regfile = (seq_run prog labels (c - 4)).m.regfile ∧
  s.m.port_out = (seq_run prog labels (c - 4)).m.port_out ∧
  s.m.out_trace = (seq_run prog labels (c - 4)).m.out_trace ∧
  s.m.memory = (seq_run prog labels (c - 3)).m.memory ∧
  (s.ifid.valid = true ↔ 1 ≤ c ∧ c ≤ prog.length) ∧
  (∀ ins, 1 ≤ c → prog[c - 1]? = some ins →
    s.ifid = ⟨true, ((c - 1 : Nat) : Int), ins⟩) ∧
  (s.idex.valid = true ↔ 2 ≤ c ∧ c ≤ prog.length + 1) ∧
  (∀ ins, 2 ≤ c → prog[c - 2]? = some ins →
    s.idex = ⟨true, ((c - 2 : Nat) : Int), ins,
      (seq_run prog labels (c - 4)).m.regfile ins.rs,
      (seq_run prog labels (c - 4)).m.regfile ins.rt,
      (seq_run prog labels (c - 4)).m.regfile ins.rd⟩) ∧
  (s.exmem.valid = true ↔ 3 ≤ c ∧ c ≤ prog.length + 2) ∧
  (∀ ins, 3 ≤ c → prog[c - 3]? = some ins →
    s.exmem = exl labels ins ((c - 3 : Nat) : Int) (seq_run prog labels (c - 3)).m.regfile) ∧
  (s.memwb.valid = true ↔ 4 ≤ c ∧ c ≤ prog.length + 3) ∧
  (∀ ins, 4 ≤ c → prog[c - 4]? = some ins →
    s.memwb = (mem_stage (seq_run prog labels (c - 4)).m.memory
      (exl labels ins ((c - 4 : Nat) : Int) (seq_run prog labels (c - 4)).m.regfile)).2)

/-- `SET R1,5 / SET R2,8 / NOP / ADD R3,R1,R1 / NOP / NOP / SW R3,0(R2) / OUT 0,R3 /
LW R4,0(R2)`. -/
def hf_prog : List Instr :=
  [mk_instr I_SET 1 0 0 5 "", mk_instr I_SET 2 0 0 8 "", mk_instr I_NOP 0 0 0 0 "",
   mk_instr I_ADD 3 1 1 0 "", mk_instr I_NOP 0 0 0 0 "", mk_instr I_NOP 0 0 0 0 "",
   mk_instr I_SW 2 3 0 0 "", mk_instr I_OUT 0 3 0 0 "", mk_instr I_LW 4 2 0 0 ""]

/-! # Properties -/

theorem cycle_step_inv {prog : List Instr} {labels : List Label} {s : Pipe} {o : CycleOut}
    (h : cycle_step prog labels s = some o) :
    ∃ m1 retired id next_ifid pc,
      wb_stage s.m s.retired s.memwb = some (m1, retired) ∧
      id_stage m1.regfile (ex_stage labels s.idex s.exmem s.memwb).branch_taken s.ifid s.idex
        = some id ∧
      if_stage prog (ex_stage labels s.idex s.exmem s.memwb).branch_taken
        (ex_stage labels s.idex s.exmem s.memwb).branch_target id.load_use_stall s.ifid s.pc
        = some (next_ifid, pc) ∧
      o = { next := { m := { m1 with memory := (mem_stage m1.memory s.exmem).1 },
                      ifid := next_ifid, idex := id.next_idex,
                      exmem := (ex_stage labels s.idex s.exmem s.memwb).next_exmem,
                      memwb := (mem_stage m1.memory s.exmem).2,
                      pc := pc, cycle := s.cycle + 1, retired := retired },
            branch_taken := (ex_stage labels s.idex s.exmem s.memwb).branch_taken,
            branch_target := (ex_stage labels s.idex s.exmem s.memwb).branch_target,
            load_use_stall := id.load_use_stall } := by
  unfold cycle_step at h
  simp only [Option.bind_eq_bind, Option.bind_eq_some, Option.pure_def] at h
  obtain ⟨⟨m1, retired⟩, h1, id, h2, ⟨nif, pc⟩, h3, h4⟩ := h
  refine ⟨m1, retired, id, nif, pc, h1, h2, h3, ?_⟩
  simp only [Option.some.injEq] at h4
  exact h4.symm

theorem uses_reg_source_iff (ins : Instr) (r : Int) :
    uses_reg_source ins r = true ↔ 0 ≤ r ∧ reads_source ins r := by
  obtain ⟨t, rd, rs, rt, imm, lb, raw⟩ := ins
  by_cases hr : r < 0
  · simp [uses_reg_source, hr]
  · have hr2 : 0 ≤ r := by omega
    cases t <;> simp [uses_reg_source, reads_source, hr, hr2]

theorem reads_source_field {ins : Instr} {r : Int} (h : reads_source ins r) :
    ins.rs = r ∨ ins.rt = r ∨ ins.rd = r := by
  obtain ⟨t, rd, rs, rt, imm, lb, raw⟩ := ins
  cases t <;> simp [reads_source] at h ⊢ <;> tauto

theorem ex_stage_taken_type {labels : List Label} {cur_idex : IDEX} {cur_exmem : EXMEM}
    {cur_memwb : MEMWB} (h : (ex_stage labels cur_idex cur_exmem cur_memwb).branch_taken = true) :
    cur_idex.valid = true ∧ (cur_idex.ins.type = I_BEQ ∨ cur_idex.ins.type = I_J) := by
  unfold ex_stage at h
  by_cases hv : cur_idex.valid = true
  · refine ⟨hv, ?_⟩
    simp only [hv, if_true] at h
    cases ht : cur_idex.ins.type <;> simp [ht] at h ⊢
  · simp [hv] at h

theorem arr_read_some {size : Int} {a : Int → Int} {i v : Int}
    (h : arr_read size a i = some v) : 0 ≤ i ∧ i < size ∧ v = a i := by
  unfold arr_read at h
  split_ifs at h with hc
  simp only [Option.some.injEq] at h
  exact ⟨hc.1, hc.2, h.symm⟩

theorem id_stage_issue {regfile : Int → Int} {cur_ifid : IFID} {cur_idex : IDEX} {id : IdOut}
    (h : id_stage regfile false cur_ifid cur_idex = some id) (hv : cur_ifid.valid = true)
    (hz : hazard cur_ifid cur_idex = false) :
    id.load_use_stall = false ∧
    id.next_idex = { valid := true, pc := cur_ifid.pc, ins := cur_ifid.ins,
                     rs_val := regfile cur_ifid.ins.rs, rt_val := regfile cur_ifid.ins.rt,
                     rd_val := regfile cur_ifid.ins.rd } ∧
    (0 ≤ cur_ifid.ins.rs ∧ cur_ifid.ins.rs < REGS) ∧
    (0 ≤ cur_ifid.ins.rt ∧ cur_ifid.ins.rt < REGS) ∧
    (0 ≤ cur_ifid.ins.rd ∧ cur_ifid.ins.rd < REGS) := by
  unfold id_stage at h
  simp only [hv, hz, if_true, Bool.false_eq_true, if_false, Option.bind_eq_bind,
    Option.bind_eq_some, Option.pure_def] at h
  obtain ⟨a, ha, b, hb, c, hc, h⟩ := h
  simp only [Option.some.injEq] at h
  obtain ⟨a1, a2, a3⟩ := arr_read_some ha
  obtain ⟨b1, b2, b3⟩ := arr_read_some hb
  obtain ⟨c1, c2, c3⟩ := arr_read_some hc
  subst h a3 b3 c3
  exact ⟨rfl, rfl, ⟨a1, a2⟩, ⟨b1, b2⟩, ⟨c1, c2⟩⟩

theorem stall_signalled_iff (prog : List Instr) (labels : List Label) (s : Pipe) (o : CycleOut)
    (h : cycle_step prog labels s = some o) :
    o.load_use_stall = true ↔
      (s.ifid.valid = true ∧ s.idex.valid = true ∧ s.idex.ins.type = I_LW ∧
        reads_source s.ifid.ins s.idex.ins.rd) := by
  obtain ⟨m1, retired, id, nif, pc, h1, h2, h3, rfl⟩ := cycle_step_inv h
  simp only
  by_cases hb : (ex_stage labels s.idex s.exmem s.memwb).branch_taken = true
  · have ht := ex_stage_taken_type hb
    rw [hb] at h2
    simp only [id_stage, if_true, Option.some.injEq] at h2
    subst h2
    constructor
    · intro h; simp at h
    · rintro ⟨_, _, hl, _⟩
      rcases ht.2 with h | h <;> rw [hl] at h <;> cases h
  · have hb2 : (ex_stage labels s.idex s.exmem s.memwb).branch_taken = false := by
      simpa using hb
    rw [hb2] at h2
    by_cases hv : s.ifid.valid = true
    · cases hz : hazard s.ifid s.idex
      · obtain ⟨e1, e2, r1, r2, r3⟩ := id_stage_issue h2 hv hz
        rw [e1]
        constructor
        · intro h; cases h
        · rintro ⟨_, hiv, hl, hrd⟩
          exfalso
          have hu : uses_reg_source s.ifid.ins s.idex.ins.rd = false := by
            simpa [hazard, hiv, hl] using hz
          have hneg : ¬ (0 ≤ s.idex.ins.rd) := by
            intro h0
            have := (uses_reg_source_iff s.ifid.ins s.idex.ins.rd).2 ⟨h0, hrd⟩
            rw [hu] at this; cases this
          rcases reads_source_field hrd with e | e | e <;> omega
      · simp only [id_stage, hv, hz, if_true, Bool.false_eq_true, if_false,
          Option.some.injEq] at h2
        subst h2
        simp only [hazard, Bool.and_eq_true, beq_iff_eq] at hz
        simp only [true_iff]
        exact ⟨hv, hz.1.1, hz.1.2, ((uses_reg_source_iff _ _).1 hz.2).2⟩
    · simp only [id_stage, hv, Bool.false_eq_true, if_false, Option.some.injEq] at h2
      subst h2
      simp [hv]

theorem find_label_found {labels : List Label} (hl : labels_ok labels) (name : String) :
    find_label labels name ≥ 0 ↔ label_found labels name := by
  induction labels with
  | nil => simp [find_label, label_found]
  | cons l ls ih =>
    have hls : labels_ok ls := fun x hx => hl x (List.mem_cons_of_mem _ hx)
    have hl0 : 0 ≤ l.addr := hl l (List.mem_cons_self _ _)
    unfold find_label
    by_cases hn : l.name = name
    · simp only [hn, if_true]
      exact ⟨fun _ => ⟨l, List.mem_cons_self _ _, hn⟩, fun _ => hl0⟩
    · simp only [hn, if_false]
      rw [ih hls]
      constructor
      · rintro ⟨x, hx, hxn⟩
        exact ⟨x, List.mem_cons_of_mem _ hx, hxn⟩
      · rintro ⟨x, hx, hxn⟩
        rcases List.mem_cons.1 hx with e | e
        · subst e; exact absurd hxn hn
        · exact ⟨x, e, hxn⟩

theorem ex_stage_taken_iff (labels : List Label) (cur_idex : IDEX) (cur_exmem : EXMEM)
    (cur_memwb : MEMWB) :
    ((ex_stage labels cur_idex cur_exmem cur_memwb).branch_taken = true ↔
      cur_idex.valid = true ∧
        ((cur_idex.ins.type = I_BEQ ∧
            (forward cur_idex cur_exmem cur_memwb).vrs = (forward cur_idex cur_exmem cur_memwb).vrt ∧
            find_label labels cur_idex.ins.label ≥ 0) ∨
         (cur_idex.ins.type = I_J ∧ find_label labels cur_idex.ins.label ≥ 0))) ∧
    ((ex_stage labels cur_idex cur_exmem cur_memwb).branch_taken = true →
      (ex_stage labels cur_idex cur_exmem cur_memwb).branch_target =
        find_label labels cur_idex.ins.label) := by
  unfold ex_stage
  by_cases hv : cur_idex.valid = true
  · simp only [hv, if_true, true_and]
    cases ht : cur_idex.ins.type <;> simp <;> split_ifs <;> simp_all
  · simp [hv]

theorem branch_taken_iff (prog : List Instr) (labels : List Label) (hl : labels_ok labels)
    (s : Pipe) (o : CycleOut) (h : cycle_step prog labels s = some o) :
    (o.branch_taken = true ↔
      s.idex.valid = true ∧
        ((s.idex.ins.type = I_BEQ ∧
            (forward s.idex s.exmem s.memwb).vrs = (forward s.idex s.exmem s.memwb).vrt ∧
            label_found labels s.idex.ins.label) ∨
         (s.idex.ins.type = I_J ∧ label_found labels s.idex.ins.label))) ∧
    (o.branch_taken = true → o.branch_target = find_label labels s.idex.ins.label) := by
  obtain ⟨m1, retired, id, nif, pc, h1, h2, h3, rfl⟩ := cycle_step_inv h
  simp only
  rw [← find_label_found hl]
  exact ex_stage_taken_iff labels s.idex s.exmem s.memwb


theorem dest_reg_match (ins : Instr) (r : Int) (hr : 0 ≤ r) :
    (dest_reg ins ≥ 0 ∧ r = dest_reg ins) ↔ (is_writeback_op ins.type = true ∧ ins.rd = r) := by
  obtain ⟨t, rd, rs, rt, imm, lb, raw⟩ := ins
  cases t <;> simp [dest_reg, writes_back, is_writeback_op] <;> omega

theorem fwd_field (r dec : Int) (hr : 0 ≤ r) (cur_exmem : EXMEM) (cur_memwb : MEMWB) :
    (if cur_memwb.valid = true ∧ dest_reg cur_memwb.ins ≥ 0 ∧ r = dest_reg cur_memwb.ins
      then cur_memwb.result
      else if cur_exmem.valid = true ∧ (dest_reg cur_exmem.ins ≥ 0 ∧
          cur_exmem.ins.type ≠ I_LW) ∧ r = dest_reg cur_exmem.ins
        then cur_exmem.alu else dec) = expected_operand r dec cur_exmem cur_memwb := by
  have e1 := dest_reg_match cur_exmem.ins r hr
  have e2 := dest_reg_match cur_memwb.ins r hr
  unfold expected_operand
  have c1 : (cur_memwb.valid = true ∧ dest_reg cur_memwb.ins ≥ 0 ∧ r = dest_reg cur_memwb.ins)
      ↔ (cur_memwb.valid = true ∧ is_writeback_op cur_memwb.ins.type = true ∧
      cur_memwb.ins.rd = r) := by rw [e2]
  have c2 : (cur_exmem.valid = true ∧ (dest_reg cur_exmem.ins ≥ 0 ∧
          cur_exmem.ins.type ≠ I_LW) ∧ r = dest_reg cur_exmem.ins) ↔
      (cur_exmem.valid = true ∧ is_writeback_op cur_exmem.ins.type = true ∧
      cur_exmem.ins.type ≠ I_LW ∧ cur_exmem.ins.rd = r) := by
    constructor
    · rintro ⟨a, ⟨b, c⟩, d⟩
      exact ⟨a, (e1.1 ⟨b, d⟩).1, c, (e1.1 ⟨b, d⟩).2⟩
    · rintro ⟨a, b, c, d⟩
      exact ⟨a, ⟨(e1.2 ⟨b, d⟩).1, c⟩, (e1.2 ⟨b, d⟩).2⟩
  simp only [c1, c2]

theorem forward_spec (cur_idex : IDEX) (cur_exmem : EXMEM) (cur_memwb : MEMWB)
    (hrs : 0 ≤ cur_idex.ins.rs) (hrt : 0 ≤ cur_idex.ins.rt) (hrd : 0 ≤ cur_idex.ins.rd) :
    forward cur_idex cur_exmem cur_memwb =
      { vrs := expected_operand cur_idex.ins.rs cur_idex.rs_val cur_exmem cur_memwb,
        vrt := expected_operand cur_idex.ins.rt cur_idex.rt_val cur_exmem cur_memwb,
        vrd := expected_operand cur_idex.ins.rd cur_idex.rd_val cur_exmem cur_memwb } := by
  rw [← fwd_field _ _ hrs, ← fwd_field _ _ hrt, ← fwd_field _ _ hrd]
  unfold forward forward_memwb forward_exmem
  by_cases h1 : cur_memwb.valid = true <;> by_cases h2 : dest_reg cur_memwb.ins ≥ 0 <;>
    by_cases h3 : cur_exmem.valid = true <;>
    by_cases h4 : (dest_reg cur_exmem.ins ≥ 0 ∧ cur_exmem.ins.type ≠ I_LW) <;>
    simp [h1, h2, h3, h4]

theorem arr_write_some {size : Int} {a : Int → Int} {i : Int} (v : Int)
    (h : 0 ≤ i ∧ i < size) : arr_write size a i v = some (upd a i v) := by
  unfold arr_write; rw [if_pos h]

theorem arr_read_in {size : Int} (a : Int → Int) {i : Int}
    (h : 0 ≤ i ∧ i < size) : arr_read size a i = some (a i) := by
  unfold arr_read; rw [if_pos h]

theorem arr_write_inv {size : Int} {a b : Int → Int} {i v : Int}
    (h : arr_write size a i v = some b) : (0 ≤ i ∧ i < size) ∧ b = upd a i v := by
  unfold arr_write at h
  split_ifs at h with hc
  simp only [Option.some.injEq] at h
  exact ⟨hc, h.symm⟩

theorem wb_stage_some (m : Machine) (retired : Int) (cur_memwb : MEMWB)
    (h : cur_memwb.valid = true → cur_memwb.ins.in_range) :
    ∃ r, wb_stage m retired cur_memwb = some r := by
  unfold wb_stage
  by_cases hv : cur_memwb.valid = true
  · obtain ⟨h1, _, _, h4⟩ := h hv
    simp only [hv, if_true]
    cases ht : cur_memwb.ins.type <;> simp only [] <;>
      first
        | exact ⟨_, rfl⟩
        | (rw [arr_write_some _ h1]; exact ⟨_, rfl⟩)
        | (rw [arr_write_some _ (h4 ht)]; exact ⟨_, rfl⟩)
  · simp [hv]

theorem wb_stage_memory {m m1 : Machine} {retired r1 : Int} {cur_memwb : MEMWB}
    (h : wb_stage m retired cur_memwb = some (m1, r1)) : m1.memory = m.memory := by
  unfold wb_stage at h
  by_cases hv : cur_memwb.valid = true
  · simp only [hv, if_true] at h
    cases ht : cur_memwb.ins.type <;> simp only [ht] at h <;>
      simp only [Option.map_eq_some', Prod.mk.injEq] at h <;>
      obtain ⟨m2, h2, rfl, _⟩ := h
    all_goals first
      | (simp only [Option.some.injEq] at h2; subst h2; rfl)
      | (obtain ⟨x, _, rfl⟩ := h2; rfl)
  · simp only [hv, Bool.false_eq_true, if_false, Option.some.injEq, Prod.mk.injEq] at h
    rw [← h.1]

theorem prog_at_some {prog : List Instr} {pc : Int} (h0 : 0 ≤ pc) (h1 : pc < prog.length) :
    ∃ ins, prog_at prog pc = some ins ∧ ins ∈ prog := by
  unfold prog_at
  rw [if_pos h0]
  have hlt : pc.toNat < prog.length := by omega
  refine ⟨prog.get ⟨pc.toNat, hlt⟩, List.get?_eq_get hlt, List.get_mem _ _ _⟩

theorem id_stage_some (regfile : Int → Int) (branch_taken : Bool) (cur_ifid : IFID)
    (cur_idex : IDEX) (h : cur_ifid.valid = true → cur_ifid.ins.in_range) :
    ∃ id, id_stage regfile branch_taken cur_ifid cur_idex = some id := by
  unfold id_stage
  split_ifs with h1 h2 h3
  · exact ⟨_, rfl⟩
  · exact ⟨_, rfl⟩
  · obtain ⟨a, b, c, _⟩ := h h2
    rw [arr_read_in _ b, arr_read_in _ c, arr_read_in _ a]
    exact ⟨_, rfl⟩
  · exact ⟨_, rfl⟩

theorem if_stage_some (prog : List Instr) (branch_taken : Bool) (branch_target : Int)
    (load_use_stall : Bool) (cur_ifid : IFID) {pc : Int} (h0 : 0 ≤ pc) :
    ∃ r, if_stage prog branch_taken branch_target load_use_stall cur_ifid pc = some r := by
  unfold if_stage
  by_cases h1 : branch_taken = true
  · rw [if_pos h1]; exact ⟨_, rfl⟩
  · rw [if_neg h1]
    by_cases h2 : load_use_stall = true
    · rw [if_pos h2]; exact ⟨_, rfl⟩
    · rw [if_neg h2]
      by_cases h3 : pc < prog.length
      · obtain ⟨ins, hi, _⟩ := prog_at_some h0 h3
        rw [if_pos h3, hi]; exact ⟨_, rfl⟩
      · rw [if_neg h3]; exact ⟨_, rfl⟩

theorem cycle_step_some (prog : List Instr) (labels : List Label) {s : Pipe}
    (hs : s.in_range) : ∃ o, cycle_step prog labels s = some o := by
  obtain ⟨h1, h2, h3, h4, h5⟩ := hs
  obtain ⟨⟨m1, r1⟩, hw⟩ := wb_stage_some s.m s.retired s.memwb h4
  obtain ⟨id, hid⟩ := id_stage_some m1.regfile
    (ex_stage labels s.idex s.exmem s.memwb).branch_taken s.ifid s.idex h1
  obtain ⟨⟨nif, pc⟩, hif⟩ := if_stage_some prog
    (ex_stage labels s.idex s.exmem s.memwb).branch_taken
    (ex_stage labels s.idex s.exmem s.memwb).branch_target id.load_use_stall s.ifid h5
  unfold cycle_step
  simp only [Option.bind_eq_bind, Option.pure_def, hw, Option.some_bind, hid, hif]
  exact ⟨_, rfl⟩

theorem ex_stage_latch (labels : List Label) (cur_idex : IDEX) (cur_exmem : EXMEM)
    (cur_memwb : MEMWB) :
    (ex_stage labels cur_idex cur_exmem cur_memwb).next_exmem.valid = cur_idex.valid ∧
    (cur_idex.valid = true →
      (ex_stage labels cur_idex cur_exmem cur_memwb).next_exmem.ins = cur_idex.ins ∧
      (ex_stage labels cur_idex cur_exmem cur_memwb).next_exmem.pc = cur_idex.pc) := by
  unfold ex_stage
  by_cases hv : cur_idex.valid = true
  · simp only [hv, if_true]
    cases ht : cur_idex.ins.type <;> simp only [] <;>
      first | (simp; done) | (split_ifs <;> simp)
  · simp [hv, EXMEM.zero]

theorem mem_stage_latch (memory : Int → Int) (cur_exmem : EXMEM) :
    (mem_stage memory cur_exmem).2.valid = cur_exmem.valid ∧
    (cur_exmem.valid = true →
      (mem_stage memory cur_exmem).2.ins = cur_exmem.ins ∧
      (mem_stage memory cur_exmem).2.pc = cur_exmem.pc) := by
  unfold mem_stage
  by_cases hv : cur_exmem.valid = true
  · simp only [hv, if_true]
    cases ht : cur_exmem.ins.type <;> simp
  · simp [hv, MEMWB.zero]

theorem id_stage_latch {regfile : Int → Int} {branch_taken : Bool} {cur_ifid : IFID}
    {cur_idex : IDEX} {id : IdOut}
    (h : id_stage regfile branch_taken cur_ifid cur_idex = some id)
    (hv : id.next_idex.valid = true) :
    cur_ifid.valid = true ∧ id.next_idex.ins = cur_ifid.ins ∧ id.next_idex.pc = cur_ifid.pc ∧
      branch_taken = false ∧ id.load_use_stall = false := by
  unfold id_stage at h
  split_ifs at h with h1 h2 h3
  · simp only [Option.some.injEq] at h; subst h; simp [IDEX.zero] at hv
  · simp only [Option.some.injEq] at h; subst h; simp [IDEX.zero] at hv
  · simp only [Option.bind_eq_bind, Option.bind_eq_some, Option.pure_def,
      Option.some.injEq] at h
    obtain ⟨a, _, b, _, c, _, rfl⟩ := h
    simp only [Bool.not_eq_true] at h1
    exact ⟨h2, rfl, rfl, h1, rfl⟩
  · simp only [Option.some.injEq] at h; subst h; simp [IDEX.zero] at hv

theorem if_stage_latch {prog : List Instr} {branch_taken : Bool} {branch_target : Int}
    {load_use_stall : Bool} {cur_ifid nif : IFID} {pc npc : Int}
    (hp : prog_in_range prog) (hi : cur_ifid.valid = true → cur_ifid.ins.in_range)
    (h0 : 0 ≤ pc)
    (h : if_stage prog branch_taken branch_target load_use_stall cur_ifid pc = some (nif, npc)) :
    (nif.valid = true → nif.ins.in_range) ∧ 0 ≤ npc := by
  unfold if_stage at h
  by_cases h1 : branch_taken = true
  · rw [if_pos h1] at h
    simp only [Option.some.injEq, Prod.mk.injEq] at h
    obtain ⟨rfl, rfl⟩ := h
    refine ⟨fun hv => by simp at hv, ?_⟩
    split_ifs with h2
    · exact h2
    · exact h0
  · rw [if_neg h1] at h
    by_cases h2 : load_use_stall = true
    · rw [if_pos h2] at h
      simp only [Option.some.injEq, Prod.mk.injEq] at h
      obtain ⟨rfl, rfl⟩ := h
      exact ⟨hi, h0⟩
    · rw [if_neg h2] at h
      by_cases h3 : pc < prog.length
      · obtain ⟨ins, hins, hmem⟩ := prog_at_some h0 h3
        rw [if_pos h3, hins] at h
        simp only [Option.map_some', Option.some.injEq, Prod.mk.injEq] at h
        obtain ⟨rfl, rfl⟩ := h
        exact ⟨fun _ => hp ins hmem, by omega⟩
      · rw [if_neg h3] at h
        simp only [Option.some.injEq, Prod.mk.injEq] at h
        obtain ⟨rfl, rfl⟩ := h
        exact ⟨fun hv => by simp at hv, h0⟩

theorem in_range_next {prog : List Instr} {labels : List Label} {s : Pipe} {o : CycleOut}
    (hp : prog_in_range prog) (hs : s.in_range) (h : cycle_step prog labels s = some o) :
    o.next.in_range := by
  obtain ⟨h1, h2, h3, h4, h5⟩ := hs
  obtain ⟨m1, retired, id, nif, pc, hw, hid, hif, rfl⟩ := cycle_step_inv h
  obtain ⟨a1, a2⟩ := if_stage_latch hp h1 h5 hif
  obtain ⟨b1, b2⟩ := ex_stage_latch labels s.idex s.exmem s.memwb
  obtain ⟨c1, c2⟩ := mem_stage_latch m1.memory s.exmem
  refine ⟨a1, ?_, ?_, ?_, a2⟩
  · intro hv
    obtain ⟨d1, d2, _⟩ := id_stage_latch hid hv
    simp only at hv ⊢
    rw [d2]; exact h1 d1
  · intro hv
    simp only at hv ⊢
    rw [b1] at hv
    rw [(b2 hv).1]; exact h2 hv
  · intro hv
    simp only at hv ⊢
    rw [c1] at hv
    rw [(c2 hv).1]; exact h3 hv

theorem hazard_inv {cur_ifid : IFID} {cur_idex : IDEX} (h : hazard cur_ifid cur_idex = true) :
    cur_idex.valid = true ∧ cur_idex.ins.type = I_LW ∧
      uses_reg_source cur_ifid.ins cur_idex.ins.rd = true := by
  simp only [hazard, Bool.and_eq_true, beq_iff_eq] at h
  exact ⟨h.1.1, h.1.2, h.2⟩

theorem id_stage_stall {regfile : Int → Int} {branch_taken : Bool} {cur_ifid : IFID}
    {cur_idex : IDEX} {id : IdOut}
    (h : id_stage regfile branch_taken cur_ifid cur_idex = some id)
    (hs : id.load_use_stall = true) :
    branch_taken = false ∧ cur_ifid.valid = true ∧ hazard cur_ifid cur_idex = true ∧
      id.next_idex = IDEX.zero := by
  unfold id_stage at h
  by_cases h1 : branch_taken = true
  · rw [if_pos h1] at h
    simp only [Option.some.injEq] at h; subst h; simp at hs
  · rw [if_neg h1] at h
    by_cases h2 : cur_ifid.valid = true
    · rw [if_pos h2] at h
      by_cases h3 : hazard cur_ifid cur_idex = true
      · rw [if_pos h3] at h
        simp only [Option.some.injEq] at h; subst h
        exact ⟨by simpa using h1, h2, h3, rfl⟩
      · rw [if_neg h3] at h
        simp only [Option.bind_eq_bind, Option.bind_eq_some, Option.pure_def,
          Option.some.injEq] at h
        obtain ⟨a, _, b, _, c, _, rfl⟩ := h
        simp at hs
    · rw [if_neg h2] at h
      simp only [Option.some.injEq] at h; subst h; simp at hs

theorem ex_stage_load (labels : List Label) {cur_idex : IDEX} (cur_exmem : EXMEM)
    (cur_memwb : MEMWB) (hv : cur_idex.valid = true) (ht : cur_idex.ins.type = I_LW) :
    ex_stage labels cur_idex cur_exmem cur_memwb =
      ⟨{ valid := true, pc := cur_idex.pc, ins := cur_idex.ins,
         alu := add32 (forward cur_idex cur_exmem cur_memwb).vrs cur_idex.ins.imm,
         store_val := 0 }, false, -1⟩ := by
  unfold ex_stage
  simp only [hv, if_true, ht]

theorem ex_stage_bubble (labels : List Label) {cur_idex : IDEX} (cur_exmem : EXMEM)
    (cur_memwb : MEMWB) (hv : cur_idex.valid = false) :
    ex_stage labels cur_idex cur_exmem cur_memwb = ⟨EXMEM.zero, false, -1⟩ := by
  unfold ex_stage
  simp [hv]

theorem stall_cycle_effect (prog : List Instr) (labels : List Label) (s : Pipe) (o : CycleOut)
    (h : cycle_step prog labels s = some o) (hst : o.load_use_stall = true) :
    o.next.ifid = s.ifid ∧ o.next.pc = s.pc ∧ o.next.idex.valid = false ∧
    s.idex.valid = true ∧ s.idex.ins.type = I_LW ∧
    o.next.exmem.valid = true ∧ o.next.exmem.ins = s.idex.ins ∧
    o.next.exmem.pc = s.idex.pc ∧
    o.next.exmem.alu = add32 (forward s.idex s.exmem s.memwb).vrs s.idex.ins.imm := by
  obtain ⟨m1, retired, id, nif, pc, hw, hid, hif, rfl⟩ := cycle_step_inv h
  simp only at hst ⊢
  obtain ⟨hb, hv, hz, hn⟩ := id_stage_stall hid hst
  obtain ⟨z1, z2, _⟩ := hazard_inv hz
  rw [hb, hst] at hif
  simp only [if_stage, Bool.false_eq_true, if_false, if_true, Option.some.injEq,
    Prod.mk.injEq] at hif
  rw [ex_stage_load labels s.exmem s.memwb z1 z2, hn]
  exact ⟨hif.1.symm, hif.2.symm, rfl, z1, z2, rfl, rfl, rfl, rfl⟩

theorem hazard_bubble (cur_ifid : IFID) {cur_idex : IDEX} (hv : cur_idex.valid = false) :
    hazard cur_ifid cur_idex = false := by
  simp [hazard, hv]

theorem no_second_stall (prog : List Instr) (labels : List Label) (s : Pipe) (o1 : CycleOut)
    (h : cycle_step prog labels s = some o1) (hst : o1.load_use_stall = true) :
    (∀ o2, cycle_step prog labels o1.next = some o2 →
      o2.load_use_stall = false ∧ o2.next.idex.valid = true ∧
      o2.next.idex.ins = s.ifid.ins ∧ o2.next.idex.pc = s.ifid.pc) ∧
    (s.in_range → ∃ o2, cycle_step prog labels o1.next = some o2) := by
  obtain ⟨m1, retired, id, nif, pc, hw, hid, hif, rfl⟩ := cycle_step_inv h
  simp only at hst ⊢
  obtain ⟨hb, hv, hz, hn⟩ := id_stage_stall hid hst
  obtain ⟨z1, z2, _⟩ := hazard_inv hz
  rw [hb, hst] at hif
  simp only [if_stage, Bool.false_eq_true, if_false, if_true, Option.some.injEq,
    Prod.mk.injEq] at hif
  obtain ⟨rfl, rfl⟩ := hif
  have hnv : id.next_idex.valid = false := by rw [hn]; rfl
  constructor
  · intro o2 h2
    obtain ⟨m2, r2, id2, nif2, pc2, hw2, hid2, hif2, rfl⟩ := cycle_step_inv h2
    simp only at hid2 hif2 ⊢
    rw [ex_stage_bubble labels _ _ hnv] at hid2
    simp only at hid2
    obtain ⟨e1, e2, _⟩ := id_stage_issue hid2 hv (hazard_bubble _ hnv)
    rw [e1, e2]
    exact ⟨rfl, rfl, rfl, rfl⟩
  · intro hs
    apply cycle_step_some
    obtain ⟨a1, a2, a3, a4, a5⟩ := hs
    obtain ⟨b1, b2⟩ := ex_stage_latch labels s.idex s.exmem s.memwb
    obtain ⟨c1, c2⟩ := mem_stage_latch m1.memory s.exmem
    refine ⟨a1, ?_, ?_, ?_, a5⟩
    · intro hv2; simp only at hv2; rw [hnv] at hv2; cases hv2
    · intro hv2
      simp only at hv2 ⊢
      rw [b1] at hv2
      rw [(b2 hv2).1]; exact a2 hv2
    · intro hv2
      simp only at hv2 ⊢
      rw [c1] at hv2
      rw [(c2 hv2).1]; exact a3 hv2

theorem mem_stage_load (memory : Int → Int) {cur_exmem : EXMEM}
    (hv : cur_exmem.valid = true) (ht : cur_exmem.ins.type = I_LW) :
    mem_stage memory cur_exmem =
      (memory, { valid := true, pc := cur_exmem.pc, ins := cur_exmem.ins,
                 result := load_val memory cur_exmem.alu }) := by
  unfold mem_stage
  simp only [hv, if_true, ht]

theorem forward_memwb_hit (cur_idex : IDEX) (cur_exmem : EXMEM) {cur_memwb : MEMWB}
    (hv : cur_memwb.valid = true) (hw : writes_back cur_memwb.ins = true)
    (h0 : 0 ≤ cur_memwb.ins.rd) :
    (cur_idex.ins.rs = cur_memwb.ins.rd →
      (forward cur_idex cur_exmem cur_memwb).vrs = cur_memwb.result) ∧
    (cur_idex.ins.rt = cur_memwb.ins.rd →
      (forward cur_idex cur_exmem cur_memwb).vrt = cur_memwb.result) ∧
    (cur_idex.ins.rd = cur_memwb.ins.rd →
      (forward cur_idex cur_exmem cur_memwb).vrd = cur_memwb.result) := by
  have hd : dest_reg cur_memwb.ins = cur_memwb.ins.rd := by simp [dest_reg, hw]
  unfold forward forward_memwb
  simp only [hv, if_true, hd, ge_iff_le, h0]
  refine ⟨?_, ?_, ?_⟩ <;> intro h <;> simp [h]

theorem load_use_sequence_aux (prog : List Instr) (labels : List Label) (s : Pipe)
    (hp : prog_in_range prog) (hs : s.in_range)
    (hload : s.idex.valid = true ∧ s.idex.ins.type = I_LW)
    (hcons : s.ifid.valid = true ∧ reads_source s.ifid.ins s.idex.ins.rd) :
    ∃ o1 o2 o3,
      cycle_step prog labels s = some o1 ∧ o1.load_use_stall = true ∧
      cycle_step prog labels o1.next = some o2 ∧ o2.load_use_stall = false ∧
      o2.next.idex.valid = true ∧ o2.next.idex.ins = s.ifid.ins ∧
      o2.next.memwb.valid = true ∧ o2.next.memwb.ins = s.idex.ins ∧
      o2.next.memwb.result = load_val o1.next.m.memory o1.next.exmem.alu ∧
      o1.next.exmem.ins = s.idex.ins ∧
      (s.ifid.ins.rs = s.idex.ins.rd →
        (forward o2.next.idex o2.next.exmem o2.next.memwb).vrs = o2.next.memwb.result) ∧
      (s.ifid.ins.rt = s.idex.ins.rd →
        (forward o2.next.idex o2.next.exmem o2.next.memwb).vrt = o2.next.memwb.result) ∧
      (s.ifid.ins.rd = s.idex.ins.rd →
        (forward o2.next.idex o2.next.exmem o2.next.memwb).vrd = o2.next.memwb.result) ∧
      cycle_step prog labels o2.next = some o3 ∧
      o3.next.exmem.valid = true ∧ o3.next.exmem.ins = s.ifid.ins := by
  obtain ⟨o1, h1⟩ := cycle_step_some prog labels hs
  have hs1 := in_range_next hp hs h1
  obtain ⟨o2, h2⟩ := cycle_step_some prog labels hs1
  have hs2 := in_range_next hp hs1 h2
  obtain ⟨o3, h3⟩ := cycle_step_some prog labels hs2
  have hst : o1.load_use_stall = true :=
    (stall_signalled_iff prog labels s o1 h1).2 ⟨hcons.1, hload.1, hload.2, hcons.2⟩
  obtain ⟨e1, e2, e3, _, _, e4, e5, e6, e7⟩ := stall_cycle_effect prog labels s o1 h1 hst
  obtain ⟨f1, f2, f3, f4⟩ := (no_second_stall prog labels s o1 h1 hst).1 o2 h2
  have hrd0 : 0 ≤ s.idex.ins.rd := (hs.2.1 hload.1).1.1
  -- the LOAD passes MEM in the second cycle
  obtain ⟨m2, r2, id2, nif2, pc2, hw2, hid2, hif2, ho2⟩ := cycle_step_inv h2
  have hmem : m2.memory = o1.next.m.memory := wb_stage_memory hw2
  have hlw1 : o1.next.exmem.ins.type = I_LW := by rw [e5]; exact hload.2
  have hmw : o2.next.memwb = ⟨true, o1.next.exmem.pc, o1.next.exmem.ins,
      load_val o1.next.m.memory o1.next.exmem.alu⟩ := by
    rw [ho2]; simp only
    rw [mem_stage_load _ e4 hlw1, hmem]
  have g1 : o2.next.memwb.valid = true := by rw [hmw]
  have g2 : o2.next.memwb.ins = s.idex.ins := by rw [hmw]; exact e5
  have g3 : o2.next.memwb.result = load_val o1.next.m.memory o1.next.exmem.alu := by rw [hmw]
  have hwb : writes_back o2.next.memwb.ins = true := by
    rw [g2]; simp [writes_back, hload.2]
  have hfw := forward_memwb_hit o2.next.idex o2.next.exmem g1 hwb (by rw [g2]; exact hrd0)
  rw [f3, g2] at hfw
  -- the consumer passes EX in the third cycle
  obtain ⟨m3, r3, id3, nif3, pc3, hw3, hid3, hif3, ho3⟩ := cycle_step_inv h3
  obtain ⟨b1, b2⟩ := ex_stage_latch labels o2.next.idex o2.next.exmem o2.next.memwb
  have k1 : o3.next.exmem.valid = true := by rw [ho3]; simp only; rw [b1]; exact f2
  have k2 : o3.next.exmem.ins = s.ifid.ins := by rw [ho3]; simp only; rw [(b2 f2).1]; exact f3
  exact ⟨o1, o2, o3, h1, hst, h2, f1, f2, f3, g1, g2, g3, e5, hfw.1, hfw.2.1, hfw.2.2, h3, k1, k2⟩

theorem id_stage_empty_ifid (regfile : Int → Int) (branch_taken : Bool) {cur_ifid : IFID}
    (cur_idex : IDEX) (hv : cur_ifid.valid = false) :
    id_stage regfile branch_taken cur_ifid cur_idex = some ⟨IDEX.zero, false⟩ := by
  unfold id_stage
  simp [hv]

theorem id_stage_taken (regfile : Int → Int) (cur_ifid : IFID) (cur_idex : IDEX) :
    id_stage regfile true cur_ifid cur_idex = some ⟨IDEX.zero, false⟩ := by
  unfold id_stage
  simp

theorem if_stage_taken (prog : List Instr) {branch_target : Int} (load_use_stall : Bool)
    (cur_ifid : IFID) (pc : Int) (h : branch_target ≥ 0) :
    if_stage prog true branch_target load_use_stall cur_ifid pc =
      some ({ cur_ifid with valid := false }, branch_target) := by
  unfold if_stage
  simp [h]

theorem if_stage_empty_ifid (prog : List Instr) (branch_taken : Bool) (branch_target : Int)
    (f g : IFID) (pc : Int) :
    (if_stage prog branch_taken branch_target false f pc = none ∧
      if_stage prog branch_taken branch_target false g pc = none) ∨
    ∃ x y npc, if_stage prog branch_taken branch_target false f pc = some (x, npc) ∧
      if_stage prog branch_taken branch_target false g pc = some (y, npc) ∧
      (x = y ∨ (x.valid = false ∧ y.valid = false)) := by
  unfold if_stage
  by_cases h1 : branch_taken = true
  · simp only [h1, if_true]
    exact Or.inr ⟨_, _, _, rfl, rfl, Or.inr ⟨rfl, rfl⟩⟩
  · simp only [h1, Bool.false_eq_true, if_false]
    by_cases h3 : pc < prog.length
    · simp only [h3, if_true]
      cases hp : prog_at prog pc with
      | none => exact Or.inl ⟨rfl, rfl⟩
      | some ins => exact Or.inr ⟨_, _, _, rfl, rfl, Or.inl rfl⟩
    · simp only [h3, if_false]
      exact Or.inr ⟨_, _, _, rfl, rfl, Or.inr ⟨rfl, rfl⟩⟩

theorem cycle_step_empty_ifid (prog : List Instr) (labels : List Label) {a b : Pipe}
    (h : same_but_empty_ifid a b) :
    (cycle_step prog labels a = none ∧ cycle_step prog labels b = none) ∨
    ∃ oa ob, cycle_step prog labels a = some oa ∧ cycle_step prog labels b = some ob ∧
      same_but_empty_ifid oa.next ob.next := by
  obtain ⟨m, fa, idex, exmem, memwb, pc, cycle, retired⟩ := a
  obtain ⟨mb, fb, idexb, exmemb, memwbb, pcb, cycleb, retiredb⟩ := b
  obtain ⟨rfl, rfl, rfl, rfl, rfl, rfl, rfl, hf⟩ := h
  simp only at hf
  rcases hf with rfl | ⟨hfa, hfb⟩
  · cases hc : cycle_step prog labels
      { m := m, ifid := fa, idex := idex, exmem := exmem, memwb := memwb, pc := pc,
        cycle := cycle, retired := retired } with
    | none => exact Or.inl ⟨rfl, rfl⟩
    | some o => exact Or.inr ⟨o, o, rfl, rfl, rfl, rfl, rfl, rfl, rfl, rfl, rfl, Or.inl rfl⟩
  · unfold cycle_step
    simp only
    cases hw : wb_stage m retired memwb with
    | none => exact Or.inl ⟨rfl, rfl⟩
    | some w =>
      obtain ⟨m1, r1⟩ := w
      simp only [Option.bind_eq_bind, Option.some_bind, Option.pure_def]
      rw [id_stage_empty_ifid _ _ _ hfa, id_stage_empty_ifid _ _ _ hfb]
      simp only [Option.some_bind]
      rcases if_stage_empty_ifid prog (ex_stage labels idex exmem memwb).branch_taken
        (ex_stage labels idex exmem memwb).branch_target fa fb pc with ⟨n1, n2⟩ | ⟨x, y, npc, e1, e2, e3⟩
      · rw [n1, n2]; exact Or.inl ⟨rfl, rfl⟩
      · rw [e1, e2]
        exact Or.inr ⟨_, _, rfl, rfl, rfl, rfl, rfl, rfl, rfl, rfl, rfl, e3⟩

theorem empty_of_same {a b : Pipe} (h : same_but_empty_ifid a b) : a.empty = b.empty := by
  obtain ⟨_, h2, h3, h4, _, _, _, hf⟩ := h
  unfold Pipe.empty
  rw [h2, h3, h4]
  rcases hf with e | ⟨e1, e2⟩
  · rw [e]
  · rw [e1, e2]

theorem pipe_loop_empty_ifid (prog : List Instr) (labels : List Label) (n : Nat) :
    ∀ a b : Pipe, same_but_empty_ifid a b →
      (pipe_loop prog labels n a).map Pipe.committed =
        (pipe_loop prog labels n b).map Pipe.committed := by
  induction n with
  | zero =>
    intro a b h
    simp only [pipe_loop, Option.map_some', Pipe.committed, h.1, h.2.2.2.2.2.2.1]
  | succ n ih =>
    intro a b h
    unfold pipe_loop
    rw [empty_of_same h, h.2.2.2.2.1]
    by_cases hc : b.empty = true ∧ b.pc ≥ (prog.length : Int)
    · simp only [hc, and_self, if_true, Option.map_some', Pipe.committed, h.1,
        h.2.2.2.2.2.2.1]
    · rw [if_neg hc, if_neg hc]
      rcases cycle_step_empty_ifid prog labels h with ⟨n1, n2⟩ | ⟨oa, ob, e1, e2, e3⟩
      · rw [n1, n2]
      · rw [e1, e2]
        exact ih _ _ e3

theorem ex_stage_target_nonneg {labels : List Label} {cur_idex : IDEX} {cur_exmem : EXMEM}
    {cur_memwb : MEMWB}
    (h : (ex_stage labels cur_idex cur_exmem cur_memwb).branch_taken = true) :
    (ex_stage labels cur_idex cur_exmem cur_memwb).branch_target ≥ 0 := by
  obtain ⟨h1, h2⟩ := ex_stage_taken_iff labels cur_idex cur_exmem cur_memwb
  rw [h2 h]
  rcases (h1.1 h).2 with ⟨_, _, h3⟩ | ⟨_, h3⟩ <;> exact h3

theorem if_stage_fetch (prog : List Instr) (branch_target : Int) (cur_ifid : IFID) (pc : Int) :
    if_stage prog false branch_target false cur_ifid pc =
      if pc < prog.length then
        (prog_at prog pc).map fun ins => ({ valid := true, pc := pc, ins := ins }, pc + 1)
      else some ({ cur_ifid with valid := false }, pc) := by
  unfold if_stage
  simp

theorem taken_branch_flush_aux (prog : List Instr) (labels : List Label) (s : Pipe)
    (o : CycleOut) (h : cycle_step prog labels s = some o) (ht : o.branch_taken = true) :
    o.next.pc = o.branch_target ∧ o.next.ifid.valid = false ∧ o.next.idex.valid = false ∧
    (∀ f : IFID, ∃ o1, cycle_step prog labels { s with ifid := f } = some o1 ∧
        o1.branch_taken = true ∧ o1.next.pc = o.branch_target ∧
        o1.next.ifid.valid = false ∧ o1.next.idex.valid = false ∧
        o1.next.exmem = o.next.exmem ∧ o1.next.memwb = o.next.memwb ∧
        o1.next.committed = o.next.committed ∧
        ∀ n, (pipe_loop prog labels n o1.next).map Pipe.committed =
          (pipe_loop prog labels n o.next).map Pipe.committed) ∧
    (∀ o2, cycle_step prog labels o.next = some o2 →
        o2.branch_taken = false ∧ o2.load_use_stall = false ∧
        (o.branch_target < prog.length →
          o2.next.ifid.valid = true ∧ o2.next.ifid.pc = o.branch_target ∧
          prog_at prog o.branch_target = some o2.next.ifid.ins ∧
          o2.next.pc = o.branch_target + 1) ∧
        (¬ o.branch_target < prog.length →
          o2.next.ifid.valid = false ∧ o2.next.pc = o.branch_target)) := by
  obtain ⟨m1, retired, id, nif, pc, hw, hid, hif, rfl⟩ := cycle_step_inv h
  simp only at ht ⊢
  have htg := ex_stage_target_nonneg ht
  rw [ht, id_stage_taken] at hid
  simp only [Option.some.injEq] at hid
  subst hid
  rw [ht, if_stage_taken prog _ _ _ htg] at hif
  simp only [Option.some.injEq, Prod.mk.injEq] at hif
  obtain ⟨rfl, rfl⟩ := hif
  refine ⟨rfl, rfl, rfl, ?_, ?_⟩
  · intro f
    have hc : cycle_step prog labels { s with ifid := f } = some
        { next := { m := { m1 with memory := (mem_stage m1.memory s.exmem).1 },
                    ifid := { f with valid := false }, idex := IDEX.zero,
                    exmem := (ex_stage labels s.idex s.exmem s.memwb).next_exmem,
                    memwb := (mem_stage m1.memory s.exmem).2,
                    pc := (ex_stage labels s.idex s.exmem s.memwb).branch_target,
                    cycle := s.cycle + 1, retired := retired },
          branch_taken := true,
          branch_target := (ex_stage labels s.idex s.exmem s.memwb).branch_target,
          load_use_stall := false } := by
      unfold cycle_step
      simp only [hw, Option.bind_eq_bind, Option.some_bind, Option.pure_def, ht,
        id_stage_taken, if_stage_taken prog _ _ _ htg]
    refine ⟨_, hc, rfl, rfl, rfl, rfl, rfl, rfl, rfl, ?_⟩
    intro n
    apply pipe_loop_empty_ifid
    exact ⟨rfl, rfl, rfl, rfl, rfl, rfl, rfl, Or.inr ⟨rfl, rfl⟩⟩
  · intro o2 h2
    obtain ⟨m2, r2, id2, nif2, pc2, hw2, hid2, hif2, rfl⟩ := cycle_step_inv h2
    simp only at hid2 hif2 ⊢
    have hb : IDEX.zero.valid = false := rfl
    rw [ex_stage_bubble labels _ _ hb] at hid2 hif2 ⊢
    simp only at hid2 hif2 ⊢
    rw [id_stage_empty_ifid _ _ _ rfl] at hid2
    simp only [Option.some.injEq] at hid2
    subst hid2
    simp only at hif2 ⊢
    rw [if_stage_fetch] at hif2
    refine ⟨trivial, trivial, ?_, ?_⟩
    · intro hlt
      rw [if_pos hlt] at hif2
      simp only [Option.map_eq_some', Prod.mk.injEq] at hif2
      obtain ⟨ins, hi, rfl, rfl⟩ := hif2
      exact ⟨rfl, rfl, hi, rfl⟩
    · intro hge
      rw [if_neg hge] at hif2
      simp only [Option.some.injEq, Prod.mk.injEq] at hif2
      obtain ⟨rfl, rfl⟩ := hif2
      exact ⟨rfl, rfl⟩

/-! ## The claims -/

/-- Claim C1, evaluated on `SET R1,1 / SET R1,2 / ADD R2,R1,R1` (all indices in range,
cap 200): `run_pipelined` completes naturally after 7 cycles with all latches empty and
R2 = 2, while `run_single` completes after 3 cycles with R2 = 4.  The final register
files of the two models differ. -/
theorem single_and_pipelined_disagree :
    prog_in_range waw_prog ∧
    (run_pipelined waw_prog [] 200).map
      (fun s => (s.empty, s.pc, s.cycle, s.retired, s.m.regfile 1, s.m.regfile 2)) =
        some (true, 3, 7, 3, 2, 2) ∧
    (run_single waw_prog [] 200).map
      (fun s => (s.pc, s.cycles, s.m.regfile 1, s.m.regfile 2)) = some (3, 3, 2, 4) := by
  refine ⟨?_, by decide, by decide⟩
  intro ins h
  simp only [waw_prog, List.mem_cons, List.mem_singleton, List.not_mem_nil, or_false] at h
  rcases h with rfl | rfl | rfl <;> simp [Instr.in_range, mk_instr, REGS]

/-- Claim C2: in the EX stage, for each of the three operand fields (rs, rt, rd) of the
ID/EX instruction, with register index `r` not negative, the operand used is the MEM/WB
result when MEM/WB is occupied by a write-back instruction (ADD, SUB, LOAD, SET) with
destination `r`; otherwise the EX/MEM ALU result when EX/MEM is occupied by a write-back
instruction other than LOAD with destination `r`; otherwise the value captured at
decode.  When both latches write `r`, the MEM/WB value is the one used. -/
theorem forward_priority (cur_idex : IDEX) (cur_exmem : EXMEM) (cur_memwb : MEMWB)
    (hrs : 0 ≤ cur_idex.ins.rs) (hrt : 0 ≤ cur_idex.ins.rt) (hrd : 0 ≤ cur_idex.ins.rd) :
    forward cur_idex cur_exmem cur_memwb =
      { vrs := expected_operand cur_idex.ins.rs cur_idex.rs_val cur_exmem cur_memwb,
        vrt := expected_operand cur_idex.ins.rt cur_idex.rt_val cur_exmem cur_memwb,
        vrd := expected_operand cur_idex.ins.rd cur_idex.rd_val cur_exmem cur_memwb } ∧
    (cur_memwb.valid = true ∧ is_writeback_op cur_memwb.ins.type = true ∧
      cur_exmem.valid = true ∧ is_writeback_op cur_exmem.ins.type = true ∧
      cur_exmem.ins.type ≠ I_LW ∧ cur_exmem.ins.rd = cur_memwb.ins.rd →
        (cur_idex.ins.rs = cur_memwb.ins.rd →
          (forward cur_idex cur_exmem cur_memwb).vrs = cur_memwb.result) ∧
        (cur_idex.ins.rt = cur_memwb.ins.rd →
          (forward cur_idex cur_exmem cur_memwb).vrt = cur_memwb.result) ∧
        (cur_idex.ins.rd = cur_memwb.ins.rd →
          (forward cur_idex cur_exmem cur_memwb).vrd = cur_memwb.result)) := by
  have hf := forward_spec cur_idex cur_exmem cur_memwb hrs hrt hrd
  refine ⟨hf, ?_⟩
  rintro ⟨h1, h2, -⟩
  rw [hf]
  refine ⟨?_, ?_, ?_⟩ <;> intro h <;> simp [expected_operand, h1, h2, h]

theorem forward_priority_witness :
    (0 ≤ fw_idex.ins.rs ∧ 0 ≤ fw_idex.ins.rt ∧ 0 ≤ fw_idex.ins.rd) ∧
    (forward fw_idex fw_exmem fw_memwb).vrs = 5 ∧
    (forward fw_idex fw_exmem fw_memwb).vrs =
      expected_operand fw_idex.ins.rs fw_idex.rs_val fw_exmem fw_memwb :=
  ⟨by decide, by decide,
   congrArg Operands.vrs
     (forward_priority fw_idex fw_exmem fw_memwb (by decide) (by decide) (by decide)).1⟩

/-- Claim C3: in one cycle (any cycle that subscripts no array out of bounds) a load-use
stall is signalled if and only if IF/ID is occupied, ID/EX is occupied by a LOAD, and
the LOAD's destination register is a source operand of the IF/ID instruction, the
source operands being rs and rt for ADD, SUB and BRANCH-EQ, rs for LOAD, rs and rd for
STORE, rs for OUTPUT, none for SET-IMMEDIATE, JUMP and NO-OP. -/
theorem load_use_stall_iff (prog : List Instr) (labels : List Label) (s : Pipe)
    (o : CycleOut) (h : cycle_step prog labels s = some o) :
    o.load_use_stall = true ↔
      (s.ifid.valid = true ∧ s.idex.valid = true ∧ s.idex.ins.type = I_LW ∧
        reads_source s.ifid.ins s.idex.ins.rd) :=
  stall_signalled_iff prog labels s o h

theorem load_use_stall_iff_witness :
    cycle_step ld_prog [] ld_state = some ld_out ∧
    (ld_out.load_use_stall = true ↔
      (ld_state.ifid.valid = true ∧ ld_state.idex.valid = true ∧
        ld_state.idex.ins.type = I_LW ∧
        reads_source ld_state.ifid.ins ld_state.idex.ins.rd)) :=
  ⟨(Option.some_get _).symm,
   load_use_stall_iff ld_prog [] ld_state ld_out (Option.some_get _).symm⟩

/-- Claim C4: with a label table whose addresses are instruction indices, a control
transfer is marked taken in the EX stage if and only if ID/EX holds a BRANCH-EQ whose
two forwarded source values are equal and whose label is in the label table, or holds a
JUMP whose label is in the table; the target is then the address `find_label` returns.
In every other case no branch is taken in that cycle. -/
theorem branch_resolution (prog : List Instr) (labels : List Label) (hl : labels_ok labels)
    (s : Pipe) (o : CycleOut) (h : cycle_step prog labels s = some o) :
    (o.branch_taken = true ↔
      s.idex.valid = true ∧
        ((s.idex.ins.type = I_BEQ ∧
            (forward s.idex s.exmem s.memwb).vrs = (forward s.idex s.exmem s.memwb).vrt ∧
            label_found labels s.idex.ins.label) ∨
         (s.idex.ins.type = I_J ∧ label_found labels s.idex.ins.label))) ∧
    (o.branch_taken = true → o.branch_target = find_label labels s.idex.ins.label) :=
  branch_taken_iff prog labels hl s o h

theorem branch_resolution_witness :
    labels_ok br_labels ∧ cycle_step br_prog br_labels br_state = some br_out ∧
    br_out.branch_taken = true ∧
    (br_out.branch_taken = true →
      br_out.branch_target = find_label br_labels br_state.idex.ins.label) :=
  ⟨by simp [labels_ok, br_labels], (Option.some_get _).symm, by decide,
   (branch_resolution br_prog br_labels (by simp [labels_ok, br_labels]) br_state br_out
     (Option.some_get _).symm).2⟩

/-- Claim C5: in every cycle in which EX resolves a branch or jump as taken with target
`t`, the program counter after the cycle is `t`, the next IF/ID and ID/EX latches are
empty and nothing is fetched, whatever IF/ID held: with any other IF/ID content the
cycle gives the same EX/MEM and MEM/WB latches and the same committed state, and every
continuation of the run commits the same registers, memory, ports, OUTPUT trace and
retired count, so the instruction that occupied IF/ID is never committed.  The next
cycle takes no branch, signals no stall and fetches the instruction at index `t` when
`t` is inside the program (nothing otherwise); it is defined for in-range states. -/
theorem taken_branch_flush (prog : List Instr) (labels : List Label) (s : Pipe)
    (o : CycleOut) (h : cycle_step prog labels s = some o) (ht : o.branch_taken = true) :
    (o.next.pc = o.branch_target ∧ o.next.ifid.valid = false ∧ o.next.idex.valid = false ∧
    (∀ f : IFID, ∃ o1, cycle_step prog labels { s with ifid := f } = some o1 ∧
        o1.branch_taken = true ∧ o1.next.pc = o.branch_target ∧
        o1.next.ifid.valid = false ∧ o1.next.idex.valid = false ∧
        o1.next.exmem = o.next.exmem ∧ o1.next.memwb = o.next.memwb ∧
        o1.next.committed = o.next.committed ∧
        ∀ n, (pipe_loop prog labels n o1.next).map Pipe.committed =
          (pipe_loop prog labels n o.next).map Pipe.committed) ∧
    (∀ o2, cycle_step prog labels o.next = some o2 →
        o2.branch_taken = false ∧ o2.load_use_stall = false ∧
        (o.branch_target < prog.length →
          o2.next.ifid.valid = true ∧ o2.next.ifid.pc = o.branch_target ∧
          prog_at prog o.branch_target = some o2.next.ifid.ins ∧
          o2.next.pc = o.branch_target + 1) ∧
        (¬ o.branch_target < prog.length →
          o2.next.ifid.valid = false ∧ o2.next.pc = o.branch_target))) ∧
    (prog_in_range prog → s.in_range → ∃ o2, cycle_step prog labels o.next = some o2) :=
  ⟨taken_branch_flush_aux prog labels s o h ht,
   fun hp hs => cycle_step_some prog labels (in_range_next hp hs h)⟩

theorem taken_branch_flush_witness :
    (cycle_step br_prog br_labels br_state = some br_out ∧ br_out.branch_taken = true) ∧
    br_out.branch_target = 3 ∧
    (br_out.next.pc = br_out.branch_target ∧ br_out.next.ifid.valid = false ∧
      br_out.next.idex.valid = false) :=
  ⟨⟨(Option.some_get _).symm, by decide⟩, by decide,
   (taken_branch_flush br_prog br_labels br_state br_out (Option.some_get _).symm
      (by decide)).1.1,
   (taken_branch_flush br_prog br_labels br_state br_out (Option.some_get _).symm
      (by decide)).1.2.1,
   (taken_branch_flush br_prog br_labels br_state br_out (Option.some_get _).symm
      (by decide)).1.2.2.1⟩

/-- Claim C6: in every cycle in which a load-use stall is signalled, the next IF/ID
latch is identical to the current one, the program counter is unchanged, the next ID/EX
latch is empty, and the LOAD in ID/EX advances into the next EX/MEM latch, carrying its
effective address. -/
theorem stall_holds_fetch (prog : List Instr) (labels : List Label) (s : Pipe)
    (o : CycleOut) (h : cycle_step prog labels s = some o) (hst : o.load_use_stall = true) :
    o.next.ifid = s.ifid ∧ o.next.pc = s.pc ∧ o.next.idex.valid = false ∧
    s.idex.valid = true ∧ s.idex.ins.type = I_LW ∧
    o.next.exmem.valid = true ∧ o.next.exmem.ins = s.idex.ins ∧
    o.next.exmem.pc = s.idex.pc ∧
    o.next.exmem.alu = add32 (forward s.idex s.exmem s.memwb).vrs s.idex.ins.imm :=
  stall_cycle_effect prog labels s o h hst

theorem stall_holds_fetch_witness :
    (cycle_step ld_prog [] ld_state = some ld_out ∧ ld_out.load_use_stall = true) ∧
    ld_out.next.ifid = ld_state.ifid ∧ ld_out.next.pc = 3 ∧ ld_out.next.exmem.alu = 8 ∧
    ld_out.next.exmem.ins = ld_state.idex.ins :=
  ⟨⟨(Option.some_get _).symm, by decide⟩,
   (stall_holds_fetch ld_prog [] ld_state ld_out (Option.some_get _).symm (by decide)).1,
   by decide, by decide,
   (stall_holds_fetch ld_prog [] ld_state ld_out (Option.some_get _).symm
      (by decide)).2.2.2.2.2.2.1⟩

/-- Claim C7: from every in-range pipeline state in which ID/EX holds a LOAD with
destination `r` and IF/ID holds an instruction `C` that reads `r` as a source operand,
the first cycle stalls, the second signals no stall and issues `C` into ID/EX while the
LOAD reads memory in its MEM step, and in the third cycle, when `C` passes EX, every
operand field of `C` with register index `r` has the value the LOAD read, delivered by
MEM/WB. -/
theorem load_use_one_stall (prog : List Instr) (labels : List Label) (s : Pipe)
    (hp : prog_in_range prog) (hs : s.in_range)
    (hload : s.idex.valid = true ∧ s.idex.ins.type = I_LW)
    (hcons : s.ifid.valid = true ∧ reads_source s.ifid.ins s.idex.ins.rd) :
    ∃ o1 o2 o3,
      cycle_step prog labels s = some o1 ∧ o1.load_use_stall = true ∧
      cycle_step prog labels o1.next = some o2 ∧ o2.load_use_stall = false ∧
      o2.next.idex.valid = true ∧ o2.next.idex.ins = s.ifid.ins ∧
      o2.next.memwb.valid = true ∧ o2.next.memwb.ins = s.idex.ins ∧
      o2.next.memwb.result = load_val o1.next.m.memory o1.next.exmem.alu ∧
      o1.next.exmem.ins = s.idex.ins ∧
      (s.ifid.ins.rs = s.idex.ins.rd →
        (forward o2.next.idex o2.next.exmem o2.next.memwb).vrs = o2.next.memwb.result) ∧
      (s.ifid.ins.rt = s.idex.ins.rd →
        (forward o2.next.idex o2.next.exmem o2.next.memwb).vrt = o2.next.memwb.result) ∧
      (s.ifid.ins.rd = s.idex.ins.rd →
        (forward o2.next.idex o2.next.exmem o2.next.memwb).vrd = o2.next.memwb.result) ∧
      cycle_step prog labels o2.next = some o3 ∧
      o3.next.exmem.valid = true ∧ o3.next.exmem.ins = s.ifid.ins :=
  load_use_sequence_aux prog labels s hp hs hload hcons

theorem load_use_one_stall_witness :
    (prog_in_range ld_prog ∧ ld_state.in_range ∧
      (ld_state.idex.valid = true ∧ ld_state.idex.ins.type = I_LW) ∧
      (ld_state.ifid.valid = true ∧ reads_source ld_state.ifid.ins ld_state.idex.ins.rd)) ∧
    ∃ o1 o2, cycle_step ld_prog [] ld_state = some o1 ∧ o1.load_use_stall = true ∧
      cycle_step ld_prog [] o1.next = some o2 ∧ o2.load_use_stall = false ∧
      o2.next.idex.ins = ld_state.ifid.ins ∧
      (forward o2.next.idex o2.next.exmem o2.next.memwb).vrs =
        load_val o1.next.m.memory o1.next.exmem.alu := by
  have hp : prog_in_range ld_prog := by
    intro ins h
    simp only [ld_prog, List.mem_cons, List.mem_singleton, List.not_mem_nil, or_false] at h
    rcases h with rfl | rfl | rfl <;> simp [Instr.in_range, mk_instr, REGS]
  have hs : ld_state.in_range := by
    simp [Pipe.in_range, ld_state, Instr.in_range, mk_instr, REGS, MEMWB.zero]
  have hl : ld_state.idex.valid = true ∧ ld_state.idex.ins.type = I_LW := ⟨rfl, rfl⟩
  have hc : ld_state.ifid.valid = true ∧
      reads_source ld_state.ifid.ins ld_state.idex.ins.rd := ⟨rfl, Or.inl rfl⟩
  refine ⟨⟨hp, hs, hl, hc⟩, ?_⟩
  obtain ⟨o1, o2, o3, a, b, c, d, _, e, _, _, f, _, g, _⟩ :=
    load_use_one_stall ld_prog [] ld_state hp hs hl hc
  exact ⟨o1, o2, a, b, c, d, e, (g rfl).trans f⟩

/-- Claim C8, evaluated on
`SET R2,1 / SET R3,2 / SET R5,4 / SET R1,9 / ADD R1,R2,R3 / ADD R4,R1,R5`: after seven
cycles `ADD R4,R1,R5` is in ID/EX, its producer `ADD R1,R2,R3` is in EX/MEM with ALU
result 3 and `SET R1,9` is in MEM/WB; the operand used for R1 is 9, not the EX/MEM
result 3.  The run takes 10 cycles for 6 instructions (no stall) and ends with
R4 = 13, where `run_single` gives R4 = 7. -/
theorem forward_exmem_overridden :
    (run_pipelined fwd_prog [] 7).map
      (fun s => (s.idex.valid, s.idex.ins, s.exmem.valid, s.exmem.ins, s.exmem.alu,
        s.memwb.valid, s.memwb.ins, s.memwb.result,
        (forward s.idex s.exmem s.memwb).vrs)) =
      some (true, mk_instr I_ADD 4 1 5 0 "", true, mk_instr I_ADD 1 2 3 0 "", 3,
        true, mk_instr I_SET 1 0 0 9 "", 9, 9) ∧
    (run_pipelined fwd_prog [] 200).map
      (fun s => (s.empty, s.pc, s.cycle, s.retired, s.m.regfile 1, s.m.regfile 4)) =
        some (true, 6, 10, 6, 3, 13) ∧
    (run_single fwd_prog [] 200).map (fun s => (s.pc, s.m.regfile 1, s.m.regfile 4)) =
      some (6, 3, 7) := by
  refine ⟨by rfl, by decide, by decide⟩

/-- Claim C9: if one cycle signals a load-use stall, the immediately following cycle
signals none and issues the held IF/ID instruction into ID/EX; that following cycle is
defined for in-range states. -/
theorem stall_not_repeated (prog : List Instr) (labels : List Label) (s : Pipe)
    (o1 : CycleOut) (h : cycle_step prog labels s = some o1)
    (hst : o1.load_use_stall = true) :
    (∀ o2, cycle_step prog labels o1.next = some o2 →
      o2.load_use_stall = false ∧ o2.next.idex.valid = true ∧
      o2.next.idex.ins = s.ifid.ins ∧ o2.next.idex.pc = s.ifid.pc) ∧
    (s.in_range → ∃ o2, cycle_step prog labels o1.next = some o2) :=
  no_second_stall prog labels s o1 h hst

theorem stall_not_repeated_witness :
    (cycle_step ld_prog [] ld_state = some ld_out ∧ ld_out.load_use_stall = true) ∧
    (ld_state.in_range → ∃ o2, cycle_step ld_prog [] ld_out.next = some o2) ∧
    (∀ o2, cycle_step ld_prog [] ld_out.next = some o2 → o2.load_use_stall = false) :=
  ⟨⟨(Option.some_get _).symm, by decide⟩,
   (stall_not_repeated ld_prog [] ld_state ld_out (Option.some_get _).symm (by decide)).2,
   fun o2 h2 =>
     ((stall_not_repeated ld_prog [] ld_state ld_out (Option.some_get _).symm
        (by decide)).1 o2 h2).1⟩

/-- Claim C10, evaluated on `SET R0,5 / ADD R1,R0,R0`: after three cycles the ADD is in
ID/EX with decode-time operands 0 and `SET R0,5` is in EX/MEM; the operand used for
register 0 is 5.  The run ends with R0 = 0 and R1 = 10, where `run_single` gives
R1 = 0. -/
theorem zero_register_forwarded :
    (run_pipelined r0_prog [] 3).map
      (fun s => (s.idex.valid, s.idex.ins, s.idex.rs_val, s.idex.rt_val, s.exmem.valid,
        s.exmem.ins, s.exmem.alu, forward s.idex s.exmem s.memwb)) =
      some (true, mk_instr I_ADD 1 0 0 0 "", 0, 0, true, mk_instr I_SET 0 0 0 5 "", 5,
        { vrs := 5, vrt := 5, vrd := 0 }) ∧
    (run_pipelined r0_prog [] 200).map
      (fun s => (s.empty, s.pc, s.cycle, s.retired, s.m.regfile 0, s.m.regfile 1)) =
        some (true, 2, 6, 2, 0, 10) ∧
    (run_single r0_prog [] 200).map (fun s => (s.pc, s.m.regfile 0, s.m.regfile 1)) =
      some (2, 0, 0) := by
  refine ⟨by rfl, by decide, by decide⟩

/-! ## Write-back and the zero register -/

theorem wb_stage_invalid {m m1 : Machine} {retired r1 : Int} {cur_memwb : MEMWB}
    (h : wb_stage m retired cur_memwb = some (m1, r1)) (hv : cur_memwb.valid = false) :
    m1 = m ∧ r1 = retired := by
  unfold wb_stage at h
  simp only [hv, Bool.false_eq_true, if_false, Option.some.injEq, Prod.mk.injEq] at h
  exact ⟨h.1.symm, h.2.symm⟩

theorem wb_stage_valid {m m1 : Machine} {retired r1 : Int} {cur_memwb : MEMWB}
    (h : wb_stage m retired cur_memwb = some (m1, r1)) (hv : cur_memwb.valid = true) :
    r1 = retired + 1 ∧ m1.memory = m.memory ∧
    m1.regfile = upd (if writes_back cur_memwb.ins = true
      then upd m.regfile cur_memwb.ins.rd cur_memwb.result else m.regfile) 0 0 ∧
    m1.port_out = (if cur_memwb.ins.type = I_OUT
      then upd m.port_out cur_memwb.ins.imm cur_memwb.result else m.port_out) ∧
    m1.out_trace = (if cur_memwb.ins.type = I_OUT
      then m.out_trace ++ [(cur_memwb.ins.imm, cur_memwb.result)] else m.out_trace) := by
  unfold wb_stage at h
  simp only [hv, if_true] at h
  cases ht : cur_memwb.ins.type <;> simp only [ht] at h <;>
    simp only [Option.map_eq_some', Prod.mk.injEq] at h <;>
    obtain ⟨m2, h2, rfl, rfl⟩ := h
  all_goals first
    | (simp only [Option.some.injEq] at h2; subst h2
       simp [writes_back, ht])
    | (obtain ⟨x, hx, rfl⟩ := h2
       obtain ⟨_, rfl⟩ := arr_write_inv hx
       simp [writes_back, ht])

theorem upd_same (a : Int → Int) (i v : Int) : upd a i v i = v := by
  simp [upd]

theorem upd_other (a : Int → Int) {i j : Int} (v : Int) (h : j ≠ i) : upd a i v j = a j := by
  simp [upd, h]

theorem cycle_step_zero_reg {prog : List Instr} {labels : List Label} {s : Pipe}
    {o : CycleOut} (h : cycle_step prog labels s = some o)
    (h0 : s.memwb.valid = true ∨ s.m.regfile 0 = 0) : o.next.m.regfile 0 = 0 := by
  obtain ⟨m1, retired, id, nif, pc, hw, hid, hif, rfl⟩ := cycle_step_inv h
  simp only
  cases hv : s.memwb.valid
  · obtain ⟨rfl, _⟩ := wb_stage_invalid hw hv
    rcases h0 with h0 | h0
    · rw [hv] at h0; cases h0
    · exact h0
  · obtain ⟨_, _, hr, _⟩ := wb_stage_valid hw hv
    rw [hr]; exact upd_same _ _ _

theorem pipe_loop_zero_reg (prog : List Instr) (labels : List Label)
    (hp : prog_in_range prog) (n : Nat) :
    ∀ s : Pipe, s.in_range → s.m.regfile 0 = 0 →
      ∃ s1, pipe_loop prog labels n s = some s1 ∧ s1.m.regfile 0 = 0 ∧ s1.in_range := by
  induction n with
  | zero => intro s hs h0; exact ⟨s, rfl, h0, hs⟩
  | succ n ih =>
    intro s hs h0
    unfold pipe_loop
    split_ifs with hc
    · exact ⟨s, rfl, h0, hs⟩
    · obtain ⟨o, ho⟩ := cycle_step_some prog labels hs
      rw [ho]
      exact ih o.next (in_range_next hp hs ho) (cycle_step_zero_reg ho (Or.inr h0))

theorem single_exec_some (labels : List Label) {ins : Instr} (m : Machine) {pc : Int}
    (hi : ins.in_range) (h0 : 0 ≤ pc) :
    ∃ m1 pc1, single_exec labels ins m pc = some (m1, pc1) ∧ 0 ≤ pc1 := by
  obtain ⟨h1, h2, h3, h4⟩ := hi
  unfold single_exec
  cases ht : ins.type <;>
    simp only [Option.bind_eq_bind, Option.pure_def, arr_read_in _ h1, arr_read_in _ h2,
      arr_read_in _ h3, arr_write_some _ h1, Option.some_bind]
  · exact ⟨_, _, rfl, by omega⟩
  · exact ⟨_, _, rfl, by omega⟩
  · exact ⟨_, _, rfl, by omega⟩
  · exact ⟨_, _, rfl, by omega⟩
  · cases mem_index (add32 (m.regfile ins.rd) ins.imm) with
    | none => exact ⟨_, _, rfl, by omega⟩
    | some idx =>
      simp only [Option.bind_eq_bind, Option.pure_def, arr_read_in _ h2, Option.some_bind]
      exact ⟨_, _, rfl, by omega⟩
  · split_ifs with ha hb
    · exact ⟨_, _, rfl, hb⟩
    · exact ⟨_, _, rfl, by omega⟩
    · exact ⟨_, _, rfl, by omega⟩
  · split_ifs with hb
    · exact ⟨_, _, rfl, hb⟩
    · exact ⟨_, _, rfl, by omega⟩
  · rw [arr_write_some _ (h4 ht)]
    exact ⟨_, _, rfl, by omega⟩
  · exact ⟨_, _, rfl, by omega⟩

theorem single_step_zero_reg {prog : List Instr} {labels : List Label} {s s1 : Single}
    (h : single_step prog labels s = some s1) : s1.m.regfile 0 = 0 := by
  unfold single_step at h
  simp only [Option.bind_eq_bind, Option.bind_eq_some, Option.pure_def,
    Option.some.injEq] at h
  obtain ⟨ins, _, ⟨m, pc⟩, _, rfl⟩ := h
  exact upd_same m.regfile 0 0

theorem single_step_some (prog : List Instr) (labels : List Label) {s : Single}
    (hp : prog_in_range prog) (h0 : 0 ≤ s.pc) (hlt : s.pc < prog.length) :
    ∃ s1, single_step prog labels s = some s1 ∧ 0 ≤ s1.pc := by
  obtain ⟨ins, hi, hmem⟩ := prog_at_some h0 hlt
  obtain ⟨m1, pc1, he, hpc⟩ := single_exec_some labels s.m (hp ins hmem) h0
  unfold single_step
  simp only [hi, he, Option.bind_eq_bind, Option.some_bind, Option.pure_def]
  exact ⟨_, rfl, hpc⟩

theorem single_loop_zero_reg (prog : List Instr) (labels : List Label)
    (hp : prog_in_range prog) (n : Nat) :
    ∀ s : Single, 0 ≤ s.pc → s.m.regfile 0 = 0 →
      ∃ s1, single_loop prog labels n s = some s1 ∧ s1.m.regfile 0 = 0 ∧ 0 ≤ s1.pc := by
  induction n with
  | zero =>
    intro s hs h0
    unfold single_loop
    split_ifs with hc
    · obtain ⟨s1, h1, h2⟩ := single_step_some prog labels hp hs hc
      exact ⟨s1, h1, single_step_zero_reg h1, h2⟩
    · exact ⟨s, rfl, h0, hs⟩
  | succ n ih =>
    intro s hs h0
    unfold single_loop
    split_ifs with hc
    · obtain ⟨s1, h1, h2⟩ := single_step_some prog labels hp hs hc
      rw [h1]
      exact ih s1 h2 (single_step_zero_reg h1)
    · exact ⟨s, rfl, h0, hs⟩

theorem pipe_init_in_range : pipe_init.in_range := by
  simp [Pipe.in_range, pipe_init, IFID.zero, IDEX.zero, EXMEM.zero, MEMWB.zero]

theorem pipe_loop_zero_reg_any (prog : List Instr) (labels : List Label) (n : Nat) :
    ∀ s f : Pipe, s.m.regfile 0 = 0 → pipe_loop prog labels n s = some f →
      f.m.regfile 0 = 0 := by
  induction n with
  | zero =>
    intro s f h0 h
    simp only [pipe_loop, Option.some.injEq] at h
    subst h; exact h0
  | succ n ih =>
    intro s f h0 h
    unfold pipe_loop at h
    split_ifs at h with hc
    · simp only [Option.some.injEq] at h
      subst h; exact h0
    · cases ho : cycle_step prog labels s with
      | none => rw [ho] at h; cases h
      | some o =>
        rw [ho] at h
        exact ih o.next f (cycle_step_zero_reg ho (Or.inr h0)) h

theorem single_loop_zero_reg_any (prog : List Instr) (labels : List Label) (n : Nat) :
    ∀ s f : Single, s.m.regfile 0 = 0 → single_loop prog labels n s = some f →
      f.m.regfile 0 = 0 := by
  induction n with
  | zero =>
    intro s f h0 h
    unfold single_loop at h
    split_ifs at h with hc
    · exact single_step_zero_reg h
    · simp only [Option.some.injEq] at h
      subst h; exact h0
  | succ n ih =>
    intro s f h0 h
    unfold single_loop at h
    split_ifs at h with hc
    · cases hs : single_step prog labels s with
      | none => rw [hs] at h; cases h
      | some s1 =>
        rw [hs] at h
        exact ih s1 f (single_step_zero_reg hs) h
    · simp only [Option.some.injEq] at h
      subst h; exact h0

/-- Claim C11: `regfile[0] = 0` holds after `reset_state`; for every program with
in-range indices it holds at the end of every cycle of `run_pipelined` and after every
instruction of `run_single` (the state reached under any cap exists and has it).  One
cycle establishes it whenever MEM/WB is occupied, whatever the committed destination,
and keeps it otherwise; one instruction of `run_single` always establishes it; and
every state either loop reaches from the reset state has it, for any program. -/
theorem zero_register_invariant (prog : List Instr) (labels : List Label)
    (hp : prog_in_range prog) :
    reset_state.regfile 0 = 0 ∧
    (∀ n, ∃ s, pipe_loop prog labels n pipe_init = some s ∧ s.m.regfile 0 = 0) ∧
    (∀ n, ∃ s, single_loop prog labels n single_init = some s ∧ s.m.regfile 0 = 0) ∧
    (∀ s o, cycle_step prog labels s = some o →
      (s.memwb.valid = true ∨ s.m.regfile 0 = 0) → o.next.m.regfile 0 = 0) ∧
    (∀ s s1, single_step prog labels s = some s1 → s1.m.regfile 0 = 0) ∧
    (∀ (q : List Instr) n f, pipe_loop q labels n pipe_init = some f → f.m.regfile 0 = 0) ∧
    (∀ (q : List Instr) n f, single_loop q labels n single_init = some f →
      f.m.regfile 0 = 0) := by
  refine ⟨rfl, ?_, ?_, ?_, ?_, ?_, ?_⟩
  · intro n
    obtain ⟨s, h1, h2, _⟩ := pipe_loop_zero_reg prog labels hp n pipe_init
      pipe_init_in_range rfl
    exact ⟨s, h1, h2⟩
  · intro n
    obtain ⟨s, h1, h2, _⟩ := single_loop_zero_reg prog labels hp n single_init
      (le_refl _) rfl
    exact ⟨s, h1, h2⟩
  · intro s o h h0
    exact cycle_step_zero_reg h h0
  · intro s s1 h
    exact single_step_zero_reg h
  · intro q n f h
    exact pipe_loop_zero_reg_any q labels n pipe_init f rfl h
  · intro q n f h
    exact single_loop_zero_reg_any q labels n single_init f rfl h

theorem r0_prog_in_range : prog_in_range r0_prog := by
  intro ins h
  simp only [r0_prog, List.mem_cons, List.mem_singleton, List.not_mem_nil, or_false] at h
  rcases h with rfl | rfl <;> simp [Instr.in_range, mk_instr, REGS]

theorem zero_register_invariant_witness :
    prog_in_range r0_prog ∧
    (∀ n, ∃ s, pipe_loop r0_prog [] n pipe_init = some s ∧ s.m.regfile 0 = 0) ∧
    (∀ n, ∃ s, single_loop r0_prog [] n single_init = some s ∧ s.m.regfile 0 = 0) :=
  ⟨r0_prog_in_range, (zero_register_invariant r0_prog [] r0_prog_in_range).2.1,
   (zero_register_invariant r0_prog [] r0_prog_in_range).2.2.1⟩

/-! ## Memory accesses -/

theorem mem_index_eq (a : Int) :
    mem_index a = if a % 4 = 0 ∧ 0 ≤ a / 4 ∧ a / 4 < 1024 then some (a / 4) else none := by
  unfold mem_index MEM_WORDS
  by_cases h : a.tmod 4 = 0
  · have hd : (4 : Int) ∣ a := Int.dvd_of_tmod_eq_zero h
    have h1 : a % 4 = 0 := Int.emod_eq_zero_of_dvd hd
    have h2 : a.tdiv 4 = a / 4 := Int.tdiv_eq_ediv_of_dvd hd
    simp only [h, h1, h2, if_true, true_and]
  · have h1 : ¬ a % 4 = 0 := fun h1 =>
      h (Int.tmod_eq_zero_of_dvd (Int.dvd_of_emod_eq_zero h1))
    simp only [h, h1, if_false, false_and]

theorem load_val_eq (memory : Int → Int) (a : Int) : load_val memory a = spec_load memory a := by
  unfold load_val spec_load
  rw [mem_index_eq]
  split_ifs <;> rfl

theorem store_mem_eq (memory : Int → Int) (a v : Int) :
    store_mem memory a v = spec_store memory a v := by
  unfold store_mem spec_store
  rw [mem_index_eq]
  funext j
  by_cases h : a % 4 = 0 ∧ 0 ≤ a / 4 ∧ a / 4 < 1024
  · simp only [h, if_true, true_and, upd]
  · simp only [h, if_false, false_and]

theorem mem_stage_memory (memory : Int → Int) (cur_exmem : EXMEM) :
    (mem_stage memory cur_exmem).1 =
      if cur_exmem.valid = true ∧ cur_exmem.ins.type = I_SW
        then store_mem memory cur_exmem.alu cur_exmem.store_val else memory := by
  unfold mem_stage
  by_cases hv : cur_exmem.valid = true
  · simp only [hv, if_true, true_and]
    cases ht : cur_exmem.ins.type <;> simp
  · simp [hv]

theorem single_exec_memory {labels : List Label} {ins : Instr} {m m1 : Machine}
    {pc pc1 : Int} (h : single_exec labels ins m pc = some (m1, pc1)) :
    (ins.type = I_LW →
      m1.regfile = upd m.regfile ins.rd
        (load_val m.memory (add32 (m.regfile ins.rs) ins.imm)) ∧ m1.memory = m.memory) ∧
    (ins.type = I_SW →
      m1.memory = store_mem m.memory (add32 (m.regfile ins.rd) ins.imm) (m.regfile ins.rs) ∧
      m1.regfile = m.regfile) ∧
    (ins.type ≠ I_SW → m1.memory = m.memory) := by
  unfold single_exec at h
  cases ht : ins.type <;> simp only [ht] at h <;>
    simp only [Option.bind_eq_bind, Option.bind_eq_some, Option.pure_def,
      Option.some.injEq, Prod.mk.injEq] at h
  case I_LW =>
    obtain ⟨b, hb, rf, hrf, rfl, _⟩ := h
    obtain ⟨_, _, rfl⟩ := arr_read_some hb
    obtain ⟨_, rfl⟩ := arr_write_inv hrf
    simp
  case I_SW =>
    obtain ⟨b, hb, h⟩ := h
    obtain ⟨_, _, rfl⟩ := arr_read_some hb
    unfold store_mem
    cases hm : mem_index (add32 (m.regfile ins.rd) ins.imm) with
    | none =>
      rw [hm] at h
      simp only [Option.some.injEq, Prod.mk.injEq] at h
      obtain ⟨rfl, _⟩ := h
      simp
    | some idx =>
      rw [hm] at h
      simp only [Option.bind_eq_bind, Option.bind_eq_some, Option.pure_def,
        Option.some.injEq, Prod.mk.injEq] at h
      obtain ⟨v, hv, rfl, _⟩ := h
      obtain ⟨_, _, rfl⟩ := arr_read_some hv
      simp
  case I_NOP => obtain ⟨rfl, _⟩ := h; simp
  case I_ADD => obtain ⟨a, _, b, _, rf, _, rfl, _⟩ := h; simp
  case I_SUB => obtain ⟨a, _, b, _, rf, _, rfl, _⟩ := h; simp
  case I_BEQ =>
    obtain ⟨a, _, b, _, h⟩ := h
    split_ifs at h <;> simp only [Option.some.injEq, Prod.mk.injEq] at h <;>
      obtain ⟨rfl, _⟩ := h <;> simp
  case I_J =>
    split_ifs at h <;> simp only [Option.some.injEq, Prod.mk.injEq] at h <;>
      obtain ⟨rfl, _⟩ := h <;> simp
  case I_OUT => obtain ⟨a, _, po, _, rfl, _⟩ := h; simp
  case I_SET => obtain ⟨rf, _, rfl, _⟩ := h; simp

/-- Claim C13: for every byte address `a`, a LOAD yields `memory[a/4]` when
`a mod 4 = 0` and `0 <= a/4 < 1024` and `0` otherwise, and a STORE writes exactly word
`a/4` under the same condition and otherwise leaves memory unchanged; the word index
is always in `0..1023`.  The MEM stage of the pipeline and the LOAD and STORE cases of
`run_single` both follow this rule, and no other opcode changes memory. -/
theorem memory_access_rule :
    (∀ memory a, load_val memory a = spec_load memory a) ∧
    (∀ memory a v, store_mem memory a v = spec_store memory a v) ∧
    (∀ a idx, mem_index a = some idx → a % 4 = 0 ∧ idx = a / 4 ∧ 0 ≤ idx ∧ idx < 1024) ∧
    (∀ memory (x : EXMEM),
      (x.valid = true → x.ins.type = I_LW →
        mem_stage memory x = (memory, ⟨true, x.pc, x.ins, spec_load memory x.alu⟩)) ∧
      (x.valid = true → x.ins.type = I_SW →
        (mem_stage memory x).1 = spec_store memory x.alu x.store_val) ∧
      (¬ (x.valid = true ∧ x.ins.type = I_SW) → (mem_stage memory x).1 = memory)) ∧
    (∀ labels ins m pc m1 pc1, single_exec labels ins m pc = some (m1, pc1) →
      (ins.type = I_LW →
        m1.regfile = upd m.regfile ins.rd
          (spec_load m.memory (add32 (m.regfile ins.rs) ins.imm)) ∧
        m1.memory = m.memory) ∧
      (ins.type = I_SW →
        m1.memory =
          spec_store m.memory (add32 (m.regfile ins.rd) ins.imm) (m.regfile ins.rs)) ∧
      (ins.type ≠ I_SW → m1.memory = m.memory)) := by
  refine ⟨load_val_eq, store_mem_eq, ?_, ?_, ?_⟩
  · intro a idx h
    rw [mem_index_eq] at h
    split_ifs at h with hc
    simp only [Option.some.injEq] at h
    subst h
    exact ⟨hc.1, rfl, hc.2.1, hc.2.2⟩
  · intro memory x
    refine ⟨?_, ?_, ?_⟩
    · intro hv ht
      rw [mem_stage_load memory hv ht, load_val_eq]
    · intro hv ht
      rw [mem_stage_memory, if_pos ⟨hv, ht⟩, store_mem_eq]
    · intro hn
      rw [mem_stage_memory, if_neg hn]
  · intro labels ins m pc m1 pc1 h
    obtain ⟨h1, h2, h3⟩ := single_exec_memory h
    refine ⟨?_, ?_, h3⟩
    · intro ht
      rw [← load_val_eq]; exact h1 ht
    · intro ht
      rw [← store_mem_eq]; exact (h2 ht).1

/-! ## Runs that have completed -/

theorem pipe_loop_done (prog : List Instr) (labels : List Label) (a : Nat) :
    ∀ (s f : Pipe), pipe_loop prog labels a s = some f →
      (f.empty = true ∧ f.pc ≥ (prog.length : Int)) →
      ∀ k, pipe_loop prog labels (a + k) s = some f ∧
        pipe_outs prog labels (a + k) s = pipe_outs prog labels a s := by
  induction a with
  | zero =>
    intro s f h hd k
    simp only [pipe_loop, Option.some.injEq] at h
    subst h
    cases k with
    | zero => exact ⟨rfl, rfl⟩
    | succ k =>
      simp only [Nat.zero_add]
      unfold pipe_loop pipe_outs
      simp only [hd, ge_iff_le, and_self, if_true]
  | succ a ih =>
    intro s f h hd k
    have e : a + 1 + k = (a + k) + 1 := by omega
    rw [e]
    unfold pipe_loop at h
    unfold pipe_loop pipe_outs
    by_cases hc : s.empty = true ∧ s.pc ≥ (prog.length : Int)
    · simp only [hc, and_self, if_true] at h ⊢
      exact ⟨h, trivial⟩
    · simp only [hc, if_false] at h ⊢
      cases ho : cycle_step prog labels s with
      | none => rw [ho] at h; cases h
      | some o =>
        rw [ho] at h
        simp only at h ⊢
        obtain ⟨h1, h2⟩ := ih o.next f h hd k
        exact ⟨h1, by rw [h2]⟩

/-- Claim C14: `SET R1,5 / SET R2,7 / ADD R3,R1,R2 / OUT 0,R3` on `run_pipelined` with
any cap of at least 8 runs 8 cycles, retires exactly 4 instructions and ends with
R3 = 12 and output port 0 = 12; no cycle signals a load-use stall or takes a branch;
when the ADD is in ID/EX (after 4 cycles) its decode-time operands are 0 and 0, MEM/WB
holds `SET R1,5`, EX/MEM holds `SET R2,7`, and forwarding supplies 5 and 7. -/
theorem demo_scenario (max_cycles : Int) (hcap : 8 ≤ max_cycles) :
    (∃ s, run_pipelined demo_prog [] max_cycles = some s ∧ s.cycle = 8 ∧ s.retired = 4 ∧
      s.m.regfile 3 = 12 ∧ s.m.port_out 0 = 12 ∧ s.m.out_trace = [(0, 12)] ∧
      s.empty = true ∧ s.pc = 4) ∧
    (pipe_outs demo_prog [] max_cycles.toNat pipe_init).map
      (fun o => (o.load_use_stall, o.branch_taken)) = List.replicate 8 (false, false) ∧
    (pipe_loop demo_prog [] 4 pipe_init).map
      (fun s => (s.idex.valid, s.idex.ins, s.idex.rs_val, s.idex.rt_val,
        (s.memwb.valid, s.memwb.ins, s.memwb.result),
        (s.exmem.valid, s.exmem.ins, s.exmem.alu),
        forward s.idex s.exmem s.memwb)) =
      some (true, mk_instr I_ADD 3 1 2 0 "", 0, 0,
        (true, mk_instr I_SET 1 0 0 5 "", 5), (true, mk_instr I_SET 2 0 0 7 "", 7),
        { vrs := 5, vrt := 7, vrd := 0 }) := by
  have h8 : (pipe_loop demo_prog [] 8 pipe_init).map
      (fun s => (s.cycle, s.retired, s.m.regfile 3, s.m.port_out 0, s.m.out_trace,
        s.empty, s.pc)) = some (8, 4, 12, 12, [(0, 12)], true, 4) := by rfl
  obtain ⟨f, hf, hv⟩ := Option.map_eq_some'.1 h8
  simp only [Prod.mk.injEq] at hv
  obtain ⟨v1, v2, v3, v4, v5, v6, v7⟩ := hv
  have hd : f.empty = true ∧ f.pc ≥ ((demo_prog.length : Nat) : Int) := by
    refine ⟨v6, ?_⟩
    rw [v7]; decide
  obtain ⟨k, hk⟩ : ∃ k : Nat, max_cycles.toNat = 8 + k := ⟨max_cycles.toNat - 8, by omega⟩
  obtain ⟨g1, g2⟩ := pipe_loop_done demo_prog [] 8 pipe_init f hf hd k
  refine ⟨⟨f, ?_, v1, v2, v3, v4, v5, v6, v7⟩, ?_, by rfl⟩
  · unfold run_pipelined
    rw [hk]; exact g1
  · rw [hk, g2]
    decide

theorem demo_scenario_witness :
    (8 : Int) ≤ 200 ∧
    ∃ s, run_pipelined demo_prog [] 200 = some s ∧ s.cycle = 8 ∧ s.retired = 4 ∧
      s.m.regfile 3 = 12 ∧ s.m.port_out 0 = 12 ∧ s.m.out_trace = [(0, 12)] ∧
      s.empty = true ∧ s.pc = 4 :=
  ⟨by decide, (demo_scenario 200 (by decide)).1⟩

/-! ## The cycle cap -/

theorem pipe_loop_cycle (prog : List Instr) (labels : List Label) (n : Nat) :
    ∀ (s f : Pipe), pipe_loop prog labels n s = some f →
      s.cycle ≤ f.cycle ∧ f.cycle ≤ s.cycle + n ∧
      (f.cycle < s.cycle + n → f.empty = true ∧ f.pc ≥ (prog.length : Int)) := by
  induction n with
  | zero =>
    intro s f h
    simp only [pipe_loop, Option.some.injEq] at h
    subst h
    refine ⟨le_refl _, by simp, fun hlt => ?_⟩
    simp at hlt
  | succ n ih =>
    intro s f h
    unfold pipe_loop at h
    by_cases hc : s.empty = true ∧ s.pc ≥ (prog.length : Int)
    · simp only [hc, and_self, if_true, Option.some.injEq] at h
      subst h
      exact ⟨le_refl _, by push_cast; omega, fun _ => hc⟩
    · simp only [hc, if_false] at h
      cases ho : cycle_step prog labels s with
      | none => rw [ho] at h; cases h
      | some o =>
        rw [ho] at h
        simp only at h
        obtain ⟨m1, retired, id, nif, pc, hw, hid, hif, rfl⟩ := cycle_step_inv ho
        obtain ⟨h1, h2, h3⟩ := ih _ f h
        simp only at h1 h2 h3
        refine ⟨by omega, by push_cast; omega, fun hlt => h3 ?_⟩
        push_cast at hlt
        omega

/-- Claim C15, evaluated on `SET R1,5 / SET R2,7 / ADD R3,R1,R2 / OUT 0,R3` with
`max_cycles = 8`: the run performs 8 cycles and ends with the program counter
exhausted (4 of 4), all four latches empty and 4 instructions retired, and the cap
stop is reported. -/
theorem cap_reported_on_completion :
    (run_pipelined demo_prog [] 8).map
      (fun s => (s.cycle, s.pc, s.ifid.valid, s.idex.valid, s.exmem.valid, s.memwb.valid,
        s.retired, cap_reported 8 s)) = some (8, 4, false, false, false, false, 4, true) ∧
    demo_prog.length = 4 := by
  refine ⟨by rfl, rfl⟩

/-! ## Absence of faults -/

/-- Claim C16 fails as stated: in `OUT 16,R0` every register index is in `0..15`, yet
after four cycles the OUTPUT is in MEM/WB with port 16, the WB step subscripts
`port_out[16]` outside the 16-cell array, and the run faults. -/
theorem out_port_out_of_bounds :
    (∀ ins ∈ port_prog, ins.regs_in_range) ∧
    (run_pipelined port_prog [] 4).map
      (fun s => (s.memwb.valid, s.memwb.ins, (cycle_step port_prog [] s).isSome)) =
        some (true, mk_instr I_OUT 0 0 0 16 "", false) ∧
    (run_pipelined port_prog [] 200).isSome = false := by
  refine ⟨?_, by rfl, by rfl⟩
  intro ins h
  simp only [port_prog, List.mem_singleton] at h
  subst h
  simp [Instr.regs_in_range, mk_instr, REGS]

/-- Claim C16 as amended: for every program in which every register index and the port
of every OUTPUT is in `0..15`, and every label table and cycle cap, the run of
`run_pipelined` is defined, every state it reaches starts a defined cycle (no subscript
of the register file or the port array is out of bounds, and the fetch is inside the
program), and every memory access uses a word index in `0..1023`. -/
theorem cycles_well_defined (prog : List Instr) (labels : List Label)
    (hp : prog_in_range prog) :
    (∀ max_cycles, ∃ s, run_pipelined prog labels max_cycles = some s) ∧
    (∀ n s, pipe_loop prog labels n pipe_init = some s →
      ∃ o, cycle_step prog labels s = some o) ∧
    (∀ a idx, mem_index a = some idx → 0 ≤ idx ∧ idx < MEM_WORDS) := by
  refine ⟨?_, ?_, ?_⟩
  · intro max_cycles
    obtain ⟨s, h, _⟩ := pipe_loop_zero_reg prog labels hp max_cycles.toNat pipe_init
      pipe_init_in_range rfl
    exact ⟨s, h⟩
  · intro n s h
    obtain ⟨s1, h1, _, h3⟩ := pipe_loop_zero_reg prog labels hp n pipe_init
      pipe_init_in_range rfl
    rw [h] at h1
    simp only [Option.some.injEq] at h1
    subst h1
    exact cycle_step_some prog labels h3
  · intro a idx h
    rw [mem_index_eq] at h
    split_ifs at h with hc
    simp only [Option.some.injEq] at h
    subst h
    exact ⟨hc.2.1, hc.2.2⟩

theorem demo_prog_in_range : prog_in_range demo_prog := by
  intro ins h
  simp only [demo_prog, List.mem_cons, List.mem_singleton, List.not_mem_nil, or_false] at h
  rcases h with rfl | rfl | rfl | rfl <;> simp [Instr.in_range, mk_instr, REGS, MAX_PORTS]

theorem cycles_well_defined_witness :
    prog_in_range demo_prog ∧
    (∀ max_cycles, ∃ s, run_pipelined demo_prog [] max_cycles = some s) :=
  ⟨demo_prog_in_range, (cycles_well_defined demo_prog [] demo_prog_in_range).1⟩

/-! ## Independence from the prior contents of the globals -/

theorem upd_agree {size : Int} {a b : Int → Int}
    (h : ∀ i, 0 ≤ i ∧ i < size → a i = b i) (j v : Int) :
    ∀ i, 0 ≤ i ∧ i < size → upd a j v i = upd b j v i := by
  intro i hi
  unfold upd
  split_ifs
  · rfl
  · exact h i hi

theorem arr_read_agree {size : Int} {a b : Int → Int}
    (h : ∀ i, 0 ≤ i ∧ i < size → a i = b i) (i : Int) :
    arr_read size a i = arr_read size b i := by
  unfold arr_read
  split_ifs with hc
  · rw [h i hc]
  · rfl

theorem wb_stage_agree {m n : Machine} (h : same_arrays m n) (retired : Int)
    (cur_memwb : MEMWB) :
    (wb_stage m retired cur_memwb = none ∧ wb_stage n retired cur_memwb = none) ∨
    ∃ m1 n1 r1, wb_stage m retired cur_memwb = some (m1, r1) ∧
      wb_stage n retired cur_memwb = some (n1, r1) ∧ same_arrays m1 n1 := by
  obtain ⟨h1, h2, h3, h4⟩ := h
  by_cases hv : cur_memwb.valid = true
  · by_cases hw : writes_back cur_memwb.ins = true
    · by_cases hr : 0 ≤ cur_memwb.ins.rd ∧ cur_memwb.ins.rd < REGS
      · right
        refine ⟨{ m with regfile := upd (upd m.regfile cur_memwb.ins.rd cur_memwb.result) 0 0 },
          { n with regfile := upd (upd n.regfile cur_memwb.ins.rd cur_memwb.result) 0 0 },
          retired + 1, ?_, ?_, upd_agree (upd_agree h1 _ _) _ _, h2, h3, h4⟩ <;>
        · unfold wb_stage writes_back at *
          cases ht : cur_memwb.ins.type <;> simp [ht] at hw <;>
            simp [hv, ht, arr_write_some _ hr]
      · left
        constructor <;>
        · unfold wb_stage writes_back arr_write at *
          cases ht : cur_memwb.ins.type <;> simp [ht] at hw <;> simp [hv, ht, hr]
    · by_cases ho : cur_memwb.ins.type = I_OUT
      · by_cases hr : 0 ≤ cur_memwb.ins.imm ∧ cur_memwb.ins.imm < MAX_PORTS
        · right
          refine ⟨{ m with regfile := upd m.regfile 0 0,
                           port_out := upd m.port_out cur_memwb.ins.imm cur_memwb.result,
                           out_trace := m.out_trace ++
                             [(cur_memwb.ins.imm, cur_memwb.result)] },
            { n with regfile := upd n.regfile 0 0,
                     port_out := upd n.port_out cur_memwb.ins.imm cur_memwb.result,
                     out_trace := n.out_trace ++ [(cur_memwb.ins.imm, cur_memwb.result)] },
            retired + 1, ?_, ?_, upd_agree h1 _ _, h2, upd_agree h3 _ _, by simp [h4]⟩ <;>
          · unfold wb_stage
            simp [hv, ho, arr_write_some _ hr]
        · left
          constructor <;>
          · unfold wb_stage arr_write
            simp [hv, ho, hr]
      · right
        refine ⟨{ m with regfile := upd m.regfile 0 0 },
          { n with regfile := upd n.regfile 0 0 }, retired + 1, ?_, ?_,
          upd_agree h1 _ _, h2, h3, h4⟩ <;>
        · unfold wb_stage writes_back at *
          cases ht : cur_memwb.ins.type <;> simp [ht] at hw ho <;> simp [hv, ht]
  · right
    refine ⟨m, n, retired, ?_, ?_, h1, h2, h3, h4⟩ <;>
    · unfold wb_stage
      simp [hv]

theorem mem_stage_agree {a b : Int → Int}
    (h : ∀ i, 0 ≤ i ∧ i < MEM_WORDS → a i = b i) (cur_exmem : EXMEM) :
    (mem_stage a cur_exmem).2 = (mem_stage b cur_exmem).2 ∧
    ∀ i, 0 ≤ i ∧ i < MEM_WORDS → (mem_stage a cur_exmem).1 i = (mem_stage b cur_exmem).1 i := by
  have hl : ∀ addr, load_val a addr = load_val b addr := by
    intro addr
    unfold load_val
    cases hm : mem_index addr with
    | none => rfl
    | some idx =>
      simp only
      apply h
      rw [mem_index_eq] at hm
      split_ifs at hm with hc
      simp only [Option.some.injEq] at hm
      subst hm
      exact ⟨hc.2.1, hc.2.2⟩
  have hs : ∀ addr v i, 0 ≤ i ∧ i < MEM_WORDS →
      store_mem a addr v i = store_mem b addr v i := by
    intro addr v i hi
    unfold store_mem
    cases mem_index addr with
    | none => exact h i hi
    | some idx => exact upd_agree h _ _ i hi
  unfold mem_stage
  by_cases hv : cur_exmem.valid = true
  · simp only [hv, if_true]
    cases ht : cur_exmem.ins.type <;> simp only [] <;> refine ⟨?_, ?_⟩ <;>
      first
        | exact h
        | exact hs _ _
        | trivial
        | rfl
        | rw [hl]
  · simp only [hv, Bool.false_eq_true, if_false]
    exact ⟨trivial, h⟩

theorem id_stage_agree {a b : Int → Int}
    (h : ∀ i, 0 ≤ i ∧ i < REGS → a i = b i) (branch_taken : Bool) (cur_ifid : IFID)
    (cur_idex : IDEX) :
    id_stage a branch_taken cur_ifid cur_idex = id_stage b branch_taken cur_ifid cur_idex := by
  unfold id_stage
  rw [arr_read_agree h, arr_read_agree h, arr_read_agree h]

theorem cycle_step_agree (prog : List Instr) (labels : List Label) {a b : Pipe}
    (h : same_pipe a b) :
    (cycle_step prog labels a = none ∧ cycle_step prog labels b = none) ∨
    ∃ oa ob, cycle_step prog labels a = some oa ∧ cycle_step prog labels b = some ob ∧
      same_pipe oa.next ob.next := by
  obtain ⟨hm, e1, e2, e3, e4, e5, e6, e7⟩ := h
  unfold cycle_step
  rw [← e1, ← e2, ← e3, ← e4, ← e5, ← e6, ← e7]
  rcases wb_stage_agree hm a.retired a.memwb with ⟨n1, n2⟩ | ⟨m1, n1, r1, w1, w2, hs⟩
  · rw [n1, n2]; exact Or.inl ⟨rfl, rfl⟩
  · rw [w1, w2]
    simp only [Option.bind_eq_bind, Option.some_bind, Option.pure_def]
    rw [id_stage_agree hs.1]
    cases hid : id_stage n1.regfile (ex_stage labels a.idex a.exmem a.memwb).branch_taken
        a.ifid a.idex with
    | none => exact Or.inl ⟨rfl, rfl⟩
    | some id =>
      simp only [Option.some_bind]
      cases hif : if_stage prog (ex_stage labels a.idex a.exmem a.memwb).branch_taken
          (ex_stage labels a.idex a.exmem a.memwb).branch_target id.load_use_stall
          a.ifid a.pc with
      | none => exact Or.inl ⟨rfl, rfl⟩
      | some x =>
        obtain ⟨g1, g2⟩ := mem_stage_agree hs.2.1 a.exmem
        exact Or.inr ⟨_, _, rfl, rfl, ⟨hs.1, g2, hs.2.2.1, hs.2.2.2⟩, rfl, rfl, rfl, g1, rfl,
          rfl, rfl⟩

theorem pipe_loop_agree (prog : List Instr) (labels : List Label) (n : Nat) :
    ∀ a b : Pipe, same_pipe a b →
      (pipe_loop prog labels n a = none ∧ pipe_loop prog labels n b = none) ∨
      ∃ fa fb, pipe_loop prog labels n a = some fa ∧ pipe_loop prog labels n b = some fb ∧
        same_pipe fa fb := by
  induction n with
  | zero => intro a b h; exact Or.inr ⟨a, b, rfl, rfl, h⟩
  | succ n ih =>
    intro a b h
    have he : a.empty = b.empty := by
      obtain ⟨_, e1, e2, e3, e4, _⟩ := h
      unfold Pipe.empty
      rw [e1, e2, e3, e4]
    unfold pipe_loop
    rw [he, h.2.2.2.2.2.1]
    by_cases hc : b.empty = true ∧ b.pc ≥ (prog.length : Int)
    · rw [if_pos hc, if_pos hc]
      exact Or.inr ⟨a, b, rfl, rfl, h⟩
    · rw [if_neg hc, if_neg hc]
      rcases cycle_step_agree prog labels h with ⟨n1, n2⟩ | ⟨oa, ob, h1, h2, hs⟩
      · rw [n1, n2]; exact Or.inl ⟨rfl, rfl⟩
      · rw [h1, h2]
        exact ih _ _ hs

theorem reset_state_on_same (prior : Machine) : same_arrays (reset_state_on prior) reset_state := by
  refine ⟨?_, ?_, ?_, rfl⟩ <;> intro i hi
  · simp only [reset_state_on, reset_state, upd, clear]
    split_ifs <;> rfl
  · simp only [reset_state_on, reset_state, clear]
    rw [if_pos hi]
  · simp only [reset_state_on, reset_state, clear]
    rw [if_pos hi]

/-- Claim C17: the result of `run_pipelined` depends only on the program, the label
table and the cap.  For any prior contents of the globals the run faults exactly when
the run from the all-zero state of `reset_state` does, and otherwise ends with the same
latches, program counter, cycle count and retired count and the same value in every
cell of the register file, memory and output ports, and the same OUTPUT trace; hence
the same holds between the runs on any two prior contents. -/
theorem run_independent_of_prior (prog : List Instr) (labels : List Label)
    (max_cycles : Int) (prior1 prior2 : Machine) :
    ((run_pipelined_on prior1 prog labels max_cycles = none ∧
        run_pipelined prog labels max_cycles = none) ∨
      ∃ p q, run_pipelined_on prior1 prog labels max_cycles = some p ∧
        run_pipelined prog labels max_cycles = some q ∧ same_pipe p q) ∧
    ((run_pipelined_on prior1 prog labels max_cycles = none ∧
        run_pipelined_on prior2 prog labels max_cycles = none) ∨
      ∃ p q, run_pipelined_on prior1 prog labels max_cycles = some p ∧
        run_pipelined_on prior2 prog labels max_cycles = some q ∧ same_pipe p q) := by
  have h1 : same_pipe { pipe_init with m := reset_state_on prior1 } pipe_init :=
    ⟨reset_state_on_same prior1, rfl, rfl, rfl, rfl, rfl, rfl, rfl⟩
  have h2 : same_pipe { pipe_init with m := reset_state_on prior1 }
      { pipe_init with m := reset_state_on prior2 } := by
    obtain ⟨a1, a2, a3, a4⟩ := reset_state_on_same prior1
    obtain ⟨b1, b2, b3, b4⟩ := reset_state_on_same prior2
    exact ⟨⟨fun i hi => (a1 i hi).trans (b1 i hi).symm,
      fun i hi => (a2 i hi).trans (b2 i hi).symm,
      fun i hi => (a3 i hi).trans (b3 i hi).symm, a4.trans b4.symm⟩,
      rfl, rfl, rfl, rfl, rfl, rfl, rfl⟩
  exact ⟨pipe_loop_agree prog labels max_cycles.toNat _ _ h1,
    pipe_loop_agree prog labels max_cycles.toNat _ _ h2⟩

/-! ## What one cycle changes -/

/-- Claim C18 fails as stated: after seven cycles of
`SET R1,7 / J L / NOP / L: SW R1,0(R0)` the MEM/WB latch is empty and EX/MEM holds the
STORE with address 0 and value 7; the next cycle changes `memory[0]` from 0 to 7. -/
theorem store_writes_memory_in_mem_stage :
    (run_pipelined sw_prog sw_labels 7).map
      (fun s => (s.memwb.valid, s.exmem.valid, s.exmem.ins, s.exmem.alu, s.exmem.store_val,
        s.m.memory 0, (cycle_step sw_prog sw_labels s).map (fun o => o.next.m.memory 0))) =
      some (false, true, mk_instr I_SW 0 1 0 0 "", 0, 7, 0, some 7) := by
  rfl

theorem cycle_memory_aux {prog : List Instr} {labels : List Label} {s : Pipe} {o : CycleOut}
    (h : cycle_step prog labels s = some o) :
    o.next.m.memory =
      if s.exmem.valid = true ∧ s.exmem.ins.type = I_SW
        then store_mem s.m.memory s.exmem.alu s.exmem.store_val else s.m.memory := by
  obtain ⟨m1, retired, id, nif, pc, hw, hid, hif, rfl⟩ := cycle_step_inv h
  simp only
  rw [mem_stage_memory, wb_stage_memory hw]

/-- Claim C18 as amended: for every pipeline state whose MEM/WB latch is empty, one
cycle leaves the register file, the output ports, the OUTPUT trace and the retired
count unchanged; memory is changed by the MEM step alone: it becomes the result of the
STORE's write when EX/MEM holds a STORE and is unchanged otherwise. -/
theorem empty_wb_changes_no_register (prog : List Instr) (labels : List Label) (s : Pipe)
    (o : CycleOut) (h : cycle_step prog labels s = some o) (hv : s.memwb.valid = false) :
    o.next.m.regfile = s.m.regfile ∧ o.next.m.port_out = s.m.port_out ∧
    o.next.m.out_trace = s.m.out_trace ∧ o.next.retired = s.retired ∧
    o.next.m.memory =
      (if s.exmem.valid = true ∧ s.exmem.ins.type = I_SW
        then store_mem s.m.memory s.exmem.alu s.exmem.store_val else s.m.memory) := by
  refine ⟨?_, ?_, ?_, ?_, cycle_memory_aux h⟩ <;>
    (obtain ⟨m1, retired, id, nif, pc, hw, hid, hif, rfl⟩ := cycle_step_inv h
     obtain ⟨rfl, rfl⟩ := wb_stage_invalid hw hv
     rfl)

theorem empty_wb_changes_no_register_witness :
    (cycle_step ld_prog [] ld_state = some ld_out ∧ ld_state.memwb.valid = false) ∧
    ld_out.next.m.regfile = ld_state.m.regfile ∧
    ld_out.next.m.port_out = ld_state.m.port_out :=
  ⟨⟨(Option.some_get _).symm, rfl⟩,
   (empty_wb_changes_no_register ld_prog [] ld_state ld_out (Option.some_get _).symm rfl).1,
   (empty_wb_changes_no_register ld_prog [] ld_state ld_out (Option.some_get _).symm
     rfl).2.1⟩

/-! ## Register read after write-back in the same cycle -/

theorem write_then_read_aux {prog : List Instr} {labels : List Label} {s : Pipe}
    {o : CycleOut} (h : cycle_step prog labels s = some o)
    (hv : s.memwb.valid = true) (hw : is_writeback_op s.memwb.ins.type = true)
    (hd : s.memwb.ins.rd ≠ 0) (h0 : s.m.regfile 0 = 0)
    (hi : s.ifid.valid = true) (hb : o.branch_taken = false)
    (hs : o.load_use_stall = false) :
    o.next.idex.valid = true ∧ o.next.idex.ins = s.ifid.ins ∧
    o.next.idex.rs_val = (if s.ifid.ins.rs = s.memwb.ins.rd then s.memwb.result
      else s.m.regfile s.ifid.ins.rs) ∧
    o.next.idex.rt_val = (if s.ifid.ins.rt = s.memwb.ins.rd then s.memwb.result
      else s.m.regfile s.ifid.ins.rt) ∧
    o.next.idex.rd_val = (if s.ifid.ins.rd = s.memwb.ins.rd then s.memwb.result
      else s.m.regfile s.ifid.ins.rd) := by
  obtain ⟨m1, retired, id, nif, pc, hw1, hid, hif, rfl⟩ := cycle_step_inv h
  simp only at hb hs ⊢
  rw [hb] at hid
  have hz : hazard s.ifid s.idex = false := by
    cases hz : hazard s.ifid s.idex
    · rfl
    · simp only [id_stage, hi, hz, if_true, Bool.false_eq_true, if_false,
        Option.some.injEq] at hid
      subst hid
      simp at hs
  obtain ⟨_, e2, _⟩ := id_stage_issue hid hi hz
  obtain ⟨_, _, hr, _⟩ := wb_stage_valid hw1 hv
  have hwb : writes_back s.memwb.ins = true := by
    unfold writes_back
    cases ht : s.memwb.ins.type <;> simp [ht, is_writeback_op] at hw ⊢
  have key : ∀ f : Int, m1.regfile f =
      if f = s.memwb.ins.rd then s.memwb.result else s.m.regfile f := by
    intro f
    rw [hr, if_pos hwb]
    unfold upd
    by_cases hf0 : f = 0
    · subst hf0
      simp only [if_true]
      rw [if_neg (Ne.symm hd), h0]
    · simp only [hf0, if_false]
  rw [e2]
  exact ⟨rfl, rfl, key _, key _, key _⟩

/-- Claim C19: in every cycle in which MEM/WB holds a write-back instruction (ADD, SUB,
LOAD, SET) with destination `d ≠ 0` and result `v`, register 0 holds 0, and the IF/ID
instruction is issued into ID/EX (no branch taken, no stall), the value captured in
the next ID/EX latch for each operand field (rs, rt, rd) whose register index is `d`
is `v`, and for every other field it is the register's value from before the cycle. -/
theorem write_then_read (prog : List Instr) (labels : List Label) (s : Pipe)
    (o : CycleOut) (h : cycle_step prog labels s = some o)
    (hv : s.memwb.valid = true) (hw : is_writeback_op s.memwb.ins.type = true)
    (hd : s.memwb.ins.rd ≠ 0) (h0 : s.m.regfile 0 = 0)
    (hi : s.ifid.valid = true) (hb : o.branch_taken = false)
    (hs : o.load_use_stall = false) :
    o.next.idex.valid = true ∧ o.next.idex.ins = s.ifid.ins ∧
    o.next.idex.rs_val = (if s.ifid.ins.rs = s.memwb.ins.rd then s.memwb.result
      else s.m.regfile s.ifid.ins.rs) ∧
    o.next.idex.rt_val = (if s.ifid.ins.rt = s.memwb.ins.rd then s.memwb.result
      else s.m.regfile s.ifid.ins.rt) ∧
    o.next.idex.rd_val = (if s.ifid.ins.rd = s.memwb.ins.rd then s.memwb.result
      else s.m.regfile s.ifid.ins.rd) :=
  write_then_read_aux h hv hw hd h0 hi hb hs

theorem write_then_read_witness :
    (cycle_step wtr_prog [] wtr_state = some wtr_out ∧ wtr_state.memwb.valid = true ∧
      is_writeback_op wtr_state.memwb.ins.type = true ∧ wtr_state.memwb.ins.rd ≠ 0 ∧
      wtr_state.m.regfile 0 = 0 ∧ wtr_state.ifid.valid = true ∧
      wtr_out.branch_taken = false ∧ wtr_out.load_use_stall = false) ∧
    wtr_state.m.regfile 1 = 0 ∧ wtr_out.next.idex.rs_val = 5 ∧
    wtr_out.next.idex.ins = wtr_state.ifid.ins :=
  ⟨⟨(Option.some_get _).symm, by decide, by decide, by decide, by decide, by decide,
    by decide, by decide⟩, by decide, by decide,
   (write_then_read wtr_prog [] wtr_state wtr_out (Option.some_get _).symm (by decide)
     (by decide) (by decide) (by decide) (by decide) (by decide) (by decide)).2.1⟩

/-! ## Timing of straight-line programs -/

theorem ex_stage_no_branch (labels : List Label) {cur_idex : IDEX} (cur_exmem : EXMEM)
    (cur_memwb : MEMWB)
    (h : cur_idex.valid = true → cur_idex.ins.type ≠ I_BEQ ∧ cur_idex.ins.type ≠ I_J) :
    (ex_stage labels cur_idex cur_exmem cur_memwb).branch_taken = false := by
  cases hb : (ex_stage labels cur_idex cur_exmem cur_memwb).branch_taken
  · rfl
  · obtain ⟨hv, ht⟩ := ex_stage_taken_type hb
    rcases ht with ht | ht
    · exact absurd ht (h hv).1
    · exact absurd ht (h hv).2

theorem cycle_shape {prog : List Instr} {labels : List Label} {s : Pipe} {o : CycleOut}
    (h : cycle_step prog labels s = some o)
    (hnb : s.idex.valid = true → s.idex.ins.type ≠ I_BEQ ∧ s.idex.ins.type ≠ I_J) :
    o.next.cycle = s.cycle + 1 ∧ o.next.retired = s.retired + occ s.memwb.valid ∧
    o.next.memwb.valid = s.exmem.valid ∧ o.next.exmem.valid = s.idex.valid ∧
    (s.idex.valid = true → o.next.exmem.ins = s.idex.ins) ∧
    o.branch_taken = false ∧
    (s.ifid.valid = true ∧ hazard s.ifid s.idex = true →
      o.load_use_stall = true ∧ o.next.ifid = s.ifid ∧ o.next.pc = s.pc ∧
      o.next.idex.valid = false) ∧
    (¬ (s.ifid.valid = true ∧ hazard s.ifid s.idex = true) →
      o.load_use_stall = false ∧ o.next.idex.valid = s.ifid.valid ∧
      (s.ifid.valid = true → o.next.idex.ins = s.ifid.ins) ∧
      (s.pc < prog.length → o.next.pc = s.pc + 1 ∧ o.next.ifid.valid = true ∧
        prog_at prog s.pc = some o.next.ifid.ins) ∧
      (¬ s.pc < prog.length → o.next.pc = s.pc ∧ o.next.ifid.valid = false)) := by
  obtain ⟨m1, retired, id, nif, pc, hw, hid, hif, rfl⟩ := cycle_step_inv h
  have hb := ex_stage_no_branch labels s.exmem s.memwb hnb
  obtain ⟨b1, b2⟩ := ex_stage_latch labels s.idex s.exmem s.memwb
  obtain ⟨c1, _⟩ := mem_stage_latch m1.memory s.exmem
  rw [hb] at hid hif
  simp only
  have hret : retired = s.retired + occ s.memwb.valid := by
    cases hv : s.memwb.valid
    · obtain ⟨_, e⟩ := wb_stage_invalid hw hv
      rw [e]; simp [occ]
    · obtain ⟨e, _⟩ := wb_stage_valid hw hv
      rw [e]; simp [occ]
  refine ⟨trivial, hret, c1, b1, fun hv => (b2 hv).1, hb, ?_, ?_⟩
  · rintro ⟨hv, hz⟩
    simp only [id_stage, hv, hz, if_true, Bool.false_eq_true, if_false,
      Option.some.injEq] at hid
    subst hid
    simp only [if_stage, Bool.false_eq_true, if_false, if_true, Option.some.injEq,
      Prod.mk.injEq] at hif
    exact ⟨rfl, hif.1.symm, hif.2.symm, rfl⟩
  · intro hn
    have hid2 : id.load_use_stall = false ∧ id.next_idex.valid = s.ifid.valid ∧
        (s.ifid.valid = true → id.next_idex.ins = s.ifid.ins) := by
      cases hv : s.ifid.valid
      · rw [id_stage_empty_ifid _ _ _ hv] at hid
        simp only [Option.some.injEq] at hid
        subst hid
        exact ⟨rfl, rfl, fun h => by cases h⟩
      · have hz : hazard s.ifid s.idex = false := by
          cases hz : hazard s.ifid s.idex
          · rfl
          · exact absurd ⟨hv, hz⟩ hn
        obtain ⟨e1, e2, _⟩ := id_stage_issue hid hv hz
        rw [e1, e2]
        exact ⟨rfl, rfl, fun _ => rfl⟩
    obtain ⟨e1, e2, e3⟩ := hid2
    rw [e1, if_stage_fetch] at hif
    refine ⟨e1, e2, e3, ?_, ?_⟩
    · intro hlt
      rw [if_pos hlt] at hif
      simp only [Option.map_eq_some', Prod.mk.injEq] at hif
      obtain ⟨ins, hi, rfl, rfl⟩ := hif
      exact ⟨rfl, rfl, hi⟩
    · intro hge
      rw [if_neg hge] at hif
      simp only [Option.some.injEq, Prod.mk.injEq] at hif
      obtain ⟨rfl, rfl⟩ := hif
      exact ⟨rfl, rfl⟩

theorem prog_at_get {prog : List Instr} {i : Int} {x : Instr}
    (h : prog_at prog i = some x) : 0 ≤ i ∧ prog[i.toNat]? = some x ∧ x ∈ prog := by
  unfold prog_at at h
  split_ifs at h with h0
  rw [List.get?_eq_getElem?] at h
  exact ⟨h0, h, List.getElem?_mem h⟩

theorem count_load_use_drop {prog : List Instr} {i : Nat} {a b : Instr}
    (ha : prog[i]? = some a) (hb : prog[i + 1]? = some b) :
    count_load_use (prog.drop i) =
      (if a.type = I_LW ∧ uses_reg_source b a.rd = true then 1 else 0) +
        count_load_use (prog.drop (i + 1)) := by
  obtain ⟨h1, e1⟩ := List.getElem?_eq_some.1 ha
  obtain ⟨h2, e2⟩ := List.getElem?_eq_some.1 hb
  rw [List.drop_eq_getElem_cons h1, List.drop_eq_getElem_cons h2, e1, e2]
  rfl

theorem count_load_use_last {prog : List Instr} {i : Nat} (h : prog.length ≤ i + 1) :
    count_load_use (prog.drop i) = 0 := by
  have hl : (prog.drop i).length ≤ 1 := by
    rw [List.length_drop]; omega
  match hd : prog.drop i with
  | [] => rfl
  | [x] => rfl
  | x :: y :: r => rw [hd] at hl; simp at hl

theorem occ_true : occ true = 1 := rfl

theorem occ_false : occ false = 0 := rfl

theorem hazard_false_pair {cur_ifid : IFID} {cur_idex : IDEX}
    (hz : hazard cur_ifid cur_idex = false) (hv : cur_idex.valid = true) :
    ¬ (cur_idex.ins.type = I_LW ∧ uses_reg_source cur_ifid.ins cur_idex.ins.rd = true) := by
  rintro ⟨h1, h2⟩
  simp [hazard, hv, h1, h2] at hz

theorem timing_step (prog : List Instr) (labels : List Label) (hp : prog_in_range prog)
    (hb : no_branch prog) (hn : 1 ≤ prog.length) {s : Pipe} (hJ : timing_inv prog s)
    (hpos : 0 < cycles_left prog s) :
    ∃ o, cycle_step prog labels s = some o ∧ timing_inv prog o.next ∧
      cycles_left prog o.next + 1 = cycles_left prog s ∧ o.next.cycle = s.cycle + 1 := by
  obtain ⟨hr, hle, hI, hnI, hD, hID, hcnt⟩ := hJ
  obtain ⟨o, ho⟩ := cycle_step_some prog labels hr
  have hr1 := in_range_next hp hr ho
  obtain ⟨k1, k2, k3, k4, k5, k6, k7, k8⟩ := cycle_shape ho hD
  refine ⟨o, ho, ?_, ?_, k1⟩
  all_goals
    obtain ⟨p, hpc⟩ : ∃ p : Nat, s.pc = p := ⟨s.pc.toNat, (Int.toNat_of_nonneg hr.2.2.2.2).symm⟩
    rw [hpc] at hle hI hnI hID hcnt k7 k8
    have hple : p ≤ prog.length := by exact_mod_cast hle
  · -- the invariant is kept
    cases hv : s.ifid.valid
    · -- IF/ID empty
      have hnz : ¬ (s.ifid.valid = true ∧ hazard s.ifid s.idex = true) := by simp [hv]
      obtain ⟨_, e2, _, e4, e5⟩ := k8 hnz
      rw [hv] at e2 hcnt
      by_cases hlt : (p : Int) < prog.length
      · obtain ⟨f1, f2, f3⟩ := e4 hlt
        have hp0 : p = 0 := by
          rcases hnI hv with h | h
          · exact_mod_cast h
          · omega
        subst hp0
        refine ⟨hr1, ?_, ?_, ?_, ?_, ?_, ?_⟩
        · rw [f1]; push_cast; omega
        · intro _; rw [f1]; exact ⟨by simp, by simpa using f3⟩
        · intro h; rw [f2] at h; cases h
        · intro h; rw [e2] at h; cases h
        · intro _ h; rw [e2] at h; cases h
        · rw [k2, f1, f2, e2, k3, k4, occ_true, occ_false]
          rw [occ_false] at hcnt
          push_cast at hcnt ⊢
          omega
      · obtain ⟨f1, f2⟩ := e5 hlt
        refine ⟨hr1, ?_, ?_, ?_, ?_, ?_, ?_⟩
        · rw [f1]; exact hle
        · intro h; rw [f2] at h; cases h
        · intro _; rw [f1]; right; omega
        · intro h; rw [e2] at h; cases h
        · intro _ h; rw [e2] at h; cases h
        · rw [k2, f1, f2, e2, k3, k4, occ_false]
          rw [occ_false] at hcnt
          omega
    · -- IF/ID occupied
      obtain ⟨hp1, hprev⟩ := hI hv
      obtain ⟨_, _, hmem⟩ := prog_at_get hprev
      cases hz : hazard s.ifid s.idex
      · have hnz : ¬ (s.ifid.valid = true ∧ hazard s.ifid s.idex = true) := by simp [hz]
        obtain ⟨_, e2, e3, e4, e5⟩ := k8 hnz
        rw [hv] at e2 hcnt
        have hins := e3 hv
        by_cases hlt : (p : Int) < prog.length
        · obtain ⟨f1, f2, f3⟩ := e4 hlt
          refine ⟨hr1, ?_, ?_, ?_, ?_, ?_, ?_⟩
          · rw [f1]; omega
          · intro _; rw [f1]; exact ⟨by omega, by simpa using f3⟩
          · intro h; rw [f2] at h; cases h
          · intro _; rw [hins]; exact hb _ hmem
          · intro _ _
            rw [f1, hins]
            refine ⟨by omega, ?_⟩
            have e : (p : Int) + 1 - 2 = p - 1 := by omega
            rw [e]; exact hprev
          · rw [k2, f1, f2, e2, k3, k4, occ_true]
            rw [occ_true] at hcnt
            omega
        · obtain ⟨f1, f2⟩ := e5 hlt
          refine ⟨hr1, ?_, ?_, ?_, ?_, ?_, ?_⟩
          · rw [f1]; exact hle
          · intro h; rw [f2] at h; cases h
          · intro _; rw [f1]; right; omega
          · intro _; rw [hins]; exact hb _ hmem
          · intro h; rw [f2] at h; cases h
          · rw [k2, f1, f2, e2, k3, k4, occ_true, occ_false]
            rw [occ_true] at hcnt
            omega
      · obtain ⟨_, e2, e3, e4⟩ := k7 ⟨hv, hz⟩
        obtain ⟨z1, _, _⟩ := hazard_inv hz
        rw [hv, z1] at hcnt
        refine ⟨hr1, ?_, ?_, ?_, ?_, ?_, ?_⟩
        · rw [e3]; exact hle
        · intro _; rw [e3, e2]; exact ⟨hp1, hprev⟩
        · intro h; rw [e2, hv] at h; cases h
        · intro h; rw [e4] at h; cases h
        · intro _ h; rw [e4] at h; cases h
        · rw [k2, e2, e3, e4, k3, k4, hv, z1, occ_true, occ_false]
          rw [occ_true] at hcnt
          omega
  · -- one cycle fewer is left
    unfold cycles_left at hpos ⊢
    rw [hpc] at hpos ⊢
    simp only [Int.toNat_ofNat] at hpos ⊢
    cases hv : s.ifid.valid
    · have hnz : ¬ (s.ifid.valid = true ∧ hazard s.ifid s.idex = true) := by simp [hv]
      obtain ⟨_, e2, _, e4, e5⟩ := k8 hnz
      rw [hv] at e2 hpos
      by_cases hlt : (p : Int) < prog.length
      · obtain ⟨f1, f2, f3⟩ := e4 hlt
        have hp0 : p = 0 := by
          rcases hnI hv with h | h
          · exact_mod_cast h
          · omega
        subst hp0
        have e : ((0 : Nat) : Int) + 1 = ((1 : Nat) : Int) := by simp
        rw [f1, f2, e2, e]
        simp only [Int.toNat_ofNat, Bool.false_eq_true, and_false, and_true, if_false,
          true_or, if_true, false_and, false_or, hlt]
        simp only [Nat.sub_zero, Nat.sub_self, Nat.zero_sub]
        omega
      · obtain ⟨f1, f2⟩ := e5 hlt
        rw [f1, f2, e2, k3, k4]
        simp only [Bool.false_eq_true, false_or, hlt, if_false, false_and] at hpos ⊢
        revert hpos
        cases s.idex.valid <;> cases s.exmem.valid <;> cases s.memwb.valid <;> simp
    · obtain ⟨hp1, hprev⟩ := hI hv
      obtain ⟨_, hprev2, hmem⟩ := prog_at_get hprev
      have hp1n : 1 ≤ p := by exact_mod_cast hp1
      have et : ((p : Int) - 1).toNat = p - 1 := by omega
      rw [et] at hprev2
      simp only [true_or, if_true, true_and]
      -- the stalls still to come, before the cycle
      cases hz : hazard s.ifid s.idex
      · have hnz : ¬ (s.ifid.valid = true ∧ hazard s.ifid s.idex = true) := by simp [hz]
        obtain ⟨_, e2, e3, e4, e5⟩ := k8 hnz
        rw [hv] at e2
        have hpend : count_load_use (prog.drop (p - 1 -
            (if s.idex.valid = true then 1 else 0))) =
            count_load_use (prog.drop (p - 1)) := by
          cases hd : s.idex.valid
          · simp
          · obtain ⟨hp2, hpp⟩ := hID hv hd
            obtain ⟨_, hpp2, _⟩ := prog_at_get hpp
            have hp2n : 2 ≤ p := by exact_mod_cast hp2
            have et2 : ((p : Int) - 2).toNat = p - 2 := by omega
            rw [et2] at hpp2
            have e1 : p - 2 + 1 = p - 1 := by omega
            have hprev3 : prog[p - 2 + 1]? = some s.ifid.ins := by rw [e1]; exact hprev2
            have hc := count_load_use_drop hpp2 hprev3
            rw [if_neg (hazard_false_pair hz hd), e1] at hc
            simp only [if_true]
            have e3 : p - 1 - 1 = p - 2 := by omega
            rw [e3, hc]; simp
        rw [hpend]
        by_cases hlt : (p : Int) < prog.length
        · obtain ⟨f1, f2, f3⟩ := e4 hlt
          have e : (p : Int) + 1 = ((p + 1 : Nat) : Int) := by push_cast; rfl
          rw [f1, f2, e2, e]
          simp only [Int.toNat_ofNat, true_or, if_true, and_self]
          have e5 : p + 1 - 1 - 1 = p - 1 := by omega
          rw [e5]
          have : p < prog.length := by exact_mod_cast hlt
          omega
        · obtain ⟨f1, f2⟩ := e5 hlt
          rw [f1, f2, e2]
          simp only [Bool.false_eq_true, false_or, hlt, if_false, if_true]
          have hpn : p = prog.length := by
            have : ¬ p < prog.length := by exact_mod_cast hlt
            omega
          rw [count_load_use_last (by omega)]
          omega
      · obtain ⟨_, e2, e3, e4⟩ := k7 ⟨hv, hz⟩
        obtain ⟨z1, z2, z3⟩ := hazard_inv hz
        obtain ⟨hp2, hpp⟩ := hID hv z1
        obtain ⟨_, hpp2, _⟩ := prog_at_get hpp
        have hp2n : 2 ≤ p := by exact_mod_cast hp2
        have et2 : ((p : Int) - 2).toNat = p - 2 := by omega
        rw [et2] at hpp2
        have e1 : p - 2 + 1 = p - 1 := by omega
        have hprev3 : prog[p - 2 + 1]? = some s.ifid.ins := by rw [e1]; exact hprev2
        have hc := count_load_use_drop hpp2 hprev3
        rw [if_pos ⟨z2, z3⟩, e1] at hc
        rw [e2, e3, e4, hv, z1]
        simp only [Int.toNat_ofNat, true_or, if_true, and_self, Bool.false_eq_true,
          and_false, if_false]
        have e3 : p - 1 - 1 = p - 2 := by omega
        rw [e3, hc]
        simp only [Nat.sub_zero]
        omega

theorem timing_done {prog : List Instr} {s : Pipe} :
    cycles_left prog s = 0 ↔ (s.empty = true ∧ s.pc ≥ (prog.length : Int)) := by
  unfold cycles_left Pipe.empty
  constructor
  · intro h
    by_cases h1 : s.ifid.valid = true ∨ s.pc < (prog.length : Int)
    · rw [if_pos h1] at h; omega
    · rw [if_neg h1] at h
      simp only [not_or, Bool.not_eq_true, not_lt] at h1
      revert h
      cases s.idex.valid <;> cases s.exmem.valid <;> cases s.memwb.valid <;>
        simp [h1.1, h1.2]
  · rintro ⟨he, hpc⟩
    simp only [Bool.and_eq_true, Bool.not_eq_true', Bool.not_eq_eq_eq_not,
      Bool.not_true] at he
    obtain ⟨⟨⟨a, b⟩, c⟩, d⟩ := he
    have hlt : ¬ s.pc < (prog.length : Int) := by omega
    simp [a, b, c, d, hlt]

theorem timing_loop (prog : List Instr) (labels : List Label) (hp : prog_in_range prog)
    (hb : no_branch prog) (hn : 1 ≤ prog.length) (cap : Nat) :
    ∀ s : Pipe, timing_inv prog s → cycles_left prog s ≤ cap →
      ∃ f, pipe_loop prog labels cap s = some f ∧
        f.cycle = s.cycle + cycles_left prog s ∧ f.empty = true ∧
        f.pc = prog.length ∧ f.retired = prog.length := by
  have fin : ∀ s : Pipe, timing_inv prog s → s.empty = true ∧ s.pc ≥ (prog.length : Int) →
      s.cycle = s.cycle + cycles_left prog s ∧ s.empty = true ∧
        s.pc = prog.length ∧ s.retired = prog.length := by
    intro s hJ hd
    have h0 := timing_done.2 hd
    obtain ⟨_, hle, _, _, _, _, hcnt⟩ := hJ
    have he := hd.1
    simp only [Pipe.empty, Bool.and_eq_true, Bool.not_eq_true', Bool.not_eq_eq_eq_not,
      Bool.not_true] at he
    obtain ⟨⟨⟨a, b⟩, c⟩, d⟩ := he
    rw [a, b, c, d, occ_false] at hcnt
    have hpc : s.pc = prog.length := le_antisymm hle hd.2
    refine ⟨by rw [h0]; simp, hd.1, hpc, by omega⟩
  induction cap with
  | zero =>
    intro s hJ hc
    have h0 : cycles_left prog s = 0 := by omega
    exact ⟨s, rfl, fin s hJ (timing_done.1 h0)⟩
  | succ cap ih =>
    intro s hJ hc
    unfold pipe_loop
    by_cases hd : s.empty = true ∧ s.pc ≥ (prog.length : Int)
    · rw [if_pos hd]
      exact ⟨s, rfl, fin s hJ hd⟩
    · rw [if_neg hd]
      have hpos : 0 < cycles_left prog s := by
        rcases Nat.eq_zero_or_pos (cycles_left prog s) with h | h
        · exact absurd (timing_done.1 h) hd
        · exact h
      obtain ⟨o, ho, hJ1, hc1, hcy⟩ := timing_step prog labels hp hb hn hJ hpos
      rw [ho]
      obtain ⟨f, hf, g1, g2, g3, g4⟩ := ih o.next hJ1 (by omega)
      refine ⟨f, hf, ?_, g2, g3, g4⟩
      rw [g1, hcy, ← hc1]
      push_cast
      omega

theorem pipe_init_timing (prog : List Instr) (hn : 1 ≤ prog.length) :
    timing_inv prog pipe_init ∧
      cycles_left prog pipe_init = prog.length + 4 + count_load_use prog := by
  refine ⟨⟨pipe_init_in_range, ?_, ?_, ?_, ?_, ?_, ?_⟩, ?_⟩
  · simp [pipe_init]
  · intro h; cases h
  · intro _; left; rfl
  · intro h; cases h
  · intro h; cases h
  · rfl
  · unfold cycles_left
    have hlt : pipe_init.pc < (prog.length : Int) := by
      simp only [pipe_init]; omega
    rw [if_pos (Or.inr hlt)]
    simp [pipe_init, IFID.zero]

/-- Claim C20: for every program of `n ≥ 1` instructions without BRANCH-EQ or JUMP
(register indices and ports in range), with `k` the number of positions `i` where
`prog[i]` is a LOAD and `prog[i+1]` reads its destination, `run_pipelined` with any cap
of at least `n + 4 + k` executes exactly `n + 4 + k` cycles, retires exactly `n`
instructions and ends with all four latches empty and the program counter at `n`. -/
theorem straight_line_cycles (prog : List Instr) (labels : List Label)
    (hn : 1 ≤ prog.length) (hb : no_branch prog) (hp : prog_in_range prog)
    (max_cycles : Int)
    (hcap : ((prog.length + 4 + count_load_use prog : Nat) : Int) ≤ max_cycles) :
    ∃ s, run_pipelined prog labels max_cycles = some s ∧
      s.cycle = ((prog.length + 4 + count_load_use prog : Nat) : Int) ∧
      s.retired = prog.length ∧ s.empty = true ∧ s.pc = prog.length := by
  obtain ⟨hJ, hc⟩ := pipe_init_timing prog hn
  obtain ⟨f, hf, g1, g2, g3, g4⟩ := timing_loop prog labels hp hb hn max_cycles.toNat
    pipe_init hJ (by rw [hc]; omega)
  refine ⟨f, hf, ?_, g4, g2, g3⟩
  rw [g1, hc]
  simp [pipe_init]

theorem ld_prog_in_range : prog_in_range ld_prog := by
  intro ins h
  simp only [ld_prog, List.mem_cons, List.mem_singleton, List.not_mem_nil, or_false] at h
  rcases h with rfl | rfl | rfl <;> simp [Instr.in_range, mk_instr, REGS]

theorem ld_prog_no_branch : no_branch ld_prog := by
  intro ins h
  simp only [ld_prog, List.mem_cons, List.mem_singleton, List.not_mem_nil, or_false] at h
  rcases h with rfl | rfl | rfl <;> simp [mk_instr]

theorem straight_line_cycles_witness :
    (1 ≤ ld_prog.length ∧ no_branch ld_prog ∧ prog_in_range ld_prog ∧
      ((ld_prog.length + 4 + count_load_use ld_prog : Nat) : Int) ≤ 200) ∧
    count_load_use ld_prog = 1 ∧
    ∃ s, run_pipelined ld_prog [] 200 = some s ∧
      s.cycle = ((ld_prog.length + 4 + count_load_use ld_prog : Nat) : Int) ∧
      s.retired = ld_prog.length ∧ s.empty = true ∧ s.pc = ld_prog.length :=
  ⟨⟨by decide, ld_prog_no_branch, ld_prog_in_range, by decide⟩, by decide,
   straight_line_cycles ld_prog [] (by decide) ld_prog_no_branch ld_prog_in_range 200
     (by decide)⟩

/-! ## The sequential reference on straight-line programs -/

theorem single_exec_straight (labels : List Label) {ins : Instr} (m : Machine) (pc : Int)
    (hi : ins.in_range) (hb : ins.type ≠ I_BEQ ∧ ins.type ≠ I_J) :
    ∃ m1, single_exec labels ins m pc = some (m1, pc + 1) ∧
      m1.regfile = (if writes_back ins = true
        then upd m.regfile ins.rd
          (match ins.type with
            | I_ADD => add32 (m.regfile ins.rs) (m.regfile ins.rt)
            | I_SUB => sub32 (m.regfile ins.rs) (m.regfile ins.rt)
            | I_LW => load_val m.memory (add32 (m.regfile ins.rs) ins.imm)
            | _ => ins.imm)
        else m.regfile) ∧
      m1.memory = (if ins.type = I_SW
        then store_mem m.memory (add32 (m.regfile ins.rd) ins.imm) (m.regfile ins.rs)
        else m.memory) ∧
      m1.port_out = (if ins.type = I_OUT
        then upd m.port_out ins.imm (m.regfile ins.rs) else m.port_out) ∧
      m1.out_trace = (if ins.type = I_OUT
        then m.out_trace ++ [(ins.imm, m.regfile ins.rs)] else m.out_trace) := by
  obtain ⟨h1, h2, h3, h4⟩ := hi
  unfold single_exec writes_back
  cases ht : ins.type <;>
    simp only [Option.bind_eq_bind, Option.pure_def, arr_read_in _ h1, arr_read_in _ h2,
      arr_read_in _ h3, arr_write_some _ h1, Option.some_bind]
  · exact ⟨_, rfl, by simp⟩
  · exact ⟨_, rfl, by simp⟩
  · exact ⟨_, rfl, by simp⟩
  · exact ⟨_, rfl, by simp⟩
  · unfold store_mem
    cases mem_index (add32 (m.regfile ins.rd) ins.imm) with
    | none => exact ⟨_, rfl, by simp⟩
    | some idx =>
      simp only [Option.bind_eq_bind, Option.pure_def, arr_read_in _ h2, Option.some_bind]
      exact ⟨_, rfl, by simp⟩
  · exact absurd ht hb.1
  · exact absurd ht hb.2
  · rw [arr_write_some _ (h4 ht)]
    exact ⟨_, rfl, by simp⟩
  · exact ⟨_, rfl, by simp⟩

theorem exl_eq (labels : List Label) (ins : Instr) (pc : Int) (regfile : Int → Int)
    (hb : ins.type ≠ I_BEQ ∧ ins.type ≠ I_J) :
    exl labels ins pc regfile =
      { valid := true, pc := pc, ins := ins,
        alu := (match ins.type with
          | I_ADD => add32 (regfile ins.rs) (regfile ins.rt)
          | I_SUB => sub32 (regfile ins.rs) (regfile ins.rt)
          | I_SET => ins.imm
          | I_LW => add32 (regfile ins.rs) ins.imm
          | I_SW => add32 (regfile ins.rd) ins.imm
          | I_OUT => regfile ins.rs
          | _ => 0),
        store_val := if ins.type = I_SW then regfile ins.rs else 0 } := by
  unfold exl ex_stage forward forward_memwb forward_exmem
  cases ht : ins.type <;> simp [EXMEM.zero, MEMWB.zero, ht]
  · exact absurd ht hb.1
  · exact absurd ht hb.2

theorem stages_compose (labels : List Label) {ins : Instr} (hi : ins.in_range)
    (hb : ins.type ≠ I_BEQ ∧ ins.type ≠ I_J) (M : Machine) (pc : Int) (m : Machine)
    (r : Int) :
    (mem_stage M.memory (exl labels ins pc M.regfile)).1 =
      (if ins.type = I_SW
        then store_mem M.memory (add32 (M.regfile ins.rd) ins.imm) (M.regfile ins.rs)
        else M.memory) ∧
    wb_stage m r (mem_stage M.memory (exl labels ins pc M.regfile)).2 =
      some ({ regfile := upd (if writes_back ins = true
                then upd m.regfile ins.rd
                  (match ins.type with
                    | I_ADD => add32 (M.regfile ins.rs) (M.regfile ins.rt)
                    | I_SUB => sub32 (M.regfile ins.rs) (M.regfile ins.rt)
                    | I_LW => load_val M.memory (add32 (M.regfile ins.rs) ins.imm)
                    | _ => ins.imm)
                else m.regfile) 0 0,
              memory := m.memory,
              port_out := (if ins.type = I_OUT
                then upd m.port_out ins.imm (M.regfile ins.rs) else m.port_out),
              out_trace := (if ins.type = I_OUT
                then m.out_trace ++ [(ins.imm, M.regfile ins.rs)] else m.out_trace) },
            r + 1) := by
  obtain ⟨h1, h2, h3, h4⟩ := hi
  rw [exl_eq labels ins pc M.regfile hb]
  unfold mem_stage wb_stage writes_back
  cases ht : ins.type
  case I_BEQ => exact absurd ht hb.1
  case I_J => exact absurd ht hb.2
  case I_OUT => simp [ht, arr_write_some _ (h4 ht)]
  all_goals simp [ht, arr_write_some _ h1]

theorem single_step_straight {prog : List Instr} (labels : List Label)
    (hp : prog_in_range prog) (hb : no_branch prog) {s : Single} {i : Nat} {ins : Instr}
    (hpc : s.pc = i) (hi : prog[i]? = some ins) :
    ∃ m1, single_exec labels ins s.m s.pc = some (m1, s.pc + 1) ∧
      single_step prog labels s =
        some { m := { m1 with regfile := upd m1.regfile 0 0 }, pc := s.pc + 1,
               cycles := s.cycles + 1, executed := s.executed + 1 } := by
  have hmem : ins ∈ prog := List.getElem?_mem hi
  obtain ⟨m1, h1, _⟩ := single_exec_straight labels s.m s.pc (hp ins hmem) (hb ins hmem)
  refine ⟨m1, h1, ?_⟩
  have hat : prog_at prog s.pc = some ins := by
    unfold prog_at
    rw [hpc, if_pos (by omega), List.get?_eq_getElem?]
    simpa using hi
  unfold single_step
  simp only [hat, h1, Option.bind_eq_bind, Option.some_bind, Option.pure_def]

theorem seq_run_pc {prog : List Instr} (labels : List Label) (hp : prog_in_range prog)
    (hb : no_branch prog) :
    ∀ i, (seq_run prog labels i).pc = ((min i prog.length : Nat) : Int) := by
  intro i
  induction i with
  | zero => simp [seq_run, single_init]
  | succ i ih =>
    unfold seq_run seq_step
    rw [ih]
    by_cases hlt : i < prog.length
    · have hm : min i prog.length = i := by omega
      rw [hm, if_pos (by exact_mod_cast hlt)]
      obtain ⟨ins, hins⟩ : ∃ ins, prog[i]? = some ins :=
        ⟨prog[i], List.getElem?_eq_getElem hlt⟩
      rw [hm] at ih
      obtain ⟨m1, _, h2⟩ := single_step_straight labels hp hb ih hins
      rw [h2]
      simp only [Option.getD_some, ih]
      have : min (i + 1) prog.length = i + 1 := by omega
      rw [this]; push_cast; rfl
    · have hm : min i prog.length = prog.length := by omega
      rw [hm, if_neg (by omega), ih, hm]
      have : min (i + 1) prog.length = prog.length := by omega
      rw [this]

theorem seq_run_ge {prog : List Instr} (labels : List Label) (hp : prog_in_range prog)
    (hb : no_branch prog) {i : Nat} (h : prog.length ≤ i) :
    seq_run prog labels i = seq_run prog labels prog.length := by
  induction i with
  | zero =>
    have : prog.length = 0 := by omega
    rw [this]
  | succ i ih =>
    by_cases he : prog.length = i + 1
    · rw [he]
    · have hle : prog.length ≤ i := by omega
      rw [← ih hle]
      show seq_step prog labels (seq_run prog labels i) = _
      unfold seq_step
      rw [seq_run_pc labels hp hb i]
      have hm : min i prog.length = prog.length := by omega
      rw [hm, if_neg (by omega)]

theorem seq_run_succ {prog : List Instr} (labels : List Label) (hp : prog_in_range prog)
    (hb : no_branch prog) {i : Nat} {ins : Instr} (hi : prog[i]? = some ins) :
    single_step prog labels (seq_run prog labels i) = some (seq_run prog labels (i + 1)) ∧
    (seq_run prog labels (i + 1)).m.regfile =
      upd (if writes_back ins = true
        then upd (seq_run prog labels i).m.regfile ins.rd
          (match ins.type with
            | I_ADD => add32 ((seq_run prog labels i).m.regfile ins.rs)
                ((seq_run prog labels i).m.regfile ins.rt)
            | I_SUB => sub32 ((seq_run prog labels i).m.regfile ins.rs)
                ((seq_run prog labels i).m.regfile ins.rt)
            | I_LW => load_val (seq_run prog labels i).m.memory
                (add32 ((seq_run prog labels i).m.regfile ins.rs) ins.imm)
            | _ => ins.imm)
        else (seq_run prog labels i).m.regfile) 0 0 ∧
    (seq_run prog labels (i + 1)).m.memory =
      (if ins.type = I_SW
        then store_mem (seq_run prog labels i).m.memory
          (add32 ((seq_run prog labels i).m.regfile ins.rd) ins.imm)
          ((seq_run prog labels i).m.regfile ins.rs)
        else (seq_run prog labels i).m.memory) ∧
    (seq_run prog labels (i + 1)).m.port_out =
      (if ins.type = I_OUT
        then upd (seq_run prog labels i).m.port_out ins.imm
          ((seq_run prog labels i).m.regfile ins.rs)
        else (seq_run prog labels i).m.port_out) ∧
    (seq_run prog labels (i + 1)).m.out_trace =
      (if ins.type = I_OUT
        then (seq_run prog labels i).m.out_trace ++
          [(ins.imm, (seq_run prog labels i).m.regfile ins.rs)]
        else (seq_run prog labels i).m.out_trace) := by
  obtain ⟨hlt, _⟩ := List.getElem?_eq_some.1 hi
  have hmem : ins ∈ prog := List.getElem?_mem hi
  have hpc : (seq_run prog labels i).pc = i := by
    rw [seq_run_pc labels hp hb i]
    have : min i prog.length = i := by omega
    rw [this]
  obtain ⟨m1, h1, h2, h3, h4, h5⟩ := single_exec_straight labels (seq_run prog labels i).m
    (seq_run prog labels i).pc (hp ins hmem) (hb ins hmem)
  obtain ⟨m2, g1, g2⟩ := single_step_straight labels hp hb hpc hi
  rw [h1] at g1
  simp only [Option.some.injEq, Prod.mk.injEq, and_true] at g1
  subst g1
  have hs : seq_run prog labels (i + 1) =
      { m := { m1 with regfile := upd m1.regfile 0 0 },
        pc := (seq_run prog labels i).pc + 1,
        cycles := (seq_run prog labels i).cycles + 1,
        executed := (seq_run prog labels i).executed + 1 } := by
    show seq_step prog labels (seq_run prog labels i) = _
    unfold seq_step
    rw [if_pos (by rw [hpc]; exact_mod_cast hlt), g2]
    rfl
  rw [g2, hs]
  simp only [h2, h3, h4, h5]
  exact ⟨trivial, trivial, trivial, trivial, trivial⟩

theorem seq_run_reg0 {prog : List Instr} (labels : List Label) (hp : prog_in_range prog)
    (hb : no_branch prog) : ∀ i, (seq_run prog labels i).m.regfile 0 = 0 := by
  intro i
  induction i with
  | zero => rfl
  | succ i ih =>
    by_cases hlt : i < prog.length
    · obtain ⟨_, h, _⟩ := seq_run_succ labels hp hb (List.getElem?_eq_getElem hlt)
      rw [h]; exact upd_same _ _ _
    · rw [seq_run_ge labels hp hb (by omega : prog.length ≤ i + 1),
        ← seq_run_ge labels hp hb (by omega : prog.length ≤ i)]
      exact ih

theorem seq_run_frame {prog : List Instr} (labels : List Label) (hp : prog_in_range prog)
    (hb : no_branch prog) {i : Nat} {a : Instr} (hi : prog[i]? = some a) {r : Int}
    (hr : r ≠ dest_reg a) :
    (seq_run prog labels (i + 1)).m.regfile r = (seq_run prog labels i).m.regfile r := by
  obtain ⟨_, h, _⟩ := seq_run_succ labels hp hb hi
  rw [h]
  by_cases h0 : r = 0
  · subst h0
    rw [upd_same, seq_run_reg0 labels hp hb i]
  · rw [upd_other _ _ h0]
    by_cases hw : writes_back a = true
    · rw [if_pos hw]
      have : r ≠ a.rd := by
        intro e; apply hr; simp [dest_reg, hw, e]
      rw [upd_other _ _ this]
    · rw [if_neg hw]

theorem hazard_free_tail {x : Instr} {xs : List Instr} (h : hazard_free (x :: xs)) :
    hazard_free xs := by
  match xs, h with
  | [], _ => trivial
  | [_], _ => trivial
  | _ :: _ :: _, h => exact h.2.2

theorem hazard_free_next {prog : List Instr} (h : hazard_free prog) :
    ∀ {i : Nat} {a b : Instr}, prog[i]? = some a → prog[i + 1]? = some b →
      uses_reg_source b (dest_reg a) = false := by
  induction prog with
  | nil => intro i a b ha; simp at ha
  | cons x xs ih =>
    intro i a b ha hb
    cases i with
    | zero =>
      simp only [List.getElem?_cons_zero, Option.some.injEq] at ha
      simp only [Nat.zero_add, List.getElem?_cons_succ] at hb
      subst ha
      match xs, h, hb with
      | [y], h, hb =>
        simp only [List.getElem?_cons_zero, Option.some.injEq] at hb
        subst hb; exact h
      | y :: z :: r, h, hb =>
        simp only [List.getElem?_cons_zero, Option.some.injEq] at hb
        subst hb; exact h.1
    | succ i =>
      simp only [List.getElem?_cons_succ] at ha hb
      exact ih (hazard_free_tail h) ha hb

theorem hazard_free_next2 {prog : List Instr} (h : hazard_free prog) :
    ∀ {i : Nat} {a c : Instr}, prog[i]? = some a → prog[i + 2]? = some c →
      uses_reg_source c (dest_reg a) = false := by
  induction prog with
  | nil => intro i a c ha; simp at ha
  | cons x xs ih =>
    intro i a c ha hc
    cases i with
    | zero =>
      simp only [List.getElem?_cons_zero, Option.some.injEq] at ha
      simp only [Nat.zero_add, List.getElem?_cons_succ] at hc
      subst ha
      match xs, h, hc with
      | [y], h, hc => simp at hc
      | y :: z :: r, h, hc =>
        simp only [List.getElem?_cons_succ, List.getElem?_cons_zero,
          Option.some.injEq] at hc
        subst hc; exact h.2.1
    | succ i =>
      simp only [List.getElem?_cons_succ] at ha hc
      exact ih (hazard_free_tail h) ha hc

/-! ## Lock-step of the pipeline with the sequential reference -/

theorem dest_reg_of_writeback {ins : Instr} (h : is_writeback_op ins.type = true) :
    dest_reg ins = ins.rd := by
  unfold dest_reg writes_back
  cases ht : ins.type <;> simp [ht, is_writeback_op] at h ⊢

theorem expected_operand_decoded {ins : Instr} {r : Int}
    (hu : uses_reg_source ins r = true) (dec : Int) (cur_exmem : EXMEM) (cur_memwb : MEMWB)
    (he : cur_exmem.valid = true → uses_reg_source ins (dest_reg cur_exmem.ins) = false)
    (hm : cur_memwb.valid = true → uses_reg_source ins (dest_reg cur_memwb.ins) = false) :
    expected_operand r dec cur_exmem cur_memwb = dec := by
  unfold expected_operand
  rw [if_neg, if_neg]
  · rintro ⟨hv, hw, _, hr⟩
    have := he hv
    rw [dest_reg_of_writeback hw, hr, hu] at this
    cases this
  · rintro ⟨hv, hw, hr⟩
    have := hm hv
    rw [dest_reg_of_writeback hw, hr, hu] at this
    cases this

theorem ex_stage_used (labels : List Label) (cur_idex : IDEX) (cur_exmem : EXMEM)
    (cur_memwb : MEMWB) (rf : Int → Int) (hv : cur_idex.valid = true)
    (hb : cur_idex.ins.type ≠ I_BEQ ∧ cur_idex.ins.type ≠ I_J)
    (hin : cur_idex.ins.in_range)
    (h : ∀ r, uses_reg_source cur_idex.ins r = true →
      (cur_idex.ins.rs = r → (forward cur_idex cur_exmem cur_memwb).vrs = rf r) ∧
      (cur_idex.ins.rt = r → (forward cur_idex cur_exmem cur_memwb).vrt = rf r) ∧
      (cur_idex.ins.rd = r → (forward cur_idex cur_exmem cur_memwb).vrd = rf r)) :
    ex_stage labels cur_idex cur_exmem cur_memwb =
      ⟨exl labels cur_idex.ins cur_idex.pc rf, false, -1⟩ := by
  obtain ⟨h1, h2, h3, _⟩ := hin
  have n1 : ¬ cur_idex.ins.rd < 0 := by omega
  have n2 : ¬ cur_idex.ins.rs < 0 := by omega
  have n3 : ¬ cur_idex.ins.rt < 0 := by omega
  rw [exl_eq labels _ _ _ hb]
  unfold ex_stage
  simp only [hv, if_true]
  cases ht : cur_idex.ins.type
  case I_BEQ => exact absurd ht hb.1
  case I_J => exact absurd ht hb.2
  case I_NOP => simp
  case I_SET => simp
  case I_ADD =>
    have a := (h cur_idex.ins.rs (by simp [uses_reg_source, ht, n2])).1 rfl
    have b := (h cur_idex.ins.rt (by simp [uses_reg_source, ht, n3])).2.1 rfl
    simp [a, b]
  case I_SUB =>
    have a := (h cur_idex.ins.rs (by simp [uses_reg_source, ht, n2])).1 rfl
    have b := (h cur_idex.ins.rt (by simp [uses_reg_source, ht, n3])).2.1 rfl
    simp [a, b]
  case I_LW =>
    have a := (h cur_idex.ins.rs (by simp [uses_reg_source, ht, n2])).1 rfl
    simp [a]
  case I_SW =>
    have a := (h cur_idex.ins.rs (by simp [uses_reg_source, ht, n2])).1 rfl
    have b := (h cur_idex.ins.rd (by simp [uses_reg_source, ht, n1])).2.2 rfl
    simp [a, b]
  case I_OUT =>
    have a := (h cur_idex.ins.rs (by simp [uses_reg_source, ht, n2])).1 rfl
    simp [a]

theorem exl_latch (labels : List Label) (ins : Instr) (pc : Int) (rf : Int → Int)
    (hb : ins.type ≠ I_BEQ ∧ ins.type ≠ I_J) :
    (exl labels ins pc rf).valid = true ∧ (exl labels ins pc rf).ins = ins := by
  rw [exl_eq labels ins pc rf hb]
  exact ⟨rfl, rfl⟩

theorem lockstep_step (prog : List Instr) (labels : List Label) (hp : prog_in_range prog)
    (hb : no_branch prog) (hf : hazard_free prog) {c : Nat} {s : Pipe}
    (hL : lockstep prog labels c s) :
    ∃ o, cycle_step prog labels s = some o ∧ lockstep prog labels (c + 1) o.next := by
  obtain ⟨l0, l1, l2, l3, l4, l5, l6, iv, ic, dv, dc, xv, xc, wv, wc⟩ := hL
  have getins : ∀ k, k < prog.length → ∃ ins, prog[k]? = some ins ∧ ins ∈ prog :=
    fun k hk => ⟨prog[k], List.getElem?_eq_getElem hk, List.getElem_mem _⟩
  have ltlen : ∀ {k : Nat} {ins : Instr}, prog[k]? = some ins → k < prog.length :=
    fun h => (List.getElem?_eq_some.1 h).1
  -- WB
  have hwb : ∃ m1 r1, wb_stage s.m s.retired s.memwb = some (m1, r1) ∧
      r1 = ((min (c - 3) prog.length : Nat) : Int) ∧
      m1.regfile = (seq_run prog labels (c - 3)).m.regfile ∧
      m1.port_out = (seq_run prog labels (c - 3)).m.port_out ∧
      m1.out_trace = (seq_run prog labels (c - 3)).m.out_trace ∧
      m1.memory = s.m.memory := by
    by_cases hw : 4 ≤ c ∧ c ≤ prog.length + 3
    · obtain ⟨ins, hins, hmem⟩ := getins (c - 4) (by omega)
      have hmw := wc ins hw.1 hins
      obtain ⟨_, sc2⟩ := stages_compose labels (hp ins hmem) (hb ins hmem)
        (seq_run prog labels (c - 4)).m ((c - 4 : Nat) : Int) s.m s.retired
      rw [← hmw] at sc2
      obtain ⟨_, q1, _, q3, q4⟩ := seq_run_succ labels hp hb hins
      have e : c - 4 + 1 = c - 3 := by omega
      rw [e] at q1 q3 q4
      refine ⟨_, _, sc2, ?_, ?_, ?_, ?_, rfl⟩
      · rw [l2]
        have : min (c - 3) prog.length = min (c - 4) prog.length + 1 := by omega
        rw [this]; push_cast; rfl
      · rw [q1, l3]
      · rw [q3, l4, l3]
      · rw [q4, l5, l3]
    · have hnv : s.memwb.valid = false := by
        cases hv : s.memwb.valid
        · rfl
        · exact absurd (wv.1 hv) hw
      have hQ : seq_run prog labels (c - 3) = seq_run prog labels (c - 4) := by
        by_cases h4 : c < 4
        · have : c - 3 = c - 4 := by omega
          rw [this]
        · rw [seq_run_ge labels hp hb (by omega : prog.length ≤ c - 3),
            seq_run_ge labels hp hb (by omega : prog.length ≤ c - 4)]
      refine ⟨s.m, s.retired, ?_, ?_, ?_, ?_, ?_, rfl⟩
      · unfold wb_stage; simp [hnv]
      · rw [l2]
        have : min (c - 3) prog.length = min (c - 4) prog.length := by omega
        rw [this]
      · rw [hQ, l3]
      · rw [hQ, l4]
      · rw [hQ, l5]
  obtain ⟨m1, r1, w0, w1, w2, w3, w4, w5⟩ := hwb
  -- MEM
  have hmem1 : (mem_stage s.m.memory s.exmem).1 = (seq_run prog labels (c - 2)).m.memory := by
    by_cases hx : 3 ≤ c ∧ c ≤ prog.length + 2
    · obtain ⟨ins, hins, hmem⟩ := getins (c - 3) (by omega)
      obtain ⟨sc1, _⟩ := stages_compose labels (hp ins hmem) (hb ins hmem)
        (seq_run prog labels (c - 3)).m ((c - 3 : Nat) : Int) s.m s.retired
      obtain ⟨_, _, q2, _⟩ := seq_run_succ labels hp hb hins
      have e : c - 3 + 1 = c - 2 := by omega
      rw [e] at q2
      rw [xc ins hx.1 hins, l6, sc1, q2]
    · have hnv : ¬ (s.exmem.valid = true ∧ s.exmem.ins.type = I_SW) :=
        fun h => hx (xv.1 h.1)
      rw [mem_stage_memory, if_neg hnv, l6]
      by_cases h3 : c < 3
      · have : c - 2 = c - 3 := by omega
        rw [this]
      · rw [seq_run_ge labels hp hb (by omega : prog.length ≤ c - 3),
          seq_run_ge labels hp hb (by omega : prog.length ≤ c - 2)]
  have hmem2 : (mem_stage s.m.memory s.exmem).2.valid = s.exmem.valid :=
    (mem_stage_latch s.m.memory s.exmem).1
  -- EX
  have hdnb : s.idex.valid = true → s.idex.ins.type ≠ I_BEQ ∧ s.idex.ins.type ≠ I_J := by
    intro hv
    obtain ⟨h1, h2⟩ := dv.1 hv
    obtain ⟨ins, hins, hmem⟩ := getins (c - 2) (by omega)
    rw [dc ins h1 hins]
    exact hb ins hmem
  have hexb := ex_stage_no_branch labels s.exmem s.memwb hdnb
  have hexv : (ex_stage labels s.idex s.exmem s.memwb).next_exmem.valid = s.idex.valid :=
    (ex_stage_latch labels s.idex s.exmem s.memwb).1
  have hexc : ∀ ins, 2 ≤ c → prog[c - 2]? = some ins →
      (ex_stage labels s.idex s.exmem s.memwb).next_exmem =
        exl labels ins ((c - 2 : Nat) : Int) (seq_run prog labels (c - 2)).m.regfile := by
    intro ins h2 hins
    have hmem : ins ∈ prog := List.getElem?_mem hins
    have hlt := ltlen hins
    have hdx := dc ins h2 hins
    have hin := hp ins hmem
    have hused : ∀ r, uses_reg_source ins r = true →
        (seq_run prog labels (c - 4)).m.regfile r =
          (seq_run prog labels (c - 2)).m.regfile r := by
      intro r hu
      have s1 : (seq_run prog labels (c - 3)).m.regfile r =
          (seq_run prog labels (c - 4)).m.regfile r := by
        by_cases h4 : 4 ≤ c
        · obtain ⟨a, ha, _⟩ := getins (c - 4) (by omega)
          have e : c - 4 + 1 = c - 3 := by omega
          have e2 : c - 4 + 2 = c - 2 := by omega
          have hne : r ≠ dest_reg a := by
            intro e3
            have := hazard_free_next2 hf ha (by rw [e2]; exact hins)
            rw [← e3, hu] at this; cases this
          have := seq_run_frame labels hp hb ha hne
          rw [e] at this; exact this
        · have : c - 3 = c - 4 := by omega
          rw [this]
      have s2 : (seq_run prog labels (c - 2)).m.regfile r =
          (seq_run prog labels (c - 3)).m.regfile r := by
        by_cases h3 : 3 ≤ c
        · obtain ⟨a, ha, _⟩ := getins (c - 3) (by omega)
          have e : c - 3 + 1 = c - 2 := by omega
          have hne : r ≠ dest_reg a := by
            intro e3
            have := hazard_free_next hf ha (by rw [e]; exact hins)
            rw [← e3, hu] at this; cases this
          have := seq_run_frame labels hp hb ha hne
          rw [e] at this; exact this
        · have : c - 2 = c - 3 := by omega
          rw [this]
      rw [s2, s1]
    have he : s.exmem.valid = true → uses_reg_source ins (dest_reg s.exmem.ins) = false := by
      intro hv
      obtain ⟨h3, _⟩ := xv.1 hv
      obtain ⟨a, ha, hma⟩ := getins (c - 3) (by omega)
      rw [xc a h3 ha, (exl_latch labels a _ _ (hb a hma)).2]
      have e : c - 3 + 1 = c - 2 := by omega
      exact hazard_free_next hf ha (by rw [e]; exact hins)
    have hm : s.memwb.valid = true → uses_reg_source ins (dest_reg s.memwb.ins) = false := by
      intro hv
      obtain ⟨h4, _⟩ := wv.1 hv
      obtain ⟨a, ha, hma⟩ := getins (c - 4) (by omega)
      rw [wc a h4 ha]
      have hl := exl_latch labels a ((c - 4 : Nat) : Int)
        (seq_run prog labels (c - 4)).m.regfile (hb a hma)
      rw [((mem_stage_latch _ _).2 hl.1).1, hl.2]
      have e : c - 4 + 2 = c - 2 := by omega
      exact hazard_free_next2 hf ha (by rw [e]; exact hins)
    have hfw := forward_spec s.idex s.exmem s.memwb
      (by rw [hdx]; exact hin.2.1.1) (by rw [hdx]; exact hin.2.2.1.1)
      (by rw [hdx]; exact hin.1.1)
    have hx := ex_stage_used labels s.idex s.exmem s.memwb
      (seq_run prog labels (c - 2)).m.regfile (by rw [hdx]) (by rw [hdx]; exact hb ins hmem)
      (by rw [hdx]; exact hin) (by
        intro r hu
        rw [hfw]
        rw [hdx] at hu ⊢
        simp only at hu ⊢
        refine ⟨?_, ?_, ?_⟩ <;> intro e <;> subst e <;>
          rw [expected_operand_decoded hu _ _ _ he hm] <;> exact hused _ hu)
    rw [hx, hdx]
  -- ID
  have hhz : s.ifid.valid = true → hazard s.ifid s.idex = false := by
    intro hv
    obtain ⟨h1, hcn⟩ := iv.1 hv
    cases hz : hazard s.ifid s.idex
    · rfl
    · exfalso
      obtain ⟨z1, z2, z3⟩ := hazard_inv hz
      obtain ⟨h2, _⟩ := dv.1 z1
      obtain ⟨a, ha, hma⟩ := getins (c - 2) (by omega)
      have hdx := dc a h2 ha
      rw [hdx] at z2 z3
      simp only at z2 z3
      obtain ⟨b, hb1, _⟩ := getins (c - 1) (by omega)
      rw [ic b (by omega) hb1] at z3
      simp only at z3
      have e : c - 2 + 1 = c - 1 := by omega
      have := hazard_free_next hf ha (by rw [e]; exact hb1)
      have hd : dest_reg a = a.rd := by simp [dest_reg, writes_back, z2]
      rw [hd, z3] at this
      cases this
  have hid : ∃ id, id_stage m1.regfile false s.ifid s.idex = some id ∧
      id.load_use_stall = false ∧
      (id.next_idex.valid = true ↔ 1 ≤ c ∧ c ≤ prog.length) ∧
      (∀ ins, 1 ≤ c → prog[c - 1]? = some ins →
        id.next_idex = ⟨true, ((c - 1 : Nat) : Int), ins,
          (seq_run prog labels (c - 3)).m.regfile ins.rs,
          (seq_run prog labels (c - 3)).m.regfile ins.rt,
          (seq_run prog labels (c - 3)).m.regfile ins.rd⟩) := by
    by_cases hi : 1 ≤ c ∧ c ≤ prog.length
    · obtain ⟨ins, hins, hmem⟩ := getins (c - 1) (by omega)
      have hv : s.ifid.valid = true := iv.2 hi
      have hfd := ic ins hi.1 hins
      obtain ⟨a1, a2, a3, _⟩ := hp ins hmem
      refine ⟨⟨⟨true, ((c - 1 : Nat) : Int), ins,
          (seq_run prog labels (c - 3)).m.regfile ins.rs,
          (seq_run prog labels (c - 3)).m.regfile ins.rt,
          (seq_run prog labels (c - 3)).m.regfile ins.rd⟩, false⟩, ?_, rfl, ?_, ?_⟩
      · unfold id_stage
        simp only [Bool.false_eq_true, if_false, hv, if_true, hhz hv]
        rw [hfd]
        simp only [arr_read_in _ a1, arr_read_in _ a2, arr_read_in _ a3,
          Option.bind_eq_bind, Option.some_bind, Option.pure_def, w2]
      · simp only [true_iff]; exact hi
      · intro ins2 _ hins2
        rw [hins] at hins2
        simp only [Option.some.injEq] at hins2
        subst hins2; rfl
    · have hnv : s.ifid.valid = false := by
        cases hv : s.ifid.valid
        · rfl
        · exact absurd (iv.1 hv) hi
      refine ⟨⟨IDEX.zero, false⟩, id_stage_empty_ifid _ _ _ hnv, rfl, ?_, ?_⟩
      · constructor
        · intro h; cases h
        · intro h; exact absurd h hi
      · intro ins h1 hins
        exact absurd ⟨h1, by have := ltlen hins; omega⟩ hi
  obtain ⟨id, d0, d1, d2, d3⟩ := hid
  -- IF
  have hif : ∃ nif npc, if_stage prog false
      (ex_stage labels s.idex s.exmem s.memwb).branch_target false s.ifid s.pc =
        some (nif, npc) ∧
      npc = ((min (c + 1) prog.length : Nat) : Int) ∧
      (nif.valid = true ↔ c + 1 ≤ prog.length) ∧
      (∀ ins, prog[c]? = some ins → nif = ⟨true, (c : Int), ins⟩) := by
    rw [if_stage_fetch, l1]
    by_cases hlt : c < prog.length
    · obtain ⟨ins, hins, hmem⟩ := getins c hlt
      have hm : min c prog.length = c := by omega
      rw [hm, if_pos (by exact_mod_cast hlt)]
      have hat : prog_at prog (c : Int) = some ins := by
        unfold prog_at
        rw [if_pos (by omega), List.get?_eq_getElem?]
        simpa using hins
      rw [hat]
      refine ⟨_, _, rfl, ?_, ?_, ?_⟩
      · have : min (c + 1) prog.length = c + 1 := by omega
        rw [this]; push_cast; rfl
      · simp only [true_iff]; omega
      · intro ins2 hins2
        rw [hins] at hins2
        simp only [Option.some.injEq] at hins2
        subst hins2; rfl
    · have hm : min c prog.length = prog.length := by omega
      rw [hm, if_neg (by omega)]
      refine ⟨_, _, rfl, ?_, ?_, ?_⟩
      · have : min (c + 1) prog.length = prog.length := by omega
        rw [this]
      · constructor
        · intro h; cases h
        · intro h; omega
      · intro ins hins
        exact absurd (ltlen hins) hlt
  obtain ⟨nif, npc, f0, f1, f2, f3⟩ := hif
  -- the cycle
  have hcyc : cycle_step prog labels s = some
      { next := { m := { m1 with memory := (mem_stage m1.memory s.exmem).1 },
                  ifid := nif, idex := id.next_idex,
                  exmem := (ex_stage labels s.idex s.exmem s.memwb).next_exmem,
                  memwb := (mem_stage m1.memory s.exmem).2,
                  pc := npc, cycle := s.cycle + 1, retired := r1 },
        branch_taken := false,
        branch_target := (ex_stage labels s.idex s.exmem s.memwb).branch_target,
        load_use_stall := false } := by
    unfold cycle_step
    simp only [w0, Option.bind_eq_bind, Option.some_bind, Option.pure_def, hexb, d0, d1, f0]
  refine ⟨_, hcyc, ?_⟩
  have e4 : c + 1 - 4 = c - 3 := by omega
  have e3 : c + 1 - 3 = c - 2 := by omega
  have e2 : c + 1 - 2 = c - 1 := by omega
  have e1 : c + 1 - 1 = c := by omega
  unfold lockstep
  simp only [e4, e3, e2, e1]
  rw [w5]
  refine ⟨?_, f1, w1, w2, w3, w4, hmem1, ?_, ?_, ?_, ?_, ?_, ?_, ?_, ?_⟩
  · rw [l0]; push_cast; rfl
  · rw [f2]; omega
  · intro ins _ hins; exact f3 ins hins
  · rw [d2]; omega
  · intro ins h hins; exact d3 ins (by omega) hins
  · rw [hexv, dv]; omega
  · intro ins h hins; exact hexc ins (by omega) hins
  · rw [hmem2, xv]; omega
  · intro ins h hins
    rw [xc ins (by omega) hins, l6]

theorem lockstep_final {prog : List Instr} (labels : List Label) (hp : prog_in_range prog)
    (hb : no_branch prog) {c : Nat} {s : Pipe} (hL : lockstep prog labels c s)
    (hd : s.empty = true ∧ s.pc ≥ (prog.length : Int)) :
    s.pc = prog.length ∧ s.retired = prog.length ∧
    s.m.regfile = (seq_run prog labels prog.length).m.regfile ∧
    s.m.memory = (seq_run prog labels prog.length).m.memory ∧
    s.m.port_out = (seq_run prog labels prog.length).m.port_out ∧
    s.m.out_trace = (seq_run prog labels prog.length).m.out_trace := by
  obtain ⟨l0, l1, l2, l3, l4, l5, l6, iv, ic, dv, dc, xv, xc, wv, wc⟩ := hL
  obtain ⟨he, hpc⟩ := hd
  simp only [Pipe.empty, Bool.and_eq_true, Bool.not_eq_true', Bool.not_eq_eq_eq_not,
    Bool.not_true] at he
  obtain ⟨⟨⟨a, b⟩, c1⟩, d⟩ := he
  have n1 : ¬ (1 ≤ c ∧ c ≤ prog.length) := fun h => by rw [iv.2 h] at a; cases a
  have n2 : ¬ (2 ≤ c ∧ c ≤ prog.length + 1) := fun h => by rw [dv.2 h] at b; cases b
  have n3 : ¬ (3 ≤ c ∧ c ≤ prog.length + 2) := fun h => by rw [xv.2 h] at c1; cases c1
  have n4 : ¬ (4 ≤ c ∧ c ≤ prog.length + 3) := fun h => by rw [wv.2 h] at d; cases d
  rw [l1] at hpc
  have hcn : prog.length ≤ min c prog.length := by exact_mod_cast hpc
  have h4 : prog.length ≤ c - 4 := by omega
  have h3 : prog.length ≤ c - 3 := by omega
  rw [seq_run_ge labels hp hb h4] at l3 l4 l5
  rw [seq_run_ge labels hp hb h3] at l6
  refine ⟨?_, ?_, l3, l6, l4, l5⟩
  · rw [l1]
    have : min c prog.length = prog.length := by omega
    rw [this]
  · rw [l2]
    have : min (c - 4) prog.length = prog.length := by omega
    rw [this]

theorem lockstep_loop (prog : List Instr) (labels : List Label) (hp : prog_in_range prog)
    (hb : no_branch prog) (hf : hazard_free prog) (d : Nat) :
    ∀ (c : Nat) (s : Pipe), lockstep prog labels c s → prog.length + 4 ≤ c + d →
      ∃ f, pipe_loop prog labels d s = some f ∧
        (f.empty = true ∧ f.pc ≥ (prog.length : Int)) ∧ ∃ c1, lockstep prog labels c1 f := by
  induction d with
  | zero =>
    intro c s hL hc
    refine ⟨s, rfl, ?_, c, hL⟩
    obtain ⟨l0, l1, l2, l3, l4, l5, l6, iv, ic, dv, dc, xv, xc, wv, wc⟩ := hL
    have a : s.ifid.valid = false := by
      cases hv : s.ifid.valid
      · rfl
      · have := iv.1 hv; omega
    have b : s.idex.valid = false := by
      cases hv : s.idex.valid
      · rfl
      · have := dv.1 hv; omega
    have c1 : s.exmem.valid = false := by
      cases hv : s.exmem.valid
      · rfl
      · have := xv.1 hv; omega
    have d1 : s.memwb.valid = false := by
      cases hv : s.memwb.valid
      · rfl
      · have := wv.1 hv; omega
    refine ⟨by simp [Pipe.empty, a, b, c1, d1], ?_⟩
    rw [l1]
    have : min c prog.length = prog.length := by omega
    rw [this]
  | succ d ih =>
    intro c s hL hc
    unfold pipe_loop
    by_cases hd : s.empty = true ∧ s.pc ≥ (prog.length : Int)
    · rw [if_pos hd]
      exact ⟨s, rfl, hd, c, hL⟩
    · rw [if_neg hd]
      obtain ⟨o, ho, hL1⟩ := lockstep_step prog labels hp hb hf hL
      rw [ho]
      exact ih (c + 1) o.next hL1 (by omega)

theorem lockstep_init (prog : List Instr) (labels : List Label) :
    lockstep prog labels 0 pipe_init := by
  unfold lockstep
  refine ⟨rfl, by simp [pipe_init], by simp [pipe_init], rfl, rfl, rfl, rfl, ?_, ?_, ?_, ?_,
    ?_, ?_, ?_, ?_⟩
  all_goals first
    | (constructor
       · intro h; cases h
       · intro h; omega)
    | (intro ins h; omega)

theorem single_loop_seq {prog : List Instr} (labels : List Label) (hp : prog_in_range prog)
    (hb : no_branch prog) (k : Nat) :
    ∀ i, i ≤ prog.length → prog.length ≤ i + k + 1 →
      single_loop prog labels k (seq_run prog labels i) =
        some (seq_run prog labels prog.length) := by
  induction k with
  | zero =>
    intro i hi hk
    unfold single_loop
    rw [seq_run_pc labels hp hb i]
    have hm : min i prog.length = i := by omega
    rw [hm]
    by_cases hlt : i < prog.length
    · rw [if_pos (by exact_mod_cast hlt)]
      have e : prog.length = i + 1 := by omega
      rw [(seq_run_succ labels hp hb (List.getElem?_eq_getElem hlt)).1, e]
    · rw [if_neg (by omega)]
      have e : i = prog.length := by omega
      rw [e]
  | succ k ih =>
    intro i hi hk
    unfold single_loop
    rw [seq_run_pc labels hp hb i]
    have hm : min i prog.length = i := by omega
    rw [hm]
    by_cases hlt : i < prog.length
    · rw [if_pos (by exact_mod_cast hlt)]
      rw [(seq_run_succ labels hp hb (List.getElem?_eq_getElem hlt)).1]
      exact ih (i + 1) (by omega) (by omega)
    · rw [if_neg (by omega)]
      have e : i = prog.length := by omega
      rw [e]

theorem hazard_free_equivalence_aux (prog : List Instr) (labels : List Label)
    (hb : no_branch prog) (hf : hazard_free prog) (hp : prog_in_range prog)
    (cap_p cap_s : Int) (hcp : (prog.length : Int) + 4 ≤ cap_p)
    (hcs : (prog.length : Int) ≤ cap_s) :
    ∃ p q, run_pipelined prog labels cap_p = some p ∧
      run_single prog labels cap_s = some q ∧
      (p.empty = true ∧ p.pc = prog.length ∧ p.retired = prog.length) ∧
      q.pc = prog.length ∧
      p.m.regfile = q.m.regfile ∧ p.m.memory = q.m.memory ∧
      p.m.port_out = q.m.port_out ∧ p.m.out_trace = q.m.out_trace := by
  obtain ⟨f, hf1, hd, c1, hL⟩ := lockstep_loop prog labels hp hb hf cap_p.toNat 0 pipe_init
    (lockstep_init prog labels) (by omega)
  obtain ⟨g1, g2, g3, g4, g5, g6⟩ := lockstep_final labels hp hb hL hd
  have hs := single_loop_seq labels hp hb (cap_s.toNat - 1) 0 (by omega) (by omega)
  have hq : (seq_run prog labels prog.length).pc = prog.length := by
    rw [seq_run_pc labels hp hb]; simp
  exact ⟨f, seq_run prog labels prog.length, hf1, hs, ⟨hd.1, g1, g2⟩, hq, g3, g4, g5, g6⟩

/-- Claim C12: for every program without BRANCH-EQ or JUMP in which no instruction
reads the write-back destination of either of the two instructions before it, with all
register indices and OUT ports in `0..15`, `run_pipelined` under any cap of at least
`n + 4` and `run_single` under any cap of at least `n` both complete naturally and leave
identical register files, identical memory, identical output ports and the same
sequence of `(port, value)` OUTPUT commits. -/
theorem hazard_free_equivalence (prog : List Instr) (labels : List Label)
    (hb : no_branch prog) (hf : hazard_free prog) (hp : prog_in_range prog)
    (cap_p cap_s : Int) (hcp : (prog.length : Int) + 4 ≤ cap_p)
    (hcs : (prog.length : Int) ≤ cap_s) :
    ∃ p q, run_pipelined prog labels cap_p = some p ∧
      run_single prog labels cap_s = some q ∧
      (p.empty = true ∧ p.pc = prog.length ∧ p.retired = prog.length) ∧
      q.pc = prog.length ∧
      p.m.regfile = q.m.regfile ∧ p.m.memory = q.m.memory ∧
      p.m.port_out = q.m.port_out ∧ p.m.out_trace = q.m.out_trace :=
  hazard_free_equivalence_aux prog labels hb hf hp cap_p cap_s hcp hcs

theorem hf_prog_ok : no_branch hf_prog ∧ hazard_free hf_prog ∧ prog_in_range hf_prog := by
  refine ⟨?_, ?_, ?_⟩
  · intro ins h
    simp only [hf_prog, List.mem_cons, List.mem_singleton, List.not_mem_nil, or_false] at h
    rcases h with rfl | rfl | rfl | rfl | rfl | rfl | rfl | rfl | rfl <;> simp [mk_instr]
  · simp [hazard_free, hf_prog, mk_instr, uses_reg_source, dest_reg, writes_back]
  · intro ins h
    simp only [hf_prog, List.mem_cons, List.mem_singleton, List.not_mem_nil, or_false] at h
    rcases h with rfl | rfl | rfl | rfl | rfl | rfl | rfl | rfl | rfl <;>
      simp [Instr.in_range, mk_instr, REGS, MAX_PORTS]

theorem hazard_free_equivalence_witness :
    (no_branch hf_prog ∧ hazard_free hf_prog ∧ prog_in_range hf_prog ∧
      (hf_prog.length : Int) + 4 ≤ 200 ∧ (hf_prog.length : Int) ≤ 200) ∧
    (run_single hf_prog [] 200).map
      (fun q => (q.m.regfile 3, q.m.regfile 4, q.m.memory 2, q.m.out_trace)) =
        some (10, 10, 10, [(0, 10)]) ∧
    ∃ p q, run_pipelined hf_prog [] 200 = some p ∧ run_single hf_prog [] 200 = some q ∧
      (p.empty = true ∧ p.pc = hf_prog.length ∧ p.retired = hf_prog.length) ∧
      q.pc = hf_prog.length ∧
      p.m.regfile = q.m.regfile ∧ p.m.memory = q.m.memory ∧
      p.m.port_out = q.m.port_out ∧ p.m.out_trace = q.m.out_trace :=
  ⟨⟨hf_prog_ok.1, hf_prog_ok.2.1, hf_prog_ok.2.2, by decide, by decide⟩, by decide,
   hazard_free_equivalence hf_prog [] hf_prog_ok.1 hf_prog_ok.2.1 hf_prog_ok.2.2 200 200
     (by decide) (by decide)⟩

end TrafficASP
